import Mathlib

/-!
# Fixed-size memory-pool allocator (`Bare_Matel_Assignment.c`)

A shallow embedding of the allocator engine: the descriptor table, the
best-fit search, split / merge / coalesce, and pointer validation.

Modelling conventions
* `blocks[0 .. block_count)` is a `List BlockDesc`; `block_count` is its
  length.  Slots of the C array at indices `≥ block_count` are never read by
  any function before they are written, so only the live prefix is kept.
* `size_t` values are `Nat`.  Every `size_t` sum the code forms is bounded by
  `POOL_SIZE` whenever the table partitions the arena, so no wrap-around is
  modelled for them.
* `int` values are `Int`; the post-increment of `next_alloc_id` wraps to the
  32-bit two's-complement range (`int_wrap`).  In C the overflowing increment
  is undefined; wrap-around is what two's-complement targets compute.
* A pointer is either `NULL` or a byte displacement relative to
  `memory_pool` (`Ptr.addr d` stands for the address `memory_pool + d`).
-/

namespace BareMetal

/-! ## Data model -/

/-- Arena capacity in bytes (`#define POOL_SIZE (102400)`). -/
def POOL_SIZE : Nat := 102400

/-- Descriptor table capacity (`#define MAX_BLOCKS 1024`). -/
def MAX_BLOCKS : Nat := 1024

/-- Largest value of a 32-bit `int`. -/
def INT_MAX : Int := 2147483647

/-- Result of an `int` computation, reduced to the 32-bit two's-complement range. -/
def int_wrap (x : Int) : Int := (x + 2147483648) % 4294967296 - 2147483648

/-- The C struct `BlockDesc`: `allocated` is 0 for free and 1 for allocated. -/
structure BlockDesc where
  allocated : Int
  alloc_id : Int
  offset : Nat
  size : Nat
deriving DecidableEq

/-- Content standing for a slot of `blocks[]` that lies outside the live prefix. -/
def stale_slot : BlockDesc := ⟨0, 0, 0, 0⟩

/-- The globals `blocks` / `block_count` (as a list) and `next_alloc_id`. -/
structure PoolState where
  blocks : List BlockDesc
  next_alloc_id : Int
deriving DecidableEq

/-- The C global `block_count`. -/
def PoolState.block_count (s : PoolState) : Nat := s.blocks.length

/-- State at program start: `block_count = 0`, `next_alloc_id = 1`. -/
def pristine : PoolState := ⟨[], 1⟩

/-- A pointer argument or result: `NULL`, or the address `memory_pool + d`. -/
inductive Ptr where
  | null : Ptr
  | addr (d : Int) : Ptr
deriving DecidableEq

/-- Which report `deallocate` makes before returning. -/
inductive DeallocReport where
  | invalid_entry     -- "Invalid entry of pointer address" (null pointer)
  | not_block_start   -- "pointer ... not recognized as block start"
  | already_free      -- "block at ... is already free"
  | deallocated       -- "pointer address ... is De-allocated"
deriving DecidableEq

/-! ## Operations -/

/-- The function `init_pool`: does nothing unless `block_count == 0`; otherwise
writes `blocks[0]` and sets `block_count = 1` (`next_alloc_id` is not touched). -/
def init_pool (s : PoolState) : PoolState :=
  if s.block_count ≠ 0 then s
  else { s with blocks := [⟨0, 0, 0, POOL_SIZE⟩] }

/-- The function `shift_right_and_insert_space(i)`: `none` is the return value 0,
taken when `block_count + 1 >= MAX_BLOCKS`.  On
success the descriptors from index `i` on move one slot right; slot `i` keeps
its previous content. -/
def shift_right_and_insert_space (bs : List BlockDesc) (i : Nat) : Option (List BlockDesc) :=
  if bs.length + 1 ≥ MAX_BLOCKS then none
  else some (bs.take i ++ bs.getD i stale_slot :: bs.drop i)

/-- The function `remove_block_at(i)`: descriptors after index `i` move one slot left and
`block_count` drops by one. -/
def remove_block_at (bs : List BlockDesc) (i : Nat) : List BlockDesc :=
  if i < bs.length then bs.eraseIdx i else bs.dropLast

/-- Loop of `find_best_fit_index`, at index `i` with the descriptors from `i`
on still to be scanned. -/
def find_best_fit_loop (want : Nat) : List BlockDesc → Nat → Int → Nat → Int
  | [], _, best, _ => best
  | b :: rest, i, best, best_size =>
    if b.allocated = 0 ∧ b.size ≥ want then
      if best = -1 ∨ b.size < best_size then
        find_best_fit_loop want rest (i + 1) (i : Int) b.size
      else find_best_fit_loop want rest (i + 1) best best_size
    else find_best_fit_loop want rest (i + 1) best best_size

/-- The function `find_best_fit_index(want)`; `best` starts at -1 and
`best_size` at `(size_t)-1`. -/
def find_best_fit_index (bs : List BlockDesc) (want : Nat) : Int :=
  find_best_fit_loop want bs 0 (-1) (2 ^ 64 - 1)

/-- Loop of `coalesce_free_blocks` at index `i`.  After a merge the C code
decrements `i` and the loop header increments it again, so the same index is
examined again.  Each iteration lowers `block_count - i`, so `block_count`
iterations of fuel are never used up (`coalesce_loop_eq`). -/
def coalesce_loop : Nat → Nat → List BlockDesc → List BlockDesc
  | 0, _, bs => bs
  | fuel + 1, i, bs =>
    if i + 1 < bs.length then
      let a := bs.getD i stale_slot
      let b := bs.getD (i + 1) stale_slot
      if a.allocated = 0 ∧ b.allocated = 0 then
        if a.offset + a.size = b.offset then
          coalesce_loop fuel i
            (remove_block_at (bs.set i { a with size := a.size + b.size }) (i + 1))
        else coalesce_loop fuel (i + 1) bs
      else coalesce_loop fuel (i + 1) bs
    else bs

/-- The function `coalesce_free_blocks`: returns at once when `block_count <= 1`,
otherwise runs the loop from index 0. -/
def coalesce_free_blocks (bs : List BlockDesc) : List BlockDesc :=
  if bs.length ≤ 1 then bs else coalesce_loop bs.length 0 bs

/-- Loop of `find_block_index_by_ptr`. -/
def find_offset_loop (off : Nat) : List BlockDesc → Nat → Int
  | [], _ => -1
  | b :: rest, i => if b.offset = off then (i : Int) else find_offset_loop off rest (i + 1)

/-- The function `find_block_index_by_ptr(ptr)`: -1 for a null pointer and for
an address outside `[memory_pool, memory_pool + POOL_SIZE)`. -/
def find_block_index_by_ptr (bs : List BlockDesc) : Ptr → Int
  | Ptr.null => -1
  | Ptr.addr d =>
    if d < 0 ∨ d ≥ (POOL_SIZE : Int) then -1
    else find_offset_loop d.toNat bs 0

/-- Lines 125-154 of `allocate`: the descriptor at index `best` of the table
`bs` has been selected for a request of `want` bytes. -/
def allocate_at (bs : List BlockDesc) (next_id : Int) (best : Nat) (want : Nat) :
    Ptr × PoolState :=
  let blk := bs.getD best stale_slot
  if blk.size = want then
    (Ptr.addr blk.offset,
      { blocks := bs.set best { blk with allocated := 1, alloc_id := next_id },
        next_alloc_id := int_wrap (next_id + 1) })
  else
    let original_offset := blk.offset
    let original_size := blk.size
    match shift_right_and_insert_space bs (best + 1) with
    | none =>
      (Ptr.addr blk.offset,
        { blocks := bs.set best { blk with allocated := 1, alloc_id := next_id },
          next_alloc_id := int_wrap (next_id + 1) })
    | some bs2 =>
      (Ptr.addr original_offset,
        { blocks :=
            (bs2.set best ⟨1, next_id, original_offset, want⟩).set (best + 1)
              ⟨0, 0, original_offset + want, original_size - want⟩,
          next_alloc_id := int_wrap (next_id + 1) })

/-- The function `allocate(size)`: the returned pointer and the state afterwards. -/
def allocate (s : PoolState) (size : Int) : Ptr × PoolState :=
  if size ≤ 0 then (Ptr.null, s)
  else if size.toNat > POOL_SIZE then (Ptr.null, s)
  else
    let best := find_best_fit_index s.blocks size.toNat
    if best = -1 then
      let bs := coalesce_free_blocks s.blocks
      let best := find_best_fit_index bs size.toNat
      if best = -1 then (Ptr.null, { s with blocks := bs })
      else allocate_at bs s.next_alloc_id best.toNat size.toNat
    else allocate_at s.blocks s.next_alloc_id best.toNat size.toNat

/-- The function `deallocate(ptr)`: the report made and the state afterwards. -/
def deallocate (s : PoolState) (ptr : Ptr) : DeallocReport × PoolState :=
  match ptr with
  | Ptr.null => (DeallocReport.invalid_entry, s)
  | Ptr.addr d =>
    let idx := find_block_index_by_ptr s.blocks (Ptr.addr d)
    if idx = -1 then (DeallocReport.not_block_start, s)
    else
      let k := idx.toNat
      let blk := s.blocks.getD k stale_slot
      if blk.allocated = 0 then (DeallocReport.already_free, s)
      else
        (DeallocReport.deallocated,
          { s with blocks :=
              coalesce_free_blocks (s.blocks.set k { blk with allocated := 0, alloc_id := 0 }) })

/-- States reachable from the initialised pool by `allocate` / `deallocate` calls. -/
inductive Reachable : PoolState → Prop where
  | init : Reachable (init_pool pristine)
  | alloc (s : PoolState) (size : Int) : Reachable s → Reachable (allocate s size).2
  | dealloc (s : PoolState) (ptr : Ptr) : Reachable s → Reachable (deallocate s ptr).2

/-- States a run of the program can be in: the state at program start and
every state that calls of `init_pool`, `allocate` and `deallocate`, in any
order, lead to from there. -/
inductive ProgramState : PoolState → Prop where
  | start : ProgramState pristine
  | init (s : PoolState) : ProgramState s → ProgramState (init_pool s)
  | alloc (s : PoolState) (size : Int) : ProgramState s → ProgramState (allocate s size).2
  | dealloc (s : PoolState) (ptr : Ptr) : ProgramState s → ProgramState (deallocate s ptr).2

/-! ## Specification predicates -/

/-- The descriptors of `bs`, in order, tile the byte range `[a, c)`: the first
starts at `a`, each one starts where its predecessor ends, the last ends at
`c`, and every size is positive. -/
def tiles : Nat → List BlockDesc → Nat → Prop
  | a, [], c => a = c
  | a, b :: rest, c => b.offset = a ∧ 0 < b.size ∧ tiles (a + b.size) rest c

/-- Partition invariant of the descriptor table, stated on indices. -/
def partition_inv (bs : List BlockDesc) : Prop :=
  0 < bs.length ∧
  (bs.getD 0 stale_slot).offset = 0 ∧
  (∀ i, i < bs.length - 1 →
    (bs.getD i stale_slot).offset + (bs.getD i stale_slot).size
      = (bs.getD (i + 1) stale_slot).offset) ∧
  (bs.getD (bs.length - 1) stale_slot).offset + (bs.getD (bs.length - 1) stale_slot).size
    = POOL_SIZE ∧
  (∀ i, i < bs.length → 0 < (bs.getD i stale_slot).size)

instance (bs : List BlockDesc) : Decidable (partition_inv bs) := by
  unfold partition_inv; infer_instance

/-- No two physically adjacent descriptors are both free. -/
def no_adjacent_free (bs : List BlockDesc) : Prop :=
  ∀ i, i < bs.length - 1 →
    ¬ ((bs.getD i stale_slot).allocated = 0 ∧ (bs.getD (i + 1) stale_slot).allocated = 0)

instance (bs : List BlockDesc) : Decidable (no_adjacent_free bs) := by
  unfold no_adjacent_free; infer_instance

/-- Recursive form of `no_adjacent_free`. -/
def no_adj : List BlockDesc → Prop
  | [] => True
  | [_] => True
  | a :: b :: rest => ¬ (a.allocated = 0 ∧ b.allocated = 0) ∧ no_adj (b :: rest)

/-- The coalescing pass as a recursion over the table: `cur` is the descriptor
at the loop index and `rest` the descriptors after it. -/
def merge_runs : BlockDesc → List BlockDesc → List BlockDesc
  | cur, [] => [cur]
  | cur, b :: rest =>
    if cur.allocated = 0 ∧ b.allocated = 0 then
      if cur.offset + cur.size = b.offset then
        merge_runs { cur with size := cur.size + b.size } rest
      else cur :: merge_runs b rest
    else cur :: merge_runs b rest

/-! ## Auxiliary definitions: invariants, test scenarios, runs, index lists, reference definition -/

/-- The table `allocate` works on after its first search: coalesced when that
search found nothing. -/
def retry_table (bs : List BlockDesc) (want : Nat) : List BlockDesc :=
  if find_best_fit_index bs want = -1 then coalesce_free_blocks bs else bs

/-- Invariant kept by `init_pool`, `allocate` and `deallocate`. -/
structure pool_inv (s : PoolState) : Prop where
  nonempty : s.blocks ≠ []
  tiled : tiles 0 s.blocks POOL_SIZE
  separated : no_adj s.blocks
  free_ids : ∀ b ∈ s.blocks, b.allocated = 0 → b.alloc_id = 0
  bounded : s.blocks.length + 1 ≤ MAX_BLOCKS

/-- State of `main` after `init_pool` and tests 1 to 3. -/
def after_test3 : PoolState :=
  let s0 := init_pool pristine
  let t1 := allocate s0 1
  let s1 := (deallocate t1.2 t1.1).2
  let t2 := allocate s1 (POOL_SIZE : Int)
  let s2 := (deallocate t2.2 t2.1).2
  let a := allocate s2 128
  let b := allocate a.2 256
  let s3 := (deallocate b.2 a.1).2
  (deallocate s3 b.1).2

/-- State of `main` in test 4 just before `allocate(512)`: `p1`, `p2`, `p3`
have been allocated and `p2` has been freed. -/
def before_p4 : PoolState :=
  let p1 := allocate after_test3 1024
  let p2 := allocate p1.2 2048
  let p3 := allocate p2.2 4096
  (deallocate p3.2 p2.1).2

/-- Fresh pool after `allocate(128)` and `allocate(256)`: test 3 with both
blocks live. -/
def two_live : PoolState := (allocate (allocate (init_pool pristine) 128).2 256).2

/-- Fresh pool after `allocate(128)`, `allocate(256)` and the release of the
first block: the 256-byte block at offset 128 is live behind a free block. -/
def freed_first : PoolState := (deallocate two_live (Ptr.addr 0)).2

/-- Handle of the descriptor at index `i`: `memory_pool + blocks[i].offset`. -/
def handle_of (s : PoolState) (i : Nat) : Ptr :=
  Ptr.addr ((s.blocks.getD i stale_slot).offset : Int)

/-- One call made by a client of the engine. -/
inductive Op where
  | alloc (size : Int) : Op
  | dealloc (ptr : Ptr) : Op

/-- State after one call. -/
def step (s : PoolState) : Op → PoolState
  | Op.alloc n => (allocate s n).2
  | Op.dealloc p => (deallocate s p).2

/-- State after a sequence of calls. -/
def run (s : PoolState) : List Op → PoolState
  | [] => s
  | op :: ops => run (step s op) ops

/-- The `alloc_id` stored in the descriptor a handle points to (0 if none). -/
def id_of_handle (s : PoolState) (p : Ptr) : Int :=
  if find_block_index_by_ptr s.blocks p = -1 then 0
  else (s.blocks.getD (find_block_index_by_ptr s.blocks p).toNat stale_slot).alloc_id

/-- The ids given out by the successful `allocate` calls of a run, in call
order, each read from the descriptor table right after its call. -/
def assigned_ids (s : PoolState) : List Op → List Int
  | [] => []
  | Op.alloc n :: ops =>
    if (allocate s n).1 = Ptr.null then assigned_ids (allocate s n).2 ops
    else id_of_handle (allocate s n).2 (allocate s n).1 :: assigned_ids (allocate s n).2 ops
  | Op.dealloc p :: ops => assigned_ids (deallocate s p).2 ops

/-- The allocated descriptors of a table, in table order. -/
def live (bs : List BlockDesc) : List BlockDesc :=
  bs.filter (fun b => decide (b.allocated ≠ 0))

/-- State after `k` rounds of `allocate(1)` followed by `deallocate` of the
returned handle. -/
def churn : Nat → PoolState → PoolState
  | 0, s => s
  | k + 1, s => churn k (deallocate (allocate s 1).2 (allocate s 1).1).2

/-- Id invariant after `k` successful allocations. -/
structure id_inv (s : PoolState) (k : Nat) : Prop where
  counter : s.next_alloc_id = int_wrap (1 + (k : Int))
  range : ∀ b ∈ live s.blocks, 1 ≤ b.alloc_id ∧ b.alloc_id ≤ (k : Int)
  distinct : ((live s.blocks).map (fun b => b.alloc_id)).Nodup

/-- Total number of bytes in free descriptors. -/
def free_bytes (bs : List BlockDesc) : Nat :=
  ((bs.filter (fun b => decide (b.allocated = 0))).map (fun b => b.size)).sum

/-- Loop of `shift_right_and_insert_space` with `j` counting down: the
indices `j` (written) and `j - 1` (read) of each iteration. -/
def shift_loop_indices : Nat → Nat → List Nat
  | 0, _ => []
  | j + 1, i => if j + 1 > i then (j + 1) :: j :: shift_loop_indices j i else []

/-- Indices of `blocks[]` that `shift_right_and_insert_space(i)` reads or
writes when the table holds `block_count` descriptors. -/
def shift_right_indices (block_count i : Nat) : List Nat :=
  if block_count + 1 ≥ MAX_BLOCKS then [] else shift_loop_indices block_count i

/-- Loop of `remove_block_at` at `j`: the indices `j` (written) and `j + 1`
(read) of each iteration, with the table length as fuel. -/
def remove_loop_indices : Nat → Nat → Nat → List Nat
  | 0, _, _ => []
  | fuel + 1, j, block_count =>
    if j < block_count - 1 then j :: (j + 1) :: remove_loop_indices fuel (j + 1) block_count
    else []

/-- Indices of `blocks[]` that `remove_block_at(i)` reads or writes. -/
def remove_block_indices (block_count i : Nat) : List Nat :=
  remove_loop_indices block_count i block_count

/-- Indices of `blocks[]` that lines 125-154 of `allocate` read or write
directly once index `best` is selected: `best`, and `best + 1` when the
split goes ahead. -/
def allocate_at_indices (bs : List BlockDesc) (best : Nat) (want : Nat) : List Nat :=
  if (bs.getD best stale_slot).size = want then [best]
  else
    match shift_right_and_insert_space bs (best + 1) with
    | none => [best]
    | some _ => [best, best + 1]

/-- The handles returned by `k` consecutive calls `allocate(size)` and the
state after them. -/
def fill (size : Int) : Nat → PoolState → List Ptr × PoolState
  | 0, s => ([], s)
  | k + 1, s =>
    ((allocate s size).1 :: (fill size k (allocate s size).2).1,
      (fill size k (allocate s size).2).2)

/-- State after `deallocate` has been called on each handle of a list, in order. -/
def drain : List Ptr → PoolState → PoolState
  | [], s => s
  | p :: ps, s => drain ps (deallocate s p).2

/-- The descriptors of `k` back-to-back allocations of `m` bytes starting at
offset `o`, with consecutive ids from `c`. -/
def filled (m : Nat) : Nat → Nat → Int → List BlockDesc
  | 0, _, _ => []
  | k + 1, o, c => ⟨1, c, o, m⟩ :: filled m k (o + m) (c + 1)

/-- The handles of `filled m k o c`. -/
def filled_handles (m : Nat) : Nat → Nat → List Ptr
  | 0, _ => []
  | k + 1, o => Ptr.addr (o : Int) :: filled_handles m k (o + m)

/-- Loop of `coalesce_free_blocks` at index `i`, counting the merges it
performs (the executions of `remove_block_at`). -/
def coalesce_loop_merges : Nat → Nat → List BlockDesc → Nat
  | 0, _, _ => 0
  | fuel + 1, i, bs =>
    if i + 1 < bs.length then
      let a := bs.getD i stale_slot
      let b := bs.getD (i + 1) stale_slot
      if a.allocated = 0 ∧ b.allocated = 0 then
        if a.offset + a.size = b.offset then
          1 + coalesce_loop_merges fuel i
            (remove_block_at (bs.set i { a with size := a.size + b.size }) (i + 1))
        else coalesce_loop_merges fuel (i + 1) bs
      else coalesce_loop_merges fuel (i + 1) bs
    else 0

/-- Number of merges performed by one call of `coalesce_free_blocks`. -/
def coalesce_merges (bs : List BlockDesc) : Nat :=
  if bs.length ≤ 1 then 0 else coalesce_loop_merges bs.length 0 bs

/-- Reference definition of coalescing, following the specification: each
maximal run of consecutive free descriptors is replaced by one descriptor
that keeps the flag, id and offset of the run's first descriptor and has the
sum of the run's sizes as size; allocated descriptors are kept as they are.
The first argument bounds the number of descriptors still to be treated. -/
def coalesce_reference_upto : Nat → List BlockDesc → List BlockDesc
  | 0, _ => []
  | _ + 1, [] => []
  | n + 1, b :: rest =>
    if b.allocated = 0 then
      { b with size := b.size +
          ((rest.takeWhile (fun x => decide (x.allocated = 0))).map (fun x => x.size)).sum } ::
        coalesce_reference_upto n (rest.dropWhile (fun x => decide (x.allocated = 0)))
    else b :: coalesce_reference_upto n rest

/-- Reference definition of coalescing on a whole table. -/
def coalesce_reference (bs : List BlockDesc) : List BlockDesc :=
  coalesce_reference_upto bs.length bs

/-! ## List bookkeeping -/

theorem getD_at {α : Type} (pre : List α) (x d : α) (post : List α) :
    (pre ++ x :: post).getD pre.length d = x := by
  rw [List.getD_append_right _ _ _ _ (le_refl _)]; simp

theorem getD_at_succ {α : Type} (pre : List α) (x y d : α) (post : List α) :
    (pre ++ x :: y :: post).getD (pre.length + 1) d = y := by
  rw [List.getD_append_right _ _ _ _ (Nat.le_succ _)]; simp

theorem set_at {α : Type} (pre : List α) (x y : α) (post : List α) :
    (pre ++ x :: post).set pre.length y = pre ++ y :: post := by simp

theorem set_at_succ {α : Type} (pre : List α) (x y z : α) (post : List α) :
    (pre ++ x :: y :: post).set (pre.length + 1) z = pre ++ x :: z :: post := by
  rw [List.set_append_right _ _ (Nat.le_succ _)]; simp

theorem eraseIdx_at_succ {α : Type} (pre : List α) (x y : α) (post : List α) :
    (pre ++ x :: y :: post).eraseIdx (pre.length + 1) = pre ++ x :: post := by
  rw [List.eraseIdx_append_of_length_le (Nat.le_succ _)]; simp

theorem take_at_succ {α : Type} (pre : List α) (x : α) (post : List α) :
    (pre ++ x :: post).take (pre.length + 1) = pre ++ [x] := by
  rw [List.take_append_eq_append_take]; simp

theorem drop_at_succ {α : Type} (pre : List α) (x : α) (post : List α) :
    (pre ++ x :: post).drop (pre.length + 1) = post := by simp

theorem split_at {α : Type} (bs : List α) (k : Nat) (d : α) (h : k < bs.length) :
    ∃ pre post, bs = pre ++ bs.getD k d :: post ∧ pre.length = k := by
  refine ⟨bs.take k, bs.drop (k + 1), ?_, ?_⟩
  · rw [List.getD_eq_getElem _ _ h, List.getElem_cons_drop, List.take_append_drop]
  · simp [List.length_take, Nat.le_of_lt h]

/-! ## The coalescing loop -/

/-- With at least as much fuel as there are descriptors after the loop index,
the loop of `coalesce_free_blocks` computes `merge_runs`. -/
theorem coalesce_loop_eq (rest : List BlockDesc) :
    ∀ (cur : BlockDesc) (pre : List BlockDesc) (fuel : Nat), rest.length ≤ fuel →
      coalesce_loop fuel pre.length (pre ++ cur :: rest) = pre ++ merge_runs cur rest := by
  induction rest with
  | nil =>
    intro cur pre fuel _
    cases fuel with
    | zero => simp [coalesce_loop, merge_runs]
    | succ n => simp [coalesce_loop, merge_runs]
  | cons b rest ih =>
    intro cur pre fuel hf
    cases fuel with
    | zero => simp at hf
    | succ n =>
      have hn : rest.length ≤ n := by simpa using hf
      have hlen : pre.length + 1 < (pre ++ cur :: b :: rest).length := by simp
      rw [coalesce_loop, if_pos hlen]
      simp only [getD_at, getD_at_succ, set_at]
      by_cases hfree : cur.allocated = 0 ∧ b.allocated = 0
      · by_cases hadj : cur.offset + cur.size = b.offset
        · have hlen2 : pre.length + 1 <
              (pre ++ { cur with size := cur.size + b.size } :: b :: rest).length := by simp
          rw [if_pos hfree, if_pos hadj, remove_block_at, if_pos hlen2, eraseIdx_at_succ,
            ih _ pre n hn]
          simp [merge_runs, hfree, hadj]
        · rw [if_pos hfree, if_neg hadj]
          have := ih b (pre ++ [cur]) n hn
          simp only [List.length_append, List.length_singleton, List.append_assoc,
            List.singleton_append] at this
          rw [this]
          simp [merge_runs, hfree, hadj]
      · rw [if_neg hfree]
        have := ih b (pre ++ [cur]) n hn
        simp only [List.length_append, List.length_singleton, List.append_assoc,
          List.singleton_append] at this
        rw [this]
        simp [merge_runs, hfree]

/-- The fuel of `coalesce_loop` does not run out: from `block_count - i - 1`
iterations on, more fuel does not change the result. -/
theorem coalesce_loop_fuel (rest : List BlockDesc) (cur : BlockDesc) (pre : List BlockDesc)
    (f1 f2 : Nat) (h1 : rest.length ≤ f1) (h2 : rest.length ≤ f2) :
    coalesce_loop f1 pre.length (pre ++ cur :: rest)
      = coalesce_loop f2 pre.length (pre ++ cur :: rest) := by
  rw [coalesce_loop_eq rest cur pre f1 h1, coalesce_loop_eq rest cur pre f2 h2]

/-- The function `coalesce_free_blocks` on a non-empty table. -/
theorem coalesce_cons (cur : BlockDesc) (rest : List BlockDesc) :
    coalesce_free_blocks (cur :: rest) = merge_runs cur rest := by
  unfold coalesce_free_blocks
  by_cases h : (cur :: rest).length ≤ 1
  · rw [if_pos h]
    cases rest with
    | nil => simp [merge_runs]
    | cons b r => simp at h
  · rw [if_neg h]
    have := coalesce_loop_eq rest cur [] (cur :: rest).length (by simp)
    simpa using this

theorem coalesce_nil : coalesce_free_blocks [] = [] := by
  simp [coalesce_free_blocks]

/-! ## Tiling and adjacency -/

theorem tiles_append (xs ys : List BlockDesc) :
    ∀ a c, tiles a (xs ++ ys) c ↔ ∃ m, tiles a xs m ∧ tiles m ys c := by
  induction xs with
  | nil => intro a c; simp [tiles]
  | cons x xs ih =>
    intro a c
    show (x.offset = a ∧ 0 < x.size ∧ tiles (a + x.size) (xs ++ ys) c) ↔
      ∃ m, (x.offset = a ∧ 0 < x.size ∧ tiles (a + x.size) xs m) ∧ tiles m ys c
    rw [ih]
    constructor
    · rintro ⟨h1, h2, m, h3, h4⟩; exact ⟨m, ⟨h1, h2, h3⟩, h4⟩
    · rintro ⟨m, ⟨h1, h2, h3⟩, h4⟩; exact ⟨h1, h2, m, h3, h4⟩

theorem tiles_le (bs : List BlockDesc) : ∀ a c, tiles a bs c → a ≤ c := by
  induction bs with
  | nil => intro a c h; simp [tiles] at h; omega
  | cons b bs ih =>
    intro a c h
    have := ih _ _ h.2.2
    omega

/-- The head of `merge_runs cur rest` is `cur` with a possibly larger size. -/
theorem merge_runs_head (rest : List BlockDesc) :
    ∀ cur, ∃ c tl, merge_runs cur rest = c :: tl ∧ c.allocated = cur.allocated ∧
      c.alloc_id = cur.alloc_id ∧ c.offset = cur.offset := by
  induction rest with
  | nil => intro cur; exact ⟨cur, [], by simp [merge_runs], rfl, rfl, rfl⟩
  | cons b rest ih =>
    intro cur
    unfold merge_runs
    split_ifs with h1 h2
    · obtain ⟨c, tl, e, p1, p2, p3⟩ := ih { cur with size := cur.size + b.size }
      exact ⟨c, tl, e, p1, p2, p3⟩
    · exact ⟨cur, _, rfl, rfl, rfl, rfl⟩
    · exact ⟨cur, _, rfl, rfl, rfl, rfl⟩

theorem tiles_merge_runs (rest : List BlockDesc) :
    ∀ cur a c, tiles a (cur :: rest) c → tiles a (merge_runs cur rest) c := by
  induction rest with
  | nil => intro cur a c h; simpa [merge_runs] using h
  | cons b rest ih =>
    intro cur a c h
    obtain ⟨h1, h2, h3, h4, h5⟩ := h
    unfold merge_runs
    split_ifs with f1 f2
    · apply ih
      refine ⟨h1, by simp; omega, ?_⟩
      simpa [Nat.add_assoc] using h5
    · exact ⟨h1, h2, ih b _ _ ⟨h3, h4, h5⟩⟩
    · exact ⟨h1, h2, ih b _ _ ⟨h3, h4, h5⟩⟩

theorem no_adj_merge_runs (rest : List BlockDesc) :
    ∀ cur a c, tiles a (cur :: rest) c → no_adj (merge_runs cur rest) := by
  induction rest with
  | nil => intro cur a c _; simp [merge_runs, no_adj]
  | cons b rest ih =>
    intro cur a c h
    obtain ⟨h1, h2, h3, h4, h5⟩ := h
    have hadj : cur.offset + cur.size = b.offset := by omega
    unfold merge_runs
    by_cases f1 : cur.allocated = 0 ∧ b.allocated = 0
    · rw [if_pos f1, if_pos hadj]
      apply ih _ a c
      refine ⟨h1, by simp; omega, ?_⟩
      simpa [Nat.add_assoc] using h5
    · rw [if_neg f1]
      have hb := ih b _ _ ⟨h3, h4, h5⟩
      obtain ⟨x, tl, e, p1, _, _⟩ := merge_runs_head rest b
      rw [e] at hb ⊢
      exact ⟨by rw [p1]; exact f1, hb⟩

theorem merge_runs_id (rest : List BlockDesc) :
    ∀ cur, no_adj (cur :: rest) → merge_runs cur rest = cur :: rest := by
  induction rest with
  | nil => intro cur _; simp [merge_runs]
  | cons b rest ih =>
    intro cur h
    unfold merge_runs
    rw [if_neg h.1, ih b h.2]

theorem no_adj_tail (b : BlockDesc) (bs : List BlockDesc) (h : no_adj (b :: bs)) : no_adj bs := by
  cases bs with
  | nil => trivial
  | cons x xs => exact h.2

/-- Index form and recursive form of the adjacency condition agree. -/
theorem no_adjacent_free_iff (bs : List BlockDesc) : no_adjacent_free bs ↔ no_adj bs := by
  induction bs with
  | nil => simp [no_adjacent_free, no_adj]
  | cons a bs ih =>
    cases bs with
    | nil => simp [no_adjacent_free, no_adj]
    | cons b rest =>
      simp only [no_adj, ← ih]
      constructor
      · intro h
        refine ⟨by simpa using h 0 (by simp), ?_⟩
        intro i hi
        have := h (i + 1) (by simpa using hi)
        simpa using this
      · rintro ⟨h0, h⟩ i hi
        cases i with
        | zero => simpa using h0
        | succ j =>
          have := h j (by simpa using hi)
          simpa using this

/-- Index form and recursive form of the partition invariant agree. -/
theorem tiles_iff_index (bs : List BlockDesc) : ∀ a c, bs ≠ [] →
    (tiles a bs c ↔
      (bs.getD 0 stale_slot).offset = a ∧
      (∀ i, i < bs.length - 1 →
        (bs.getD i stale_slot).offset + (bs.getD i stale_slot).size
          = (bs.getD (i + 1) stale_slot).offset) ∧
      (bs.getD (bs.length - 1) stale_slot).offset + (bs.getD (bs.length - 1) stale_slot).size
        = c ∧
      (∀ i, i < bs.length → 0 < (bs.getD i stale_slot).size)) := by
  induction bs with
  | nil => intro a c h; exact absurd rfl h
  | cons b bs ih =>
    intro a c _
    cases bs with
    | nil =>
      simp only [tiles, List.getD_cons_zero, List.length_singleton, Nat.sub_self]
      constructor
      · rintro ⟨h1, h2, h3⟩
        refine ⟨h1, fun i hi => by omega, by omega, fun i hi => ?_⟩
        have : i = 0 := by omega
        subst this; simpa using h2
      · rintro ⟨h1, _, h3, h4⟩
        have := h4 0 (by omega)
        exact ⟨h1, by simpa using this, by omega⟩
    | cons x xs =>
      have ih2 := ih (a + b.size) c (by simp)
      simp only [tiles] at ih2 ⊢
      rw [ih2]
      simp only [List.getD_cons_zero, List.length_cons, Nat.add_sub_cancel, List.getD_cons_succ]
      constructor
      · rintro ⟨h1, h2, h3, h4, h5, h6⟩
        refine ⟨h1, ?_, h5, ?_⟩
        · intro i hi
          cases i with
          | zero => simp; omega
          | succ j => simpa using h4 j (by omega)
        · intro i hi
          cases i with
          | zero => simpa using h2
          | succ j => simpa using h6 j (by omega)
      · rintro ⟨h1, h4, h5, h6⟩
        have e0 := h4 0 (by omega)
        simp at e0
        refine ⟨h1, by simpa using h6 0 (by omega), by omega, ?_, h5, ?_⟩
        · intro i hi
          simpa using h4 (i + 1) (by omega)
        · intro i hi
          simpa using h6 (i + 1) (by omega)

theorem partition_inv_iff (bs : List BlockDesc) :
    partition_inv bs ↔ bs ≠ [] ∧ tiles 0 bs POOL_SIZE := by
  unfold partition_inv
  constructor
  · rintro ⟨h0, h⟩
    have hne : bs ≠ [] := by intro e; simp [e] at h0
    exact ⟨hne, (tiles_iff_index bs 0 POOL_SIZE hne).2 h⟩
  · rintro ⟨hne, h⟩
    exact ⟨List.length_pos.2 hne, (tiles_iff_index bs 0 POOL_SIZE hne).1 h⟩

/-! ## The best-fit search -/

/-- What the loop of `find_best_fit_index` returns: either the incoming `best`
(no later descriptor beats it) or the index of the first smallest candidate
among the descriptors still to be scanned. -/
theorem find_best_fit_loop_spec (want : Nat) (rest : List BlockDesc) :
    ∀ (i : Nat) (best : Int) (best_size : Nat),
      (find_best_fit_loop want rest i best best_size = best ∧
        ∀ b ∈ rest, b.allocated = 0 → want ≤ b.size → best ≠ -1 ∧ best_size ≤ b.size) ∨
      (∃ (k : Nat) (b : BlockDesc), find_best_fit_loop want rest i best best_size = ((i + k : Nat) : Int) ∧
        rest[k]? = some b ∧ b.allocated = 0 ∧ want ≤ b.size ∧
        (best ≠ -1 → b.size < best_size) ∧
        (∀ (j : Nat) (c : BlockDesc), rest[j]? = some c → c.allocated = 0 → want ≤ c.size → b.size ≤ c.size) ∧
        (∀ (j : Nat) (c : BlockDesc), j < k → rest[j]? = some c → c.allocated = 0 → want ≤ c.size →
          b.size < c.size)) := by
  induction rest with
  | nil => intro i best best_size; left; simp [find_best_fit_loop]
  | cons x rest ih =>
    intro i best best_size
    unfold find_best_fit_loop
    by_cases hc : x.allocated = 0 ∧ x.size ≥ want
    · rw [if_pos hc]
      by_cases hb : best = -1 ∨ x.size < best_size
      · rw [if_pos hb]
        right
        rcases ih (i + 1) (i : Int) x.size with ⟨e, hall⟩ | ⟨k, b, e, hk, hf, hw, hlt, hmin, hfirst⟩
        · refine ⟨0, x, by simpa using e, by simp, hc.1, hc.2, ?_, ?_, ?_⟩
          · intro hne
            rcases hb with hb | hb
            · exact absurd hb hne
            · exact hb
          · intro j c hj hcf hcw
            cases j with
            | zero => simp at hj; subst hj; exact le_refl _
            | succ j =>
              simp at hj
              exact (hall c (List.getElem?_mem hj) hcf hcw).2
          · intro j c hj; omega
        · have hbx : b.size < x.size := hlt (by omega)
          refine ⟨k + 1, b, ?_, by simpa using hk, hf, hw, ?_, ?_, ?_⟩
          · rw [e]; congr 1; omega
          · intro hne
            rcases hb with hb | hb
            · exact absurd hb hne
            · omega
          · intro j c hj hcf hcw
            cases j with
            | zero => simp at hj; subst hj; omega
            | succ j => simp at hj; exact hmin j c hj hcf hcw
          · intro j c hjk hj hcf hcw
            cases j with
            | zero => simp at hj; subst hj; exact hbx
            | succ j => simp at hj; exact hfirst j c (by omega) hj hcf hcw
      · rw [if_neg hb]
        push_neg at hb
        rcases ih (i + 1) best best_size with ⟨e, hall⟩ | ⟨k, b, e, hk, hf, hw, hlt, hmin, hfirst⟩
        · left
          refine ⟨e, ?_⟩
          intro c hcm hcf hcw
          rcases List.mem_cons.1 hcm with rfl | hcm
          · exact ⟨hb.1, hb.2⟩
          · exact hall c hcm hcf hcw
        · right
          have hbx : b.size < x.size := by have := hlt hb.1; omega
          refine ⟨k + 1, b, ?_, by simpa using hk, hf, hw, hlt, ?_, ?_⟩
          · rw [e]; congr 1; omega
          · intro j c hj hcf hcw
            cases j with
            | zero => simp at hj; subst hj; omega
            | succ j => simp at hj; exact hmin j c hj hcf hcw
          · intro j c hjk hj hcf hcw
            cases j with
            | zero => simp at hj; subst hj; exact hbx
            | succ j => simp at hj; exact hfirst j c (by omega) hj hcf hcw
    · rw [if_neg hc]
      rcases ih (i + 1) best best_size with ⟨e, hall⟩ | ⟨k, b, e, hk, hf, hw, hlt, hmin, hfirst⟩
      · left
        refine ⟨e, ?_⟩
        intro c hcm hcf hcw
        rcases List.mem_cons.1 hcm with rfl | hcm
        · exact absurd ⟨hcf, hcw⟩ hc
        · exact hall c hcm hcf hcw
      · right
        refine ⟨k + 1, b, ?_, by simpa using hk, hf, hw, hlt, ?_, ?_⟩
        · rw [e]; congr 1; omega
        · intro j c hj hcf hcw
          cases j with
          | zero => simp at hj; subst hj; exact absurd ⟨hcf, hcw⟩ hc
          | succ j => simp at hj; exact hmin j c hj hcf hcw
        · intro j c hjk hj hcf hcw
          cases j with
          | zero => simp at hj; subst hj; exact absurd ⟨hcf, hcw⟩ hc
          | succ j => simp at hj; exact hfirst j c (by omega) hj hcf hcw

/-- Result of `find_best_fit_index`: `-1` with no candidate in the table, or
the index of the first smallest candidate. -/
theorem find_best_fit_index_spec (bs : List BlockDesc) (want : Nat) :
    (find_best_fit_index bs want = -1 ∧
      ∀ b ∈ bs, b.allocated = 0 → ¬ want ≤ b.size) ∨
    (∃ (k : Nat) (b : BlockDesc), find_best_fit_index bs want = (k : Int) ∧
      bs[k]? = some b ∧ b.allocated = 0 ∧ want ≤ b.size ∧
      (∀ (j : Nat) (c : BlockDesc), bs[j]? = some c → c.allocated = 0 → want ≤ c.size → b.size ≤ c.size) ∧
      (∀ (j : Nat) (c : BlockDesc), j < k → bs[j]? = some c → c.allocated = 0 → want ≤ c.size →
        b.size < c.size)) := by
  unfold find_best_fit_index
  rcases find_best_fit_loop_spec want bs 0 (-1) (2 ^ 64 - 1) with
    ⟨e, hall⟩ | ⟨k, b, e, hk, hf, hw, _, hmin, hfirst⟩
  · left
    refine ⟨e, ?_⟩
    intro b hb hf hw
    exact (hall b hb hf hw).1 rfl
  · right
    exact ⟨k, b, by simpa using e, hk, hf, hw, hmin, hfirst⟩

theorem getElem?_split {α : Type} (bs : List α) (k : Nat) (b : α) (h : bs[k]? = some b) :
    ∃ pre post, bs = pre ++ b :: post ∧ pre.length = k := by
  obtain ⟨hk, e⟩ := List.getElem?_eq_some.1 h
  obtain ⟨pre, post, e1, e2⟩ := split_at bs k b hk
  rw [List.getD_eq_getElem _ _ hk, e] at e1
  exact ⟨pre, post, e1, e2⟩

/-! ## The handle lookup -/

theorem find_offset_loop_spec (off : Nat) (rest : List BlockDesc) :
    ∀ i : Nat,
      (find_offset_loop off rest i = -1 ∧ ∀ b ∈ rest, b.offset ≠ off) ∨
      (∃ (k : Nat) (b : BlockDesc), find_offset_loop off rest i = ((i + k : Nat) : Int) ∧
        rest[k]? = some b ∧ b.offset = off ∧
        ∀ (j : Nat) (c : BlockDesc), j < k → rest[j]? = some c → c.offset ≠ off) := by
  induction rest with
  | nil => intro i; left; simp [find_offset_loop]
  | cons x rest ih =>
    intro i
    unfold find_offset_loop
    by_cases hx : x.offset = off
    · rw [if_pos hx]
      right
      exact ⟨0, x, by simp, by simp, hx, fun j c hj => by omega⟩
    · rw [if_neg hx]
      rcases ih (i + 1) with ⟨e, hall⟩ | ⟨k, b, e, hk, hb, hfirst⟩
      · left
        refine ⟨e, ?_⟩
        intro c hc
        rcases List.mem_cons.1 hc with rfl | hc
        · exact hx
        · exact hall c hc
      · right
        refine ⟨k + 1, b, ?_, by simpa using hk, hb, ?_⟩
        · rw [e]; congr 1; omega
        · intro j c hjk hj
          cases j with
          | zero => simp at hj; subst hj; exact hx
          | succ j => simp at hj; exact hfirst j c (by omega) hj

/-- The lookup finds a descriptor whose offset no earlier descriptor shares. -/
theorem find_offset_loop_at (off : Nat) (pre : List BlockDesc) (blk : BlockDesc)
    (post : List BlockDesc) (hb : blk.offset = off) (hpre : ∀ p ∈ pre, p.offset ≠ off) :
    ∀ i : Nat, find_offset_loop off (pre ++ blk :: post) i = ((i + pre.length : Nat) : Int) := by
  induction pre with
  | nil => intro i; simp [find_offset_loop, hb]
  | cons x pre ih =>
    intro i
    have hx : x.offset ≠ off := hpre x (by simp)
    have e := ih (fun p hp => hpre p (by simp [hp])) (i + 1)
    show find_offset_loop off (x :: (pre ++ blk :: post)) i = _
    rw [find_offset_loop, if_neg hx, e]
    congr 1
    simp; omega

/-! ## Case analysis of `allocate` and `deallocate` -/

/-- The three outcomes of `allocate`: rejected size, out of memory, or a
descriptor `blk` chosen at index `pre.length` which is either taken whole
(exact fit, or no room for another descriptor) or split. -/
theorem allocate_cases (s : PoolState) (size : Int) :
    ((size ≤ 0 ∨ POOL_SIZE < size.toNat) ∧ allocate s size = (Ptr.null, s)) ∨
    (0 < size ∧ size.toNat ≤ POOL_SIZE ∧
      find_best_fit_index s.blocks size.toNat = -1 ∧
      find_best_fit_index (retry_table s.blocks size.toNat) size.toNat = -1 ∧
      allocate s size = (Ptr.null, { s with blocks := coalesce_free_blocks s.blocks })) ∨
    (0 < size ∧ size.toNat ≤ POOL_SIZE ∧
      ∃ pre blk post, retry_table s.blocks size.toNat = pre ++ blk :: post ∧
        find_best_fit_index (retry_table s.blocks size.toNat) size.toNat = (pre.length : Int) ∧
        blk.allocated = 0 ∧ size.toNat ≤ blk.size ∧
        (((blk.size = size.toNat ∨ MAX_BLOCKS ≤ (pre ++ blk :: post).length + 1) ∧
          allocate s size = (Ptr.addr blk.offset,
            { blocks := pre ++ { blk with allocated := 1, alloc_id := s.next_alloc_id } :: post,
              next_alloc_id := int_wrap (s.next_alloc_id + 1) })) ∨
         (blk.size ≠ size.toNat ∧ (pre ++ blk :: post).length + 1 < MAX_BLOCKS ∧
          allocate s size = (Ptr.addr blk.offset,
            { blocks := pre ++ ⟨1, s.next_alloc_id, blk.offset, size.toNat⟩ ::
                ⟨0, 0, blk.offset + size.toNat, blk.size - size.toNat⟩ :: post,
              next_alloc_id := int_wrap (s.next_alloc_id + 1) })))) := by
  by_cases h1 : size ≤ 0
  · left; exact ⟨Or.inl h1, by simp [allocate, h1]⟩
  by_cases h2 : size.toNat > POOL_SIZE
  · left; exact ⟨Or.inr h2, by simp [allocate, h1, h2]⟩
  right
  have hal : allocate s size =
      (if find_best_fit_index (retry_table s.blocks size.toNat) size.toNat = -1 then
        (Ptr.null, { s with blocks := retry_table s.blocks size.toNat })
       else allocate_at (retry_table s.blocks size.toNat) s.next_alloc_id
        (find_best_fit_index (retry_table s.blocks size.toNat) size.toNat).toNat size.toNat) := by
    unfold allocate retry_table
    rw [if_neg h1, if_neg h2]
    by_cases e0 : find_best_fit_index s.blocks size.toNat = -1
    · simp only [e0, if_true]
    · simp only [e0, if_false]
  rcases find_best_fit_index_spec (retry_table s.blocks size.toNat) size.toNat with
    ⟨e, _⟩ | ⟨k, b, e, hk, hf, hw, _, _⟩
  · left
    have e0 : find_best_fit_index s.blocks size.toNat = -1 := by
      by_contra hne
      have : retry_table s.blocks size.toNat = s.blocks := by simp [retry_table, hne]
      rw [this] at e
      exact hne e
    refine ⟨by omega, by omega, e0, e, ?_⟩
    rw [hal]
    simp only [e, if_true]
    simp [retry_table, e0]
  · right
    obtain ⟨pre, post, hsplit, hlen⟩ := getElem?_split _ _ _ hk
    subst hlen
    refine ⟨by omega, by omega, pre, b, post, hsplit, e, hf, hw, ?_⟩
    have hne : ((pre.length : Nat) : Int) ≠ -1 := by omega
    rw [hal, e, if_neg hne]
    simp only [Int.toNat_ofNat, hsplit, allocate_at, getD_at, set_at]
    by_cases hx : b.size = size.toNat
    · left
      exact ⟨Or.inl hx, by rw [if_pos hx]⟩
    · rw [if_neg hx]
      by_cases hfull : MAX_BLOCKS ≤ (pre ++ b :: post).length + 1
      · left
        refine ⟨Or.inr hfull, ?_⟩
        have hsh : shift_right_and_insert_space (pre ++ b :: post) (pre.length + 1) = none := by
          unfold shift_right_and_insert_space
          rw [if_pos hfull]
        rw [hsh]
      · right
        refine ⟨hx, by omega, ?_⟩
        have hsh : shift_right_and_insert_space (pre ++ b :: post) (pre.length + 1) =
            some (pre ++ b :: (pre ++ b :: post).getD (pre.length + 1) stale_slot :: post) := by
          unfold shift_right_and_insert_space
          rw [if_neg (by omega), take_at_succ, drop_at_succ]
          simp
        rw [hsh]
        simp only [set_at, set_at_succ]

/-- The three outcomes of `deallocate` on a non-null pointer: no descriptor
starts at the address, or the first descriptor starting there is `blk`, which
is either free already or gets freed. -/
theorem deallocate_cases (s : PoolState) (d : Int) :
    (find_block_index_by_ptr s.blocks (Ptr.addr d) = -1 ∧
      deallocate s (Ptr.addr d) = (DeallocReport.not_block_start, s)) ∨
    (0 ≤ d ∧ d < (POOL_SIZE : Int) ∧
      ∃ pre blk post, s.blocks = pre ++ blk :: post ∧ blk.offset = d.toNat ∧
        (∀ p ∈ pre, p.offset ≠ d.toNat) ∧
        find_block_index_by_ptr s.blocks (Ptr.addr d) = (pre.length : Int) ∧
        ((blk.allocated = 0 ∧
            deallocate s (Ptr.addr d) = (DeallocReport.already_free, s)) ∨
         (blk.allocated ≠ 0 ∧
            deallocate s (Ptr.addr d) = (DeallocReport.deallocated,
              { blocks :=
                  coalesce_free_blocks (pre ++ { blk with allocated := 0, alloc_id := 0 } :: post),
                next_alloc_id := s.next_alloc_id })))) := by
  by_cases hr : d < 0 ∨ d ≥ (POOL_SIZE : Int)
  · left
    have e : find_block_index_by_ptr s.blocks (Ptr.addr d) = -1 := by
      simp only [find_block_index_by_ptr, if_pos hr]
    exact ⟨e, by simp only [deallocate, e, if_true]⟩
  · have e0 : find_block_index_by_ptr s.blocks (Ptr.addr d) = find_offset_loop d.toNat s.blocks 0 := by
      simp only [find_block_index_by_ptr, if_neg hr]
    rcases find_offset_loop_spec d.toNat s.blocks 0 with ⟨e, _⟩ | ⟨k, b, e, hk, hb, hfirst⟩
    · left
      rw [← e0] at e
      exact ⟨e, by simp only [deallocate, e, if_true]⟩
    · right
      push_neg at hr
      obtain ⟨pre, post, hsplit, hlen⟩ := getElem?_split _ _ _ hk
      subst hlen
      rw [← e0, Nat.zero_add] at e
      have hpre : ∀ p ∈ pre, p.offset ≠ d.toNat := by
        intro p hp
        obtain ⟨j, hj, rfl⟩ := List.getElem_of_mem hp
        apply hfirst j _ hj
        rw [hsplit, List.getElem?_append_left hj, List.getElem?_eq_getElem hj]
      refine ⟨hr.1, hr.2, pre, b, post, hsplit, hb, hpre, e, ?_⟩
      have hne : ((pre.length : Nat) : Int) ≠ -1 := by omega
      by_cases hf : b.allocated = 0
      · left
        refine ⟨hf, ?_⟩
        simp only [deallocate, e, if_neg hne, Int.toNat_ofNat]
        simp only [hsplit, getD_at, hf, if_true]
      · right
        refine ⟨hf, ?_⟩
        simp only [deallocate, e, if_neg hne, Int.toNat_ofNat]
        simp only [hsplit, getD_at, hf, if_false, set_at]

/-! ## Adjacency under table updates -/

theorem no_adj_iff_chain (bs : List BlockDesc) :
    no_adj bs ↔ List.Chain' (fun a b : BlockDesc => ¬ (a.allocated = 0 ∧ b.allocated = 0)) bs := by
  induction bs with
  | nil => simp [no_adj]
  | cons a bs ih =>
    cases bs with
    | nil => simp [no_adj]
    | cons b rest => rw [List.chain'_cons, ← ih]; rfl

/-- Marking a descriptor allocated keeps the table free of adjacent free pairs. -/
theorem no_adj_mark (pre post : List BlockDesc) (b b' : BlockDesc)
    (h : no_adj (pre ++ b :: post)) (hb : b'.allocated ≠ 0) : no_adj (pre ++ b' :: post) := by
  rw [no_adj_iff_chain] at h ⊢
  rw [List.chain'_split] at h ⊢
  obtain ⟨h1, h2⟩ := h
  constructor
  · rw [List.chain'_append] at h1 ⊢
    refine ⟨h1.1, List.chain'_singleton _, ?_⟩
    intro x _ y hy
    simp at hy
    subst hy
    exact fun hc => hb hc.2
  · exact List.Chain'.cons' h2.tail (fun y _ hc => hb hc.1)

/-- Splitting a free descriptor into an allocated head and a free remainder
keeps the table free of adjacent free pairs. -/
theorem no_adj_split (pre post : List BlockDesc) (b a r : BlockDesc)
    (h : no_adj (pre ++ b :: post)) (hb : b.allocated = 0) (ha : a.allocated ≠ 0) :
    no_adj (pre ++ a :: r :: post) := by
  rw [no_adj_iff_chain] at h ⊢
  rw [List.chain'_split] at h ⊢
  obtain ⟨h1, h2⟩ := h
  constructor
  · rw [List.chain'_append] at h1 ⊢
    refine ⟨h1.1, List.chain'_singleton _, ?_⟩
    intro x _ y hy
    simp at hy
    subst hy
    exact fun hc => ha hc.2
  · refine List.Chain'.cons' (List.Chain'.cons' h2.tail ?_) (fun y _ hc => ha hc.1)
    intro y hy hc
    cases post with
    | nil => simp at hy
    | cons p ps =>
      simp at hy
      subst hy
      exact (List.chain'_cons.1 h2).1 ⟨hb, hc.2⟩

/-! ## Properties of the coalescing pass -/

theorem coalesce_tiles (bs : List BlockDesc) (a c : Nat) (h : tiles a bs c) :
    tiles a (coalesce_free_blocks bs) c := by
  cases bs with
  | nil => simpa [coalesce_nil] using h
  | cons cur rest => rw [coalesce_cons]; exact tiles_merge_runs rest cur a c h

theorem coalesce_no_adj (bs : List BlockDesc) (a c : Nat) (h : tiles a bs c) :
    no_adj (coalesce_free_blocks bs) := by
  cases bs with
  | nil => simp [coalesce_nil, no_adj]
  | cons cur rest => rw [coalesce_cons]; exact no_adj_merge_runs rest cur a c h

theorem coalesce_id (bs : List BlockDesc) (h : no_adj bs) : coalesce_free_blocks bs = bs := by
  cases bs with
  | nil => exact coalesce_nil
  | cons cur rest => rw [coalesce_cons]; exact merge_runs_id rest cur h

theorem coalesce_ne_nil (bs : List BlockDesc) (h : bs ≠ []) : coalesce_free_blocks bs ≠ [] := by
  cases bs with
  | nil => exact absurd rfl h
  | cons cur rest =>
    rw [coalesce_cons]
    obtain ⟨c, tl, e, _⟩ := merge_runs_head rest cur
    rw [e]; simp

theorem merge_runs_length (rest : List BlockDesc) :
    ∀ cur, (merge_runs cur rest).length ≤ rest.length + 1 := by
  induction rest with
  | nil => intro cur; simp [merge_runs]
  | cons b rest ih =>
    intro cur
    unfold merge_runs
    split_ifs
    · have := ih { cur with size := cur.size + b.size }
      simp only [List.length_cons]; omega
    · have := ih b
      simp only [List.length_cons]; omega
    · have := ih b
      simp only [List.length_cons]; omega

theorem coalesce_length (bs : List BlockDesc) : (coalesce_free_blocks bs).length ≤ bs.length := by
  cases bs with
  | nil => simp [coalesce_nil]
  | cons cur rest => rw [coalesce_cons]; exact merge_runs_length rest cur

/-- Every descriptor produced by the coalescing pass carries the flag and id
of a descriptor that was in the table before. -/
theorem merge_runs_flags (rest : List BlockDesc) :
    ∀ cur, ∀ x ∈ merge_runs cur rest, ∃ y ∈ cur :: rest,
      x.allocated = y.allocated ∧ x.alloc_id = y.alloc_id ∧ x.offset = y.offset ∧
        (y.allocated ≠ 0 → x = y) := by
  induction rest with
  | nil =>
    intro cur x hx
    simp [merge_runs] at hx
    subst hx
    exact ⟨x, by simp, rfl, rfl, rfl, fun _ => rfl⟩
  | cons b rest ih =>
    intro cur x hx
    unfold merge_runs at hx
    split_ifs at hx with f1 f2
    · obtain ⟨y, hy, p1, p2, p3, p4⟩ := ih _ x hx
      rcases List.mem_cons.1 hy with rfl | hy
      · refine ⟨cur, by simp, p1, p2, p3, ?_⟩
        intro hne
        exact absurd f1.1 hne
      · exact ⟨y, by simp [hy], p1, p2, p3, p4⟩
    · rcases List.mem_cons.1 hx with rfl | hx
      · exact ⟨x, by simp, rfl, rfl, rfl, fun _ => rfl⟩
      · obtain ⟨y, hy, p⟩ := ih b x hx
        exact ⟨y, List.mem_cons_of_mem _ hy, p⟩
    · rcases List.mem_cons.1 hx with rfl | hx
      · exact ⟨x, by simp, rfl, rfl, rfl, fun _ => rfl⟩
      · obtain ⟨y, hy, p⟩ := ih b x hx
        exact ⟨y, List.mem_cons_of_mem _ hy, p⟩

theorem coalesce_flags (bs : List BlockDesc) :
    ∀ x ∈ coalesce_free_blocks bs, ∃ y ∈ bs,
      x.allocated = y.allocated ∧ x.alloc_id = y.alloc_id ∧ x.offset = y.offset ∧
        (y.allocated ≠ 0 → x = y) := by
  cases bs with
  | nil => intro x hx; simp [coalesce_nil] at hx
  | cons cur rest => rw [coalesce_cons]; exact merge_runs_flags rest cur

/-! ## The invariant of reachable states -/

theorem retry_table_id (bs : List BlockDesc) (want : Nat) (h : no_adj bs) :
    retry_table bs want = bs := by
  unfold retry_table
  split_ifs
  · exact coalesce_id bs h
  · rfl

theorem pool_inv_init : pool_inv (init_pool pristine) := by
  refine ⟨by simp [init_pool, pristine, PoolState.block_count], ?_, ?_, ?_, ?_⟩
  · simp [init_pool, pristine, PoolState.block_count, tiles, POOL_SIZE]
  · simp [init_pool, pristine, PoolState.block_count, no_adj]
  · simp [init_pool, pristine, PoolState.block_count]
  · simp [init_pool, pristine, PoolState.block_count, MAX_BLOCKS]

/-- On a state satisfying the invariant `allocate` either fails and changes
nothing, or takes a free descriptor `blk` whole, or splits it. -/
theorem allocate_inv_cases (s : PoolState) (size : Int) (h : pool_inv s) :
    ((size ≤ 0 ∨ POOL_SIZE < size.toNat ∨ find_best_fit_index s.blocks size.toNat = -1) ∧
      allocate s size = (Ptr.null, s)) ∨
    (0 < size ∧ size.toNat ≤ POOL_SIZE ∧
      ∃ pre blk post, s.blocks = pre ++ blk :: post ∧
        find_best_fit_index s.blocks size.toNat = (pre.length : Int) ∧
        blk.allocated = 0 ∧ size.toNat ≤ blk.size ∧
        (((blk.size = size.toNat ∨ MAX_BLOCKS ≤ s.blocks.length + 1) ∧
          allocate s size = (Ptr.addr blk.offset,
            { blocks := pre ++ { blk with allocated := 1, alloc_id := s.next_alloc_id } :: post,
              next_alloc_id := int_wrap (s.next_alloc_id + 1) })) ∨
         (blk.size ≠ size.toNat ∧ s.blocks.length + 1 < MAX_BLOCKS ∧
          allocate s size = (Ptr.addr blk.offset,
            { blocks := pre ++ ⟨1, s.next_alloc_id, blk.offset, size.toNat⟩ ::
                ⟨0, 0, blk.offset + size.toNat, blk.size - size.toNat⟩ :: post,
              next_alloc_id := int_wrap (s.next_alloc_id + 1) })))) := by
  have hr := retry_table_id s.blocks size.toNat h.separated
  have hc := coalesce_id s.blocks h.separated
  rcases allocate_cases s size with ⟨h1, e⟩ | ⟨_, _, e0, _, e⟩ | ⟨h1, h2, pre, blk, post, hs, hrest⟩
  · left
    refine ⟨?_, e⟩
    rcases h1 with h1 | h1
    · exact Or.inl h1
    · exact Or.inr (Or.inl h1)
  · left
    rw [hc] at e
    exact ⟨Or.inr (Or.inr e0), e⟩
  · right
    rw [hr] at hs hrest
    rw [← hs] at hrest
    exact ⟨h1, h2, pre, blk, post, hs, hrest⟩

theorem pool_inv_allocate (s : PoolState) (size : Int) (h : pool_inv s) :
    pool_inv (allocate s size).2 := by
  rcases allocate_inv_cases s size h with ⟨_, e⟩ |
    ⟨h1, _, pre, blk, post, hs, _, hf, hw, ⟨_, e⟩ | ⟨hne, hlen, e⟩⟩
  · rw [e]; exact h
  · rw [e]
    have ht := h.tiled
    have hn := h.separated
    have hi := h.free_ids
    have hb := h.bounded
    rw [hs] at ht hn hi hb
    refine ⟨by simp, ?_, no_adj_mark pre post blk _ hn (by simp), ?_, by simpa using hb⟩
    · rw [tiles_append] at ht ⊢
      obtain ⟨m, t1, t2⟩ := ht
      exact ⟨m, t1, t2⟩
    · intro b hb hfree
      simp only [List.mem_append, List.mem_cons] at hb
      rcases hb with hb | rfl | hb
      · exact hi b (by simp [hb]) hfree
      · simp at hfree
      · exact hi b (by simp [hb]) hfree
  · rw [e]
    have ht := h.tiled
    have hn := h.separated
    have hi := h.free_ids
    rw [hs] at ht hn hi hlen
    have hpos : 0 < size.toNat := by omega
    refine ⟨by simp, ?_, no_adj_split pre post blk _ _ hn hf (by simp), ?_, ?_⟩
    · rw [tiles_append] at ht ⊢
      obtain ⟨m, t1, t2, t3, t4⟩ := ht
      refine ⟨m, t1, t2, hpos, ?_, ?_, ?_⟩
      · simp [t2]
      · simp; omega
      · have e2 : m + size.toNat + (blk.size - size.toNat) = m + blk.size := by omega
        simp only [e2]; exact t4
    · intro b hb hfree
      simp only [List.mem_append, List.mem_cons] at hb
      rcases hb with hb | rfl | rfl | hb
      · exact hi b (by simp [hb]) hfree
      · simp at hfree
      · rfl
      · exact hi b (by simp [hb]) hfree
    · simp only [List.length_append, List.length_cons] at hlen ⊢
      omega

theorem pool_inv_deallocate (s : PoolState) (ptr : Ptr) (h : pool_inv s) :
    pool_inv (deallocate s ptr).2 := by
  cases ptr with
  | null => simpa [deallocate] using h
  | addr d =>
    rcases deallocate_cases s d with ⟨_, e⟩ |
      ⟨_, _, pre, blk, post, hs, _, _, _, ⟨_, e⟩ | ⟨hne, e⟩⟩
    · rw [e]; exact h
    · rw [e]; exact h
    · rw [e]
      have ht := h.tiled
      have hi := h.free_ids
      have hb := h.bounded
      rw [hs] at ht hi hb
      have ht2 : tiles 0 (pre ++ { blk with allocated := 0, alloc_id := 0 } :: post) POOL_SIZE := by
        rw [tiles_append] at ht ⊢
        obtain ⟨m, t1, t2⟩ := ht
        exact ⟨m, t1, t2⟩
      refine ⟨coalesce_ne_nil _ (by simp), coalesce_tiles _ _ _ ht2,
        coalesce_no_adj _ _ _ ht2, ?_, ?_⟩
      · intro x hx hfree
        obtain ⟨y, hy, p1, p2, _, _⟩ := coalesce_flags _ x hx
        rw [p2]
        simp only [List.mem_append, List.mem_cons] at hy
        rcases hy with hy | rfl | hy
        · exact hi y (by simp [hy]) (by rw [← p1]; exact hfree)
        · rfl
        · exact hi y (by simp [hy]) (by rw [← p1]; exact hfree)
      · have := coalesce_length (pre ++ { blk with allocated := 0, alloc_id := 0 } :: post)
        simp only [List.length_append, List.length_cons] at this hb ⊢
        omega

/-- Every reachable state satisfies the invariant. -/
theorem pool_inv_of_reachable (s : PoolState) (h : Reachable s) : pool_inv s := by
  induction h with
  | init => exact pool_inv_init
  | alloc s size _ ih => exact pool_inv_allocate s size ih
  | dealloc s ptr _ ih => exact pool_inv_deallocate s ptr ih

/-! ## Offsets in a tiled table -/

/-- Every descriptor of a tiled table lies inside the tiled range. -/
theorem tiles_mem (bs : List BlockDesc) :
    ∀ a c, tiles a bs c → ∀ b ∈ bs, a ≤ b.offset ∧ b.offset + b.size ≤ c ∧ 0 < b.size := by
  induction bs with
  | nil => intro a c _ b hb; simp at hb
  | cons x bs ih =>
    intro a c h b hb
    obtain ⟨h1, h2, h3⟩ := h
    rcases List.mem_cons.1 hb with rfl | hb
    · have := tiles_le bs _ _ h3
      omega
    · have := ih _ _ h3 b hb
      omega

/-- In a tiled table a descriptor ends before every later descriptor starts. -/
theorem tiles_ordered (bs : List BlockDesc) :
    ∀ a c, tiles a bs c → ∀ i j, i < j → j < bs.length →
      (bs.getD i stale_slot).offset + (bs.getD i stale_slot).size
        ≤ (bs.getD j stale_slot).offset := by
  induction bs with
  | nil => intro a c _ i j _ hj; simp at hj
  | cons x bs ih =>
    intro a c h i j hij hj
    obtain ⟨h1, h2, h3⟩ := h
    cases j with
    | zero => omega
    | succ j =>
      have hj2 : j < bs.length := by simpa using hj
      cases i with
      | zero =>
        have hm : bs.getD j stale_slot ∈ bs := by
          rw [List.getD_eq_getElem _ _ hj2]; exact List.getElem_mem _
        have := tiles_mem bs _ _ h3 _ hm
        simp only [List.getD_cons_zero, List.getD_cons_succ]
        omega
      | succ i =>
        simp only [List.getD_cons_succ]
        exact ih _ _ h3 i j (by omega) hj2

/-- Descriptors before position `pre.length` of a tiled table start below it. -/
theorem tiles_front_lt (pre post : List BlockDesc) (blk : BlockDesc) (a c : Nat)
    (h : tiles a (pre ++ blk :: post) c) : ∀ p ∈ pre, p.offset < blk.offset := by
  intro p hp
  rw [tiles_append] at h
  obtain ⟨m, t1, t2, _, _⟩ := h
  have := tiles_mem pre _ _ t1 p hp
  omega

/-! ## Handle lookup and coalescing around a known position -/

theorem find_block_at (pre post : List BlockDesc) (blk : BlockDesc)
    (hpre : ∀ p ∈ pre, p.offset ≠ blk.offset) (hlt : blk.offset < POOL_SIZE) :
    find_block_index_by_ptr (pre ++ blk :: post) (Ptr.addr (blk.offset : Int))
      = (pre.length : Int) := by
  have hr : ¬ ((blk.offset : Int) < 0 ∨ (blk.offset : Int) ≥ (POOL_SIZE : Int)) := by
    push_neg; constructor <;> omega
  simp only [find_block_index_by_ptr, if_neg hr, Int.toNat_ofNat]
  rw [find_offset_loop_at blk.offset pre blk post rfl hpre 0]
  simp

theorem deallocate_at (pre post : List BlockDesc) (blk : BlockDesc) (n : Int)
    (hpre : ∀ p ∈ pre, p.offset ≠ blk.offset) (hlt : blk.offset < POOL_SIZE)
    (ha : blk.allocated ≠ 0) :
    deallocate ⟨pre ++ blk :: post, n⟩ (Ptr.addr (blk.offset : Int)) =
      (DeallocReport.deallocated,
        ⟨coalesce_free_blocks (pre ++ { blk with allocated := 0, alloc_id := 0 } :: post), n⟩) := by
  have e := find_block_at pre post blk hpre hlt
  have hne : ((pre.length : Nat) : Int) ≠ -1 := by omega
  simp only [deallocate, e, if_neg hne, Int.toNat_ofNat, getD_at, ha, if_false, set_at]

theorem deallocate_at_free (pre post : List BlockDesc) (blk : BlockDesc) (n : Int)
    (hpre : ∀ p ∈ pre, p.offset ≠ blk.offset) (hlt : blk.offset < POOL_SIZE)
    (ha : blk.allocated = 0) :
    deallocate ⟨pre ++ blk :: post, n⟩ (Ptr.addr (blk.offset : Int)) =
      (DeallocReport.already_free, ⟨pre ++ blk :: post, n⟩) := by
  have e := find_block_at pre post blk hpre hlt
  have hne : ((pre.length : Nat) : Int) ≠ -1 := by omega
  simp only [deallocate, e, if_neg hne, Int.toNat_ofNat, getD_at, ha, if_true]

/-- The coalescing pass leaves a prefix without adjacent free pairs alone. -/
theorem merge_runs_front (pre : List BlockDesc) (a : BlockDesc) (rest : List BlockDesc) :
    ∀ p, no_adj (p :: (pre ++ [a])) →
      merge_runs p (pre ++ a :: rest) = p :: (pre ++ merge_runs a rest) := by
  induction pre with
  | nil =>
    intro p h
    show merge_runs p (a :: rest) = _
    rw [merge_runs, if_neg h.1]; rfl
  | cons q pre ih =>
    intro p h
    show merge_runs p (q :: (pre ++ a :: rest)) = _
    rw [merge_runs, if_neg h.1, ih q h.2]; rfl

theorem coalesce_front (pre : List BlockDesc) (a : BlockDesc) (rest : List BlockDesc)
    (h : no_adj (pre ++ [a])) :
    coalesce_free_blocks (pre ++ a :: rest) = pre ++ merge_runs a rest := by
  cases pre with
  | nil => exact coalesce_cons a rest
  | cons p pre =>
    show coalesce_free_blocks (p :: (pre ++ a :: rest)) = _
    rw [coalesce_cons, merge_runs_front pre a rest p h]; rfl

/-- The adjacency condition only looks at the `allocated` flags. -/
theorem no_adj_flag_eq (pre : List BlockDesc) (a b : BlockDesc) (post : List BlockDesc)
    (h : no_adj (pre ++ a :: post)) (hab : b.allocated = a.allocated) :
    no_adj (pre ++ b :: post) := by
  rw [no_adj_iff_chain] at h ⊢
  rw [List.chain'_split] at h ⊢
  obtain ⟨h1, h2⟩ := h
  constructor
  · rw [List.chain'_append] at h1 ⊢
    refine ⟨h1.1, List.chain'_singleton _, ?_⟩
    intro x hx y hy
    simp at hy
    subst hy
    have := h1.2.2 x hx a (by simp)
    rw [hab]; exact this
  · cases post with
    | nil => exact List.chain'_singleton _
    | cons p ps =>
      rw [List.chain'_cons] at h2 ⊢
      exact ⟨by rw [hab]; exact h2.1, h2.2⟩

theorem no_adj_left (pre : List BlockDesc) (a : BlockDesc) (post : List BlockDesc)
    (h : no_adj (pre ++ a :: post)) : no_adj (pre ++ [a]) := by
  rw [no_adj_iff_chain] at h ⊢
  exact (List.chain'_split.1 h).1

theorem no_adj_right (pre : List BlockDesc) (a : BlockDesc) (post : List BlockDesc)
    (h : no_adj (pre ++ a :: post)) : no_adj (a :: post) := by
  rw [no_adj_iff_chain] at h ⊢
  exact (List.chain'_split.1 h).2

theorem merge_runs_head_size (rest : List BlockDesc) :
    ∀ cur c tl, merge_runs cur rest = c :: tl → cur.size ≤ c.size := by
  induction rest with
  | nil =>
    intro cur c tl h
    simp [merge_runs] at h
    rw [h.1]
  | cons b rest ih =>
    intro cur c tl h
    unfold merge_runs at h
    split_ifs at h with f1 f2
    · have := ih _ c tl h
      simp at this; omega
    · simp at h; rw [h.1]
    · simp at h; rw [h.1]

/-- A pointer at which no descriptor starts is reported and changes nothing. -/
theorem deallocate_not_found (s : PoolState) (d : Int)
    (h : d < 0 ∨ (POOL_SIZE : Int) ≤ d ∨ ∀ b ∈ s.blocks, (b.offset : Int) ≠ d) :
    find_block_index_by_ptr s.blocks (Ptr.addr d) = -1 ∧
      deallocate s (Ptr.addr d) = (DeallocReport.not_block_start, s) := by
  rcases deallocate_cases s d with ⟨e1, e2⟩ | ⟨h1, h2, pre, blk, post, hs, hb, _⟩
  · exact ⟨e1, e2⟩
  · exfalso
    rcases h with h | h | h
    · omega
    · omega
    · apply h blk (by rw [hs]; simp)
      rw [hb]; omega

/-! ## Runs and allocation ids -/

theorem int_wrap_small (x : Int) (h1 : -2147483648 ≤ x) (h2 : x ≤ 2147483647) :
    int_wrap x = x := by
  unfold int_wrap; omega

theorem int_wrap_succ (x : Int) : int_wrap (int_wrap x + 1) = int_wrap (x + 1) := by
  unfold int_wrap; omega

theorem mem_live (bs : List BlockDesc) (b : BlockDesc) :
    b ∈ live bs ↔ b ∈ bs ∧ b.allocated ≠ 0 := by
  simp [live]

theorem live_append (xs ys : List BlockDesc) : live (xs ++ ys) = live xs ++ live ys := by
  simp [live]

theorem live_cons_free (b : BlockDesc) (bs : List BlockDesc) (h : b.allocated = 0) :
    live (b :: bs) = live bs := by
  simp [live, h]

theorem live_cons_alloc (b : BlockDesc) (bs : List BlockDesc) (h : b.allocated ≠ 0) :
    live (b :: bs) = b :: live bs := by
  simp [live, h]

/-- The coalescing pass keeps the allocated descriptors, in order. -/
theorem live_merge_runs (rest : List BlockDesc) :
    ∀ cur, live (merge_runs cur rest) = live (cur :: rest) := by
  induction rest with
  | nil => intro cur; simp [merge_runs]
  | cons b rest ih =>
    intro cur
    unfold merge_runs
    split_ifs with f1 f2
    · rw [ih, live_cons_free _ _ (by simpa using f1.1), live_cons_free cur _ f1.1,
        live_cons_free b _ f1.2]
    · by_cases hc : cur.allocated = 0
      · rw [live_cons_free _ _ hc, live_cons_free _ _ hc, ih]
      · rw [live_cons_alloc _ _ hc, live_cons_alloc _ _ hc, ih]
    · by_cases hc : cur.allocated = 0
      · rw [live_cons_free _ _ hc, live_cons_free _ _ hc, ih]
      · rw [live_cons_alloc _ _ hc, live_cons_alloc _ _ hc, ih]

theorem live_coalesce (bs : List BlockDesc) : live (coalesce_free_blocks bs) = live bs := by
  cases bs with
  | nil => rw [coalesce_nil]
  | cons cur rest => rw [coalesce_cons]; exact live_merge_runs rest cur

theorem id_of_handle_at (pre post : List BlockDesc) (blk : BlockDesc) (c : Int)
    (hpre : ∀ p ∈ pre, p.offset ≠ blk.offset) (hlt : blk.offset < POOL_SIZE) :
    id_of_handle ⟨pre ++ blk :: post, c⟩ (Ptr.addr (blk.offset : Int)) = blk.alloc_id := by
  have e := find_block_at pre post blk hpre hlt
  have hne : ((pre.length : Nat) : Int) ≠ -1 := by omega
  simp only [id_of_handle, e, if_neg hne, Int.toNat_ofNat, getD_at]

/-- A successful `allocate` before the counter overflows hands out the id
`1 + k` and re-establishes the id invariant for `k + 1`. -/
theorem id_inv_allocate (s : PoolState) (n : Int) (k : Nat) (hinv : pool_inv s)
    (hid : id_inv s k) (hk : (k : Int) < 2147483647) (hok : (allocate s n).1 ≠ Ptr.null) :
    id_inv (allocate s n).2 (k + 1) ∧
      id_of_handle (allocate s n).2 (allocate s n).1 = 1 + (k : Int) := by
  have hnext : s.next_alloc_id = 1 + (k : Int) := by
    rw [hid.counter]; exact int_wrap_small _ (by omega) (by omega)
  have hcnt : int_wrap (s.next_alloc_id + 1) = int_wrap (1 + ((k + 1 : Nat) : Int)) := by
    have : s.next_alloc_id + 1 = 1 + ((k + 1 : Nat) : Int) := by rw [hnext]; push_cast; omega
    rw [this]
  rcases allocate_inv_cases s n hinv with ⟨_, e⟩ |
    ⟨_, _, pre, blk, post, hs, _, hf, _, ⟨_, e⟩ | ⟨_, _, e⟩⟩
  · rw [e] at hok; exact absurd rfl hok
  · have ht := hinv.tiled
    rw [hs] at ht
    have hpre : ∀ p ∈ pre, p.offset ≠ blk.offset :=
      fun p hp => Nat.ne_of_lt (tiles_front_lt pre post blk _ _ ht p hp)
    have hlt : blk.offset < POOL_SIZE := by
      have := tiles_mem _ _ _ ht blk (by simp); omega
    have hr := hid.range
    have hd := hid.distinct
    rw [hs, live_append, live_cons_free _ _ hf] at hr hd
    rw [e]
    refine ⟨⟨hcnt, ?_, ?_⟩, ?_⟩
    · intro b hb
      rw [live_append, live_cons_alloc _ _ (by simp)] at hb
      simp only [List.mem_append, List.mem_cons] at hb
      push_cast
      rcases hb with hb | rfl | hb
      · have := hr b (by simp [hb]); omega
      · simp only; omega
      · have := hr b (by simp [hb]); omega
    · rw [live_append, live_cons_alloc _ _ (by simp)]
      simp only [List.map_append, List.map_cons]
      rw [List.map_append] at hd
      apply List.Nodup.append (List.Nodup.of_append_left hd)
      · refine List.nodup_cons.2 ⟨?_, List.Nodup.of_append_right hd⟩
        intro hmem
        obtain ⟨b, hb, eb⟩ := List.mem_map.1 hmem
        have := hr b (by simp [hb])
        omega
      · intro x hx1 hx2
        rcases List.mem_cons.1 hx2 with rfl | hx2
        · obtain ⟨b, hb, eb⟩ := List.mem_map.1 hx1
          have := hr b (by simp [hb])
          omega
        · exact (List.nodup_append.1 hd).2.2 hx1 hx2
    · have := id_of_handle_at pre post
        ({ blk with allocated := 1, alloc_id := s.next_alloc_id } : BlockDesc)
        (int_wrap (s.next_alloc_id + 1)) hpre hlt
      exact this.trans hnext
  · have ht := hinv.tiled
    rw [hs] at ht
    have hpre : ∀ p ∈ pre, p.offset ≠ blk.offset :=
      fun p hp => Nat.ne_of_lt (tiles_front_lt pre post blk _ _ ht p hp)
    have hlt : blk.offset < POOL_SIZE := by
      have := tiles_mem _ _ _ ht blk (by simp); omega
    have hr := hid.range
    have hd := hid.distinct
    rw [hs, live_append, live_cons_free _ _ hf] at hr hd
    rw [e]
    refine ⟨⟨hcnt, ?_, ?_⟩, ?_⟩
    · intro b hb
      rw [live_append, live_cons_alloc _ _ (by simp), live_cons_free _ _ (by simp)] at hb
      simp only [List.mem_append, List.mem_cons] at hb
      push_cast
      rcases hb with hb | rfl | hb
      · have := hr b (by simp [hb]); omega
      · simp only; omega
      · have := hr b (by simp [hb]); omega
    · rw [live_append, live_cons_alloc _ _ (by simp), live_cons_free _ _ (by simp)]
      simp only [List.map_append, List.map_cons]
      rw [List.map_append] at hd
      apply List.Nodup.append (List.Nodup.of_append_left hd)
      · refine List.nodup_cons.2 ⟨?_, List.Nodup.of_append_right hd⟩
        intro hmem
        obtain ⟨b, hb, eb⟩ := List.mem_map.1 hmem
        have := hr b (by simp [hb])
        omega
      · intro x hx1 hx2
        rcases List.mem_cons.1 hx2 with rfl | hx2
        · obtain ⟨b, hb, eb⟩ := List.mem_map.1 hx1
          have := hr b (by simp [hb])
          omega
        · exact (List.nodup_append.1 hd).2.2 hx1 hx2
    · have := id_of_handle_at pre
        (⟨0, 0, blk.offset + n.toNat, blk.size - n.toNat⟩ :: post)
        (⟨1, s.next_alloc_id, blk.offset, n.toNat⟩ : BlockDesc)
        (int_wrap (s.next_alloc_id + 1)) hpre hlt
      exact this.trans hnext

/-- The function `deallocate` keeps the id invariant. -/
theorem id_inv_deallocate (s : PoolState) (ptr : Ptr) (k : Nat) (hid : id_inv s k) :
    id_inv (deallocate s ptr).2 k := by
  cases ptr with
  | null => simpa [deallocate] using hid
  | addr d =>
    rcases deallocate_cases s d with ⟨_, e⟩ |
      ⟨_, _, pre, blk, post, hs, _, _, _, ⟨_, e⟩ | ⟨hne, e⟩⟩
    · rw [e]; exact hid
    · rw [e]; exact hid
    · have hr := hid.range
      have hd := hid.distinct
      rw [hs, live_append, live_cons_alloc _ _ hne] at hr hd
      rw [e]
      refine ⟨hid.counter, ?_, ?_⟩
      · intro b hb
        simp only at hb
        rw [live_coalesce, live_append, live_cons_free _ _ (by simp)] at hb
        rcases List.mem_append.1 hb with hb | hb
        · exact hr b (by simp [hb])
        · exact hr b (by simp [hb])
      · simp only
        rw [live_coalesce, live_append, live_cons_free _ _ (by simp)]
        refine List.Nodup.sublist ?_ hd
        apply List.Sublist.map
        exact List.Sublist.append (List.Sublist.refl _) (List.sublist_cons_self _ _)

/-- On a state satisfying the invariant a failed `allocate` changes nothing. -/
theorem allocate_null_state (s : PoolState) (size : Int) (hinv : pool_inv s)
    (hnull : (allocate s size).1 = Ptr.null) : (allocate s size).2 = s := by
  rcases allocate_inv_cases s size hinv with ⟨_, e⟩ |
    ⟨_, _, pre, blk, post, _, _, _, _, ⟨_, e⟩ | ⟨_, _, e⟩⟩
  · rw [e]
  · rw [e] at hnull; exact absurd hnull (by simp)
  · rw [e] at hnull; exact absurd hnull (by simp)

/-- Along a run with at most `2^31 - 1` successful allocations in total the
invariants hold at the end and the ids handed out increase strictly. -/
theorem run_ids (ops : List Op) :
    ∀ (s : PoolState) (k : Nat), pool_inv s → id_inv s k →
      (k : Int) + ((assigned_ids s ops).length : Int) ≤ 2147483647 →
        pool_inv (run s ops) ∧ id_inv (run s ops) (k + (assigned_ids s ops).length) ∧
        (∀ x ∈ assigned_ids s ops, (k : Int) < x) ∧
        List.Pairwise (fun a b => a < b) (assigned_ids s ops) := by
  induction ops with
  | nil =>
    intro s k hinv hid _
    exact ⟨hinv, by simpa [run, assigned_ids] using hid, by simp [assigned_ids],
      by simp [assigned_ids]⟩
  | cons op ops ih =>
    intro s k hinv hid hb
    cases op with
    | alloc n =>
      by_cases hnull : (allocate s n).1 = Ptr.null
      · have hst := allocate_null_state s n hinv hnull
        have ea : assigned_ids s (Op.alloc n :: ops) = assigned_ids s ops := by
          simp only [assigned_ids, if_pos hnull, hst]
        have er : run s (Op.alloc n :: ops) = run s ops := by
          simp only [run, step, hst]
        rw [ea] at hb ⊢
        rw [er]
        exact ih s k hinv hid hb
      · have ea : assigned_ids s (Op.alloc n :: ops) =
            id_of_handle (allocate s n).2 (allocate s n).1 :: assigned_ids (allocate s n).2 ops := by
          simp only [assigned_ids, if_neg hnull]
        have er : run s (Op.alloc n :: ops) = run (allocate s n).2 ops := rfl
        rw [ea] at hb ⊢
        rw [er]
        simp only [List.length_cons] at hb ⊢
        push_cast at hb
        obtain ⟨hid2, hnew⟩ := id_inv_allocate s n k hinv hid (by omega) hnull
        obtain ⟨r1, r2, r3, r4⟩ := ih (allocate s n).2 (k + 1) (pool_inv_allocate s n hinv) hid2
          (by push_cast; omega)
        refine ⟨r1, ?_, ?_, ?_⟩
        · have : k + ((assigned_ids (allocate s n).2 ops).length + 1)
              = k + 1 + (assigned_ids (allocate s n).2 ops).length := by omega
          rw [this]; exact r2
        · intro x hx
          rcases List.mem_cons.1 hx with rfl | hx
          · rw [hnew]; omega
          · have := r3 x hx
            push_cast at this; omega
        · refine List.pairwise_cons.2 ⟨?_, r4⟩
          intro x hx
          have := r3 x hx
          push_cast at this
          rw [hnew]; omega
    | dealloc p =>
      have ea : assigned_ids s (Op.dealloc p :: ops) = assigned_ids (deallocate s p).2 ops := rfl
      have er : run s (Op.dealloc p :: ops) = run (deallocate s p).2 ops := rfl
      rw [ea] at hb ⊢
      rw [er]
      exact ih _ k (pool_inv_deallocate s p hinv) (id_inv_deallocate s p k hid) hb

theorem id_inv_init : id_inv (init_pool pristine) 0 := by
  refine ⟨by decide, ?_, ?_⟩
  · intro b hb
    have : live (init_pool pristine).blocks = [] := by decide
    rw [this] at hb; simp at hb
  · have : live (init_pool pristine).blocks = [] := by decide
    rw [this]; simp

/-- Distinct ids of the allocated descriptors, stated on indices. -/
theorem live_nodup_index (bs : List BlockDesc) :
    ((live bs).map (fun b => b.alloc_id)).Nodup →
      ∀ i j, i < j → j < bs.length →
        (bs.getD i stale_slot).allocated ≠ 0 → (bs.getD j stale_slot).allocated ≠ 0 →
          (bs.getD i stale_slot).alloc_id ≠ (bs.getD j stale_slot).alloc_id := by
  induction bs with
  | nil => intro _ i j _ hj; simp at hj
  | cons x bs ih =>
    intro hd i j hij hj hi1 hj1
    cases j with
    | zero => omega
    | succ j =>
      have hj2 : j < bs.length := by simpa using hj
      have htail : ((live bs).map (fun b => b.alloc_id)).Nodup := by
        by_cases hx : x.allocated = 0
        · rwa [live_cons_free _ _ hx] at hd
        · rw [live_cons_alloc _ _ hx] at hd
          exact (List.nodup_cons.1 hd).2
      cases i with
      | zero =>
        simp only [List.getD_cons_zero, List.getD_cons_succ] at hi1 hj1 ⊢
        rw [live_cons_alloc _ _ hi1] at hd
        have hnot := (List.nodup_cons.1 hd).1
        intro e
        apply hnot
        refine List.mem_map.2 ⟨bs.getD j stale_slot, ?_, e.symm⟩
        rw [mem_live]
        refine ⟨?_, hj1⟩
        rw [List.getD_eq_getElem _ _ hj2]; exact List.getElem_mem _
      | succ i =>
        simp only [List.getD_cons_succ] at hi1 hj1 ⊢
        exact ih htail i j (by omega) hj2 hi1 hj1

/-! ## Wrap-around of the id counter -/

theorem int_wrap_add (x y : Int) : int_wrap (int_wrap x + y) = int_wrap (x + y) := by
  unfold int_wrap; omega

theorem allocate_whole_pool_one (c : Int) :
    allocate ⟨[⟨0, 0, 0, 102400⟩], c⟩ 1 =
      (Ptr.addr 0, ⟨[⟨1, c, 0, 1⟩, ⟨0, 0, 1, 102399⟩], int_wrap (c + 1)⟩) := rfl

theorem deallocate_first_byte (c n : Int) :
    deallocate ⟨[⟨1, c, 0, 1⟩, ⟨0, 0, 1, 102399⟩], n⟩ (Ptr.addr 0) =
      (DeallocReport.deallocated, ⟨[⟨0, 0, 0, 102400⟩], n⟩) := by
  have h := deallocate_at [] [⟨0, 0, 1, 102399⟩] ⟨1, c, 0, 1⟩ n (by simp)
    (by simp [POOL_SIZE]) (by simp)
  have e : coalesce_free_blocks [⟨0, 0, 0, 1⟩, ⟨0, 0, 1, 102399⟩] = [⟨0, 0, 0, 102400⟩] := by
    decide
  simp only [List.nil_append, e] at h
  exact h

/-- Each round of `churn` on the fresh pool restores the table and advances
the counter by one, modulo `2^32`. -/
theorem churn_fresh (k : Nat) : ∀ c : Int,
    churn k ⟨[⟨0, 0, 0, 102400⟩], int_wrap c⟩ = ⟨[⟨0, 0, 0, 102400⟩], int_wrap (c + (k : Int))⟩ := by
  induction k with
  | zero => intro c; simp [churn]
  | succ k ih =>
    intro c
    rw [churn, allocate_whole_pool_one, deallocate_first_byte]
    simp only
    rw [int_wrap_add, ih (c + 1)]
    congr 2
    push_cast; omega

theorem reachable_churn (k : Nat) : ∀ s, Reachable s → Reachable (churn k s) := by
  induction k with
  | zero => intro s h; exact h
  | succ k ih =>
    intro s h
    exact ih _ (Reachable.dealloc _ _ (Reachable.alloc _ 1 h))

theorem reachable_run (ops : List Op) : ∀ s, Reachable s → Reachable (run s ops) := by
  induction ops with
  | nil => intro s h; exact h
  | cons op ops ih =>
    intro s h
    cases op with
    | alloc n => exact ih _ (Reachable.alloc _ n h)
    | dealloc p => exact ih _ (Reachable.dealloc _ p h)

theorem run_append (ops1 ops2 : List Op) : ∀ s, run s (ops1 ++ ops2) = run (run s ops1) ops2 := by
  induction ops1 with
  | nil => intro s; rfl
  | cons op ops ih => intro s; exact ih (step s op)

/-- Reachable states are exactly the end states of runs from the initialised pool. -/
theorem reachable_iff_run (s : PoolState) :
    Reachable s ↔ ∃ ops, s = run (init_pool pristine) ops := by
  constructor
  · intro h
    induction h with
    | init => exact ⟨[], rfl⟩
    | alloc s n _ ih =>
      obtain ⟨ops, e⟩ := ih
      exact ⟨ops ++ [Op.alloc n], by rw [run_append, ← e]; rfl⟩
    | dealloc s p _ ih =>
      obtain ⟨ops, e⟩ := ih
      exact ⟨ops ++ [Op.dealloc p], by rw [run_append, ← e]; rfl⟩
  · rintro ⟨ops, rfl⟩
    exact reachable_run ops _ Reachable.init

theorem churn_overflow :
    churn 2147483647 (init_pool pristine) = ⟨[⟨0, 0, 0, 102400⟩], -2147483648⟩ := by
  have h := churn_fresh 2147483647 1
  have e1 : (⟨[⟨0, 0, 0, 102400⟩], int_wrap 1⟩ : PoolState) = init_pool pristine := by decide
  have e2 : int_wrap (1 + ((2147483647 : Nat) : Int)) = -2147483648 := by decide
  rw [e1, e2] at h
  exact h

/-! ## Free bytes and coverage under coalescing -/

theorem free_bytes_cons_free (b : BlockDesc) (bs : List BlockDesc) (h : b.allocated = 0) :
    free_bytes (b :: bs) = b.size + free_bytes bs := by
  simp [free_bytes, h]

theorem free_bytes_cons_alloc (b : BlockDesc) (bs : List BlockDesc) (h : b.allocated ≠ 0) :
    free_bytes (b :: bs) = free_bytes bs := by
  simp [free_bytes, h]

theorem free_bytes_append (xs ys : List BlockDesc) :
    free_bytes (xs ++ ys) = free_bytes xs + free_bytes ys := by
  simp [free_bytes]

/-- The coalescing pass keeps the total of free bytes. -/
theorem free_bytes_merge_runs (rest : List BlockDesc) :
    ∀ cur, free_bytes (merge_runs cur rest) = free_bytes (cur :: rest) := by
  induction rest with
  | nil => intro cur; simp [merge_runs]
  | cons b rest ih =>
    intro cur
    unfold merge_runs
    split_ifs with f1 f2
    · rw [ih, free_bytes_cons_free _ _ (by simpa using f1.1), free_bytes_cons_free cur _ f1.1,
        free_bytes_cons_free b _ f1.2]
      simp only; omega
    · by_cases hc : cur.allocated = 0
      · rw [free_bytes_cons_free _ _ hc, free_bytes_cons_free _ _ hc, ih]
      · rw [free_bytes_cons_alloc _ _ hc, free_bytes_cons_alloc _ _ hc, ih]
    · by_cases hc : cur.allocated = 0
      · rw [free_bytes_cons_free _ _ hc, free_bytes_cons_free _ _ hc, ih]
      · rw [free_bytes_cons_alloc _ _ hc, free_bytes_cons_alloc _ _ hc, ih]

theorem free_bytes_coalesce (bs : List BlockDesc) :
    free_bytes (coalesce_free_blocks bs) = free_bytes bs := by
  cases bs with
  | nil => rw [coalesce_nil]
  | cons cur rest => rw [coalesce_cons]; exact free_bytes_merge_runs rest cur

/-- After the coalescing pass of a tiled table every byte range that was free
lies inside a single free descriptor. -/
theorem merge_runs_covers (rest : List BlockDesc) :
    ∀ cur a c, tiles a (cur :: rest) c → ∀ y ∈ cur :: rest, y.allocated = 0 →
      ∃ x ∈ merge_runs cur rest, x.allocated = 0 ∧ x.offset ≤ y.offset ∧
        y.offset + y.size ≤ x.offset + x.size := by
  induction rest with
  | nil =>
    intro cur a c _ y hy hf
    simp only [List.mem_singleton] at hy
    subst hy
    exact ⟨y, by simp [merge_runs], hf, le_refl _, le_refl _⟩
  | cons b rest ih =>
    intro cur a c ht y hy hf
    obtain ⟨h1, h2, h3, h4, h5⟩ := ht
    have hadj : cur.offset + cur.size = b.offset := by omega
    unfold merge_runs
    by_cases f1 : cur.allocated = 0 ∧ b.allocated = 0
    · rw [if_pos f1, if_pos hadj]
      have ht' : tiles a (({ cur with size := cur.size + b.size } : BlockDesc) :: rest) c := by
        refine ⟨h1, by simp; omega, ?_⟩
        simpa [Nat.add_assoc] using h5
      rcases List.mem_cons.1 hy with rfl | hy
      · obtain ⟨x, hx, p1, p2, p3⟩ := ih _ a c ht' _ (List.mem_cons_self _ _) (by simpa using f1.1)
        refine ⟨x, hx, p1, p2, ?_⟩
        simp only at p3; omega
      · rcases List.mem_cons.1 hy with rfl | hy
        · obtain ⟨x, hx, p1, p2, p3⟩ :=
            ih _ a c ht' _ (List.mem_cons_self _ _) (by simpa using f1.1)
          refine ⟨x, hx, p1, ?_, ?_⟩
          · simp only at p2; omega
          · simp only at p3; omega
        · exact ih _ a c ht' y (List.mem_cons_of_mem _ hy) hf
    · rw [if_neg f1]
      rcases List.mem_cons.1 hy with rfl | hy
      · exact ⟨y, List.mem_cons_self _ _, hf, le_refl _, le_refl _⟩
      · obtain ⟨x, hx, p⟩ := ih b _ _ ⟨h3, h4, h5⟩ y hy hf
        exact ⟨x, List.mem_cons_of_mem _ hx, p⟩

theorem coalesce_covers (bs : List BlockDesc) (a c : Nat) (h : tiles a bs c) :
    ∀ y ∈ bs, y.allocated = 0 →
      ∃ x ∈ coalesce_free_blocks bs, x.allocated = 0 ∧ x.offset ≤ y.offset ∧
        y.offset + y.size ≤ x.offset + x.size := by
  cases bs with
  | nil => intro y hy; simp at hy
  | cons cur rest => rw [coalesce_cons]; exact merge_runs_covers rest cur a c h

/-! ## Range of the id counter -/

theorem int_wrap_range (x : Int) : -2147483648 ≤ int_wrap x ∧ int_wrap x ≤ 2147483647 := by
  unfold int_wrap; omega

/-- In every reachable state `next_alloc_id` holds a 32-bit `int` value. -/
theorem counter_in_range (s : PoolState) (h : Reachable s) :
    -2147483648 ≤ s.next_alloc_id ∧ s.next_alloc_id ≤ 2147483647 := by
  induction h with
  | init => decide
  | alloc s n hr ih =>
    rcases allocate_inv_cases s n (pool_inv_of_reachable s hr) with ⟨_, e⟩ |
      ⟨_, _, pre, blk, post, _, _, _, _, ⟨_, e⟩ | ⟨_, _, e⟩⟩
    · rw [e]; exact ih
    · rw [e]; exact int_wrap_range _
    · rw [e]; exact int_wrap_range _
  | dealloc s p hr ih =>
    cases p with
    | null => simpa [deallocate] using ih
    | addr d =>
      rcases deallocate_cases s d with ⟨_, e⟩ |
        ⟨_, _, pre, blk, post, _, _, _, _, ⟨_, e⟩ | ⟨_, e⟩⟩
      · rw [e]; exact ih
      · rw [e]; exact ih
      · rw [e]; exact ih

/-- On a reachable state, when the best-fit descriptor is larger than the
request, `allocate` takes the whole descriptor exactly when the table holds
`MAX_BLOCKS - 1` descriptors, and splits it otherwise. -/
theorem fallback_threshold (s : PoolState) (n : Int) (k : Nat) (h : Reachable s)
    (hn : 0 < n) (hpool : n ≤ (POOL_SIZE : Int))
    (hk : find_best_fit_index s.blocks n.toNat = (k : Int))
    (hsz : n.toNat < (s.blocks.getD k stale_slot).size) :
    (s.block_count + 1 = MAX_BLOCKS →
      (allocate s n).2.blocks = s.blocks.set k
        { s.blocks.getD k stale_slot with allocated := 1, alloc_id := s.next_alloc_id }) ∧
    (s.block_count + 1 ≠ MAX_BLOCKS →
      (allocate s n).2.block_count = s.block_count + 1 ∧
      ((allocate s n).2.blocks.getD k stale_slot).size = n.toNat) := by
  have hinv := pool_inv_of_reachable s h
  have hb := hinv.bounded
  rcases allocate_inv_cases s n hinv with ⟨hc, _⟩ |
    ⟨_, _, pre, blk, post, hs, e0, _, _, hcase⟩
  · exfalso
    rcases hc with hc | hc | hc
    · omega
    · omega
    · rw [hc] at hk; omega
  · rw [hk] at e0
    have hkk : k = pre.length := by exact_mod_cast e0
    subst hkk
    have hg : s.blocks.getD pre.length stale_slot = blk := by rw [hs]; exact getD_at _ _ _ _
    rw [hg] at hsz ⊢
    simp only [PoolState.block_count]
    rcases hcase with ⟨hc, e⟩ | ⟨_, hc, e⟩
    · have hfull : MAX_BLOCKS ≤ s.blocks.length + 1 := by
        rcases hc with hc | hc
        · omega
        · exact hc
      refine ⟨fun _ => ?_, fun hne => by omega⟩
      rw [e, hs, set_at]
    · refine ⟨fun he => by omega, fun _ => ?_⟩
      rw [e]
      refine ⟨?_, ?_⟩
      · simp only [hs, List.length_append, List.length_cons]; omega
      · show ((pre ++ _).getD pre.length stale_slot).size = _
        rw [getD_at]

/-! ## Indices of `blocks[]` used by the table operations -/

theorem shift_loop_indices_le (j : Nat) : ∀ i, ∀ x ∈ shift_loop_indices j i, x ≤ j := by
  induction j with
  | zero => intro i x hx; simp [shift_loop_indices] at hx
  | succ j ih =>
    intro i x hx
    unfold shift_loop_indices at hx
    split_ifs at hx
    · simp only [List.mem_cons] at hx
      rcases hx with rfl | rfl | hx
      · exact le_refl _
      · omega
      · have := ih i x hx; omega
    · simp at hx

theorem remove_loop_indices_lt (fuel : Nat) :
    ∀ j block_count, ∀ x ∈ remove_loop_indices fuel j block_count, x < block_count := by
  induction fuel with
  | zero => intro j bc x hx; simp [remove_loop_indices] at hx
  | succ fuel ih =>
    intro j bc x hx
    unfold remove_loop_indices at hx
    split_ifs at hx with hj
    · simp only [List.mem_cons] at hx
      rcases hx with rfl | rfl | hx
      · omega
      · omega
      · exact ih _ _ x hx
    · simp at hx

/-! ## The split step of `allocate` -/

theorem churn_near_overflow :
    churn 2147483646 (init_pool pristine) = ⟨[⟨0, 0, 0, 102400⟩], 2147483647⟩ := by
  have h := churn_fresh 2147483646 1
  have e1 : (⟨[⟨0, 0, 0, 102400⟩], int_wrap 1⟩ : PoolState) = init_pool pristine := by decide
  have e2 : int_wrap (1 + ((2147483646 : Nat) : Int)) = 2147483647 := by decide
  rw [e1, e2] at h
  exact h

/-! ## Allocation from a free tail behind allocated descriptors -/

theorem filled_allocated (m : Nat) (k : Nat) :
    ∀ o c, ∀ b ∈ filled m k o c, b.allocated ≠ 0 := by
  induction k with
  | zero => intro o c b hb; simp [filled] at hb
  | succ k ih =>
    intro o c b hb
    rw [filled] at hb
    rcases List.mem_cons.1 hb with rfl | hb
    · simp
    · exact ih _ _ b hb

theorem filled_length (m : Nat) (k : Nat) : ∀ o c, (filled m k o c).length = k := by
  induction k with
  | zero => intro o c; rfl
  | succ k ih => intro o c; rw [filled, List.length_cons, ih]

theorem filled_handles_length (m : Nat) (k : Nat) : ∀ o, (filled_handles m k o).length = k := by
  induction k with
  | zero => intro o; rfl
  | succ k ih => intro o; rw [filled_handles, List.length_cons, ih]

theorem filled_handles_ne_null (m : Nat) (k : Nat) :
    ∀ o, ∀ p ∈ filled_handles m k o, p ≠ Ptr.null := by
  induction k with
  | zero => intro o p hp; simp [filled_handles] at hp
  | succ k ih =>
    intro o p hp
    rw [filled_handles] at hp
    rcases List.mem_cons.1 hp with rfl | hp
    · simp
    · exact ih _ p hp

theorem filled_snoc (m : Nat) (k : Nat) : ∀ o c,
    filled m (k + 1) o c = filled m k o c ++ [⟨1, c + (k : Int), o + k * m, m⟩] := by
  induction k with
  | zero => intro o c; simp [filled]
  | succ k ih =>
    intro o c
    rw [filled, ih (o + m) (c + 1)]
    conv_rhs => rw [filled]
    simp only [List.cons_append, List.cons.injEq, true_and, List.append_cancel_left_eq,
      BlockDesc.mk.injEq, and_true]
    constructor
    · push_cast; omega
    · rw [Nat.succ_mul]; omega

/-- With only allocated descriptors in the table the search finds nothing. -/
theorem find_best_fit_none (bs : List BlockDesc) (want : Nat)
    (hall : ∀ b ∈ bs, b.allocated ≠ 0) : find_best_fit_index bs want = -1 := by
  rcases find_best_fit_index_spec bs want with ⟨e, _⟩ | ⟨k, b, _, hk, hf, _⟩
  · exact e
  · exact absurd hf (hall b (List.getElem?_mem hk))

/-- With a single free descriptor, at the end of the table and large enough,
the search selects it. -/
theorem find_best_fit_tail (allocs : List BlockDesc) (tail : BlockDesc) (want : Nat)
    (hall : ∀ b ∈ allocs, b.allocated ≠ 0) (hf : tail.allocated = 0) (hw : want ≤ tail.size) :
    find_best_fit_index (allocs ++ [tail]) want = (allocs.length : Int) := by
  rcases find_best_fit_index_spec (allocs ++ [tail]) want with ⟨_, hnone⟩ | ⟨k, b, e, hk, hbf, _⟩
  · exact absurd hw (hnone tail (by simp) hf)
  · rw [e]
    have hkl := (List.getElem?_eq_some.1 hk).1
    simp only [List.length_append, List.length_singleton] at hkl
    by_cases hlt : k < allocs.length
    · rw [List.getElem?_append_left hlt] at hk
      exact absurd hbf (hall b (List.getElem?_mem hk))
    · have : k = allocs.length := by omega
      rw [this]

/-- The outcome of `allocate` when the only free descriptor is the last one:
it is taken whole on an exact fit or when no descriptor can be inserted,
and split otherwise. -/
theorem allocate_tail (allocs : List BlockDesc) (tail : BlockDesc) (c n : Int)
    (hall : ∀ b ∈ allocs, b.allocated ≠ 0) (hf : tail.allocated = 0)
    (hn : 0 < n) (hpool : n.toNat ≤ POOL_SIZE) (hw : n.toNat ≤ tail.size) :
    ((tail.size = n.toNat ∨ MAX_BLOCKS ≤ allocs.length + 2) →
      allocate ⟨allocs ++ [tail], c⟩ n = (Ptr.addr (tail.offset : Int),
        ⟨allocs ++ [{ tail with allocated := 1, alloc_id := c }], int_wrap (c + 1)⟩)) ∧
    ((tail.size ≠ n.toNat ∧ allocs.length + 2 < MAX_BLOCKS) →
      allocate ⟨allocs ++ [tail], c⟩ n = (Ptr.addr (tail.offset : Int),
        ⟨allocs ++ [⟨1, c, tail.offset, n.toNat⟩,
            ⟨0, 0, tail.offset + n.toNat, tail.size - n.toNat⟩], int_wrap (c + 1)⟩)) := by
  have hfind := find_best_fit_tail allocs tail n.toNat hall hf hw
  have hretry : retry_table (allocs ++ [tail]) n.toNat = allocs ++ [tail] := by
    unfold retry_table
    rw [if_neg (by rw [hfind]; omega)]
  rcases allocate_cases ⟨allocs ++ [tail], c⟩ n with ⟨hc, _⟩ | ⟨_, _, e0, _⟩ |
    ⟨_, _, pre, blk, post, hs, e0, _, _, hcase⟩
  · omega
  · simp only at e0; rw [hfind] at e0; omega
  · simp only at hs e0 hcase
    rw [hretry] at hs e0
    rw [hfind] at e0
    have hlen : allocs.length = pre.length := by exact_mod_cast e0
    have hsplit : allocs ++ [tail] = pre ++ blk :: post := hs
    obtain ⟨e1, e2⟩ := List.append_inj hsplit hlen
    have e3 : tail = blk := by simpa using (List.cons.inj e2).1
    have e4 : post = [] := by simpa using (List.cons.inj e2).2.symm
    subst e1 e3 e4
    have hl : (allocs ++ [tail]).length + 1 = allocs.length + 2 := by simp
    rw [hl] at hcase
    rcases hcase with ⟨hc, e⟩ | ⟨hc1, hc2, e⟩
    · exact ⟨fun _ => e, fun hx => by rcases hc with hc | hc <;> omega⟩
    · exact ⟨fun hx => by rcases hx with hx | hx <;> omega, fun _ => e⟩

/-- While the free tail stays larger than the request and the table has room,
`k` consecutive allocations of `m` bytes carve `k` descriptors off the tail. -/
theorem fill_split (m : Nat) (hm : 0 < m) (hmp : m ≤ POOL_SIZE) (k : Nat) :
    ∀ (allocs : List BlockDesc) (o sz : Nat) (c : Int),
      (∀ b ∈ allocs, b.allocated ≠ 0) → k * m < sz → allocs.length + k + 1 < MAX_BLOCKS →
      -2147483648 ≤ c → c + (k : Int) ≤ 2147483647 →
      fill (m : Int) k ⟨allocs ++ [⟨0, 0, o, sz⟩], c⟩ =
        (filled_handles m k o,
          ⟨allocs ++ filled m k o c ++ [⟨0, 0, o + k * m, sz - k * m⟩], c + (k : Int)⟩) := by
  induction k with
  | zero =>
    intro allocs o sz c _ _ _ _ _
    simp [fill, filled, filled_handles]
  | succ k ih =>
    intro allocs o sz c hall hsz hroom hc1 hc2
    have hkm : (k + 1) * m = k * m + m := Nat.succ_mul k m
    rw [hkm] at hsz
    have htn : ((m : Int)).toNat = m := Int.toNat_ofNat m
    have hstep := (allocate_tail allocs ⟨0, 0, o, sz⟩ c (m : Int) hall rfl (by omega)
      (by rw [htn]; exact hmp) (by rw [htn]; simp only; omega)).2
      ⟨by rw [htn]; simp only; omega, by omega⟩
    rw [htn] at hstep
    simp only at hstep
    have hw : int_wrap (c + 1) = c + 1 := int_wrap_small _ (by omega) (by push_cast at hc2; omega)
    rw [hw] at hstep
    have hshape : allocs ++ [(⟨1, c, o, m⟩ : BlockDesc), ⟨0, 0, o + m, sz - m⟩]
        = (allocs ++ [⟨1, c, o, m⟩]) ++ [⟨0, 0, o + m, sz - m⟩] := by simp
    have hall' : ∀ b ∈ allocs ++ [(⟨1, c, o, m⟩ : BlockDesc)], b.allocated ≠ 0 := by
      intro b hb
      rcases List.mem_append.1 hb with hb | hb
      · exact hall b hb
      · simp only [List.mem_singleton] at hb; subst hb; simp
    have hrec := ih (allocs ++ [⟨1, c, o, m⟩]) (o + m) (sz - m) (c + 1) hall' (by omega)
      (by simp only [List.length_append, List.length_singleton]; omega) (by omega)
      (by push_cast at hc2; omega)
    rw [fill, hstep, hshape, hrec]
    simp only [filled_handles, filled, List.append_assoc, List.singleton_append,
      Prod.mk.injEq, true_and, PoolState.mk.injEq, List.append_cancel_left_eq,
      List.cons.injEq, BlockDesc.mk.injEq, and_true]
    rw [hkm]
    refine ⟨⟨by omega, by omega⟩, ?_⟩
    push_cast; omega

theorem fill_append (size : Int) (a : Nat) : ∀ (b : Nat) (s : PoolState),
    fill size (a + b) s =
      ((fill size a s).1 ++ (fill size b (fill size a s).2).1,
        (fill size b (fill size a s).2).2) := by
  induction a with
  | zero => intro b s; simp [fill]
  | succ a ih =>
    intro b s
    have e : a + 1 + b = (a + b) + 1 := by omega
    rw [e, fill, ih b, fill]
    simp

theorem reachable_fill (size : Int) (k : Nat) :
    ∀ s, Reachable s → Reachable (fill size k s).2 := by
  induction k with
  | zero => intro s h; exact h
  | succ k ih => intro s h; exact ih _ (Reachable.alloc _ size h)

theorem reachable_drain (ps : List Ptr) : ∀ s, Reachable s → Reachable (drain ps s) := by
  induction ps with
  | nil => intro s h; exact h
  | cons p ps ih => intro s h; exact ih _ (Reachable.dealloc _ p h)

/-- With only allocated descriptors behind it, the descriptor at the loop
index is never merged. -/
theorem merge_runs_allocated_rest (rest : List BlockDesc) :
    ∀ cur, (∀ b ∈ rest, b.allocated ≠ 0) → merge_runs cur rest = cur :: rest := by
  induction rest with
  | nil => intro cur _; simp [merge_runs]
  | cons b rest ih =>
    intro cur hall
    have hb : b.allocated ≠ 0 := hall b (by simp)
    rw [merge_runs, if_neg (fun hc => hb hc.2), ih b (fun x hx => hall x (by simp [hx]))]

/-- Releasing the allocations of `filled` in order behind a free descriptor
grows that descriptor until it covers them all. -/
theorem drain_filled (m : Nat) (hm : 0 < m) (o : Nat) (n : Int) (k : Nat) :
    ∀ (sz : Nat) (c : Int), 0 < sz → o + sz + k * m ≤ POOL_SIZE →
      drain (filled_handles m k (o + sz)) ⟨⟨0, 0, o, sz⟩ :: filled m k (o + sz) c, n⟩
        = ⟨[⟨0, 0, o, sz + k * m⟩], n⟩ := by
  induction k with
  | zero => intro sz c _ _; simp [drain, filled, filled_handles]
  | succ k ih =>
    intro sz c hsz hfit
    have hkm : (k + 1) * m = k * m + m := Nat.succ_mul k m
    rw [hkm] at hfit
    have hd := deallocate_at [⟨0, 0, o, sz⟩] (filled m k (o + sz + m) (c + 1))
      ⟨1, c, o + sz, m⟩ n
      (by intro p hp; simp only [List.mem_singleton] at hp; subst hp; simp only; omega)
      (by simp only; omega) (by simp)
    simp only [List.singleton_append] at hd
    have hco : coalesce_free_blocks
        (⟨0, 0, o, sz⟩ :: ⟨0, 0, o + sz, m⟩ :: filled m k (o + sz + m) (c + 1))
        = ⟨0, 0, o, sz + m⟩ :: filled m k (o + sz + m) (c + 1) := by
      rw [coalesce_cons, merge_runs]
      simp only [true_and, if_true]
      exact merge_runs_allocated_rest _ _ (filled_allocated m k _ _)
    rw [hco] at hd
    rw [filled_handles, filled, drain, hd]
    simp only
    have e1 : o + sz + m = o + (sz + m) := by omega
    rw [e1, ih (sz + m) (c + 1) (by omega) (by omega)]
    congr 3
    rw [hkm]; omega

/-- Releasing every allocation of a table made of `k + 1` back-to-back
allocations, in order, leaves one free descriptor over their whole span. -/
theorem drain_all (m : Nat) (hm : 0 < m) (n : Int) (k : Nat) (c : Int)
    (hfit : (k + 1) * m ≤ POOL_SIZE) :
    drain (filled_handles m (k + 1) 0) ⟨filled m (k + 1) 0 c, n⟩
      = ⟨[⟨0, 0, 0, (k + 1) * m⟩], n⟩ := by
  have hkm : (k + 1) * m = k * m + m := Nat.succ_mul k m
  rw [hkm] at hfit
  have hd := deallocate_at [] (filled m k (0 + m) (c + 1)) ⟨1, c, 0, m⟩ n
    (by simp) (by simp only; omega) (by simp)
  simp only [List.nil_append] at hd
  have hco : coalesce_free_blocks (⟨0, 0, 0, m⟩ :: filled m k (0 + m) (c + 1))
      = ⟨0, 0, 0, m⟩ :: filled m k (0 + m) (c + 1) := by
    rw [coalesce_cons]
    exact merge_runs_allocated_rest _ _ (filled_allocated m k _ _)
  rw [hco] at hd
  rw [filled_handles, filled, drain]
  have hd' : deallocate ⟨⟨1, c, 0, m⟩ :: filled m k (0 + m) (c + 1), n⟩ (Ptr.addr ((0 : Nat) : Int))
      = (DeallocReport.deallocated, ⟨⟨0, 0, 0, m⟩ :: filled m k (0 + m) (c + 1), n⟩) := hd
  rw [hd']
  simp only
  rw [drain_filled m hm 0 n k m (c + 1) hm (by omega)]
  congr 3
  rw [hkm]; omega

theorem filled_handles_snoc (m : Nat) (k : Nat) : ∀ o,
    filled_handles m (k + 1) o = filled_handles m k o ++ [Ptr.addr ((o + k * m : Nat) : Int)] := by
  induction k with
  | zero => intro o; simp [filled_handles]
  | succ k ih =>
    intro o
    rw [filled_handles, ih (o + m)]
    conv_rhs => rw [filled_handles]
    simp only [List.cons_append, List.cons.injEq, true_and, List.append_cancel_left_eq,
      Ptr.addr.injEq, and_true]
    rw [Nat.succ_mul]; push_cast; omega

/-- With only allocated descriptors in the table `allocate` returns NULL and
changes nothing. -/
theorem allocate_all_allocated (bs : List BlockDesc) (c n : Int)
    (hall : ∀ b ∈ bs, b.allocated ≠ 0) : allocate ⟨bs, c⟩ n = (Ptr.null, ⟨bs, c⟩) := by
  have hco : coalesce_free_blocks bs = bs := by
    cases bs with
    | nil => exact coalesce_nil
    | cons x xs =>
      rw [coalesce_cons]
      exact merge_runs_allocated_rest xs x (fun b hb => hall b (by simp [hb]))
  have hfind := find_best_fit_none bs n.toNat hall
  rcases allocate_cases ⟨bs, c⟩ n with ⟨_, e⟩ | ⟨_, _, _, _, e⟩ |
    ⟨_, _, pre, blk, post, _, e0, _⟩
  · exact e
  · simp only [hco] at e; exact e
  · exfalso
    simp only [retry_table, hfind, hco, if_true] at e0
    omega

/-- The 201 calls `allocate(512)` on the fresh pool: 200 handles at
consecutive multiples of 512, then NULL, with the pool fully allocated. -/
theorem fill_512 :
    fill 512 201 (init_pool pristine) =
      (filled_handles 512 200 0 ++ [Ptr.null], ⟨filled 512 200 0 1, 201⟩) := by
  have e0 : init_pool pristine = ⟨[⟨0, 0, 0, 102400⟩], 1⟩ := by decide
  have h199 := fill_split 512 (by decide) (by decide) 199 [] 0 102400 1 (by simp)
    (by decide) (by decide) (by decide) (by decide)
  have n1 : (0 : Nat) + 199 * 512 = 101888 := by norm_num
  have n2 : (102400 : Nat) - 199 * 512 = 512 := by norm_num
  have n3 : (1 : Int) + ((199 : Nat) : Int) = 200 := by norm_num
  have cast512 : ((512 : Nat) : Int) = 512 := by norm_num
  rw [n1, n2, n3, cast512] at h199
  simp only [List.nil_append] at h199
  have hsn : filled 512 200 0 1
      = filled 512 199 0 1 ++ [⟨1, 1 + ((199 : Nat) : Int), 0 + 199 * 512, 512⟩] :=
    filled_snoc 512 199 0 1
  rw [n1, n3] at hsn
  have hex := (allocate_tail (filled 512 199 0 1) ⟨0, 0, 101888, 512⟩ 200 512
    (filled_allocated 512 199 0 1) rfl (by decide) (by decide) (by decide)).1
    (Or.inl (by decide))
  have n4 : int_wrap (200 + 1) = 201 := by decide
  rw [n4] at hex
  simp only at hex
  rw [← hsn] at hex
  have hfail := allocate_all_allocated (filled 512 200 0 1) 201 512
    (filled_allocated 512 200 0 1)
  have hhs : filled_handles 512 200 0
      = filled_handles 512 199 0 ++ [Ptr.addr ((0 + 199 * 512 : Nat) : Int)] :=
    filled_handles_snoc 512 199 0
  rw [n1] at hhs
  have hsplit : fill 512 201 (init_pool pristine) =
      ((fill 512 199 (init_pool pristine)).1 ++
          (fill 512 2 (fill 512 199 (init_pool pristine)).2).1,
        (fill 512 2 (fill 512 199 (init_pool pristine)).2).2) :=
    fill_append 512 199 2 (init_pool pristine)
  rw [hsplit, e0, h199]
  simp only [fill]
  rw [hex, hfail, hhs]
  simp

/-- The 1022 calls `allocate(1)` on the fresh pool: 1022 one-byte
allocations and a free tail, 1023 descriptors in all. -/
theorem fill_one_1022 :
    (fill 1 1022 (init_pool pristine)).2 =
      ⟨filled 1 1022 0 1 ++ [⟨0, 0, 1022, 101378⟩], 1023⟩ := by
  have e0 : init_pool pristine = ⟨[⟨0, 0, 0, 102400⟩], 1⟩ := by decide
  have h := fill_split 1 (by decide) (by decide) 1022 [] 0 102400 1 (by simp)
    (by decide) (by decide) (by decide) (by decide)
  have n1 : (0 : Nat) + 1022 * 1 = 1022 := by norm_num
  have n2 : (102400 : Nat) - 1022 * 1 = 101378 := by norm_num
  have n3 : (1 : Int) + ((1022 : Nat) : Int) = 1023 := by norm_num
  have cast1 : ((1 : Nat) : Int) = 1 := by norm_num
  rw [n1, n2, n3, cast1] at h
  simp only [List.nil_append] at h
  rw [e0, h]

/-! ## Two allocations on the fresh pool -/

/-- The first allocation on the fresh pool, of fewer than `POOL_SIZE` bytes. -/
theorem allocate_first (a : Nat) (ha : 0 < a) (hlt : a < POOL_SIZE) :
    allocate (init_pool pristine) (a : Int) =
      (Ptr.addr 0, ⟨[⟨1, 1, 0, a⟩, ⟨0, 0, a, POOL_SIZE - a⟩], 2⟩) := by
  have e0 : init_pool pristine = ⟨[] ++ [⟨0, 0, 0, POOL_SIZE⟩], 1⟩ := by decide
  have htn : ((a : Int)).toNat = a := Int.toNat_ofNat a
  have h := (allocate_tail [] ⟨0, 0, 0, POOL_SIZE⟩ 1 (a : Int) (by simp) rfl (by omega)
    (by rw [htn]; omega) (by rw [htn]; simp only; omega)).2
    ⟨by rw [htn]; simp only; omega, by decide⟩
  rw [htn] at h
  have n1 : int_wrap (1 + 1) = 2 := by decide
  rw [n1] at h
  simp only [List.nil_append, Nat.zero_add] at h
  rw [e0]
  exact h

/-- The second allocation, when it takes all that is left of the pool. -/
theorem allocate_second_exact (a b : Nat) (ha : 0 < a) (hb : 0 < b)
    (hab : a + b = POOL_SIZE) :
    allocate ⟨[⟨1, 1, 0, a⟩, ⟨0, 0, a, POOL_SIZE - a⟩], 2⟩ (b : Int) =
      (Ptr.addr (a : Int), ⟨[⟨1, 1, 0, a⟩, ⟨1, 2, a, POOL_SIZE - a⟩], 3⟩) := by
  have htn : ((b : Int)).toNat = b := Int.toNat_ofNat b
  have h := (allocate_tail [⟨1, 1, 0, a⟩] ⟨0, 0, a, POOL_SIZE - a⟩ 2 (b : Int)
    (by simp) rfl (by omega) (by rw [htn]; omega) (by rw [htn]; simp only; omega)).1
    (Or.inl (by rw [htn]; simp only; omega))
  have n1 : int_wrap (2 + 1) = 3 := by decide
  rw [n1] at h
  exact h

/-- The second allocation, when it leaves a free remainder. -/
theorem allocate_second_split (a b : Nat) (ha : 0 < a) (hb : 0 < b)
    (hab : a + b < POOL_SIZE) :
    allocate ⟨[⟨1, 1, 0, a⟩, ⟨0, 0, a, POOL_SIZE - a⟩], 2⟩ (b : Int) =
      (Ptr.addr (a : Int),
        ⟨[⟨1, 1, 0, a⟩, ⟨1, 2, a, b⟩, ⟨0, 0, a + b, POOL_SIZE - a - b⟩], 3⟩) := by
  have htn : ((b : Int)).toNat = b := Int.toNat_ofNat b
  have h := (allocate_tail [⟨1, 1, 0, a⟩] ⟨0, 0, a, POOL_SIZE - a⟩ 2 (b : Int)
    (by simp) rfl (by omega) (by rw [htn]; omega) (by rw [htn]; simp only; omega)).2
    ⟨by rw [htn]; simp only; omega, by simp [MAX_BLOCKS]⟩
  have n1 : int_wrap (2 + 1) = 3 := by decide
  rw [n1, htn] at h
  exact h

/-- Releasing two back-to-back allocations at the start of the table, with
or without a free remainder `tl` behind them, in either order, leaves all
their bytes and the remainder in one free descriptor. -/
theorem release_two (a b : Nat) (n : Int) (tl : List BlockDesc) (r : Nat)
    (ha : 0 < a) (hb : 0 < b) (hfit : a + b + r ≤ POOL_SIZE)
    (htl : tl = [] ∧ r = 0 ∨ tl = [⟨0, 0, a + b, r⟩]) :
    (deallocate ⟨⟨1, 1, 0, a⟩ :: ⟨1, 2, a, b⟩ :: tl, n⟩ (Ptr.addr 0)).1
      = DeallocReport.deallocated ∧
    (deallocate (deallocate ⟨⟨1, 1, 0, a⟩ :: ⟨1, 2, a, b⟩ :: tl, n⟩ (Ptr.addr 0)).2
      (Ptr.addr (a : Int))) = (DeallocReport.deallocated, ⟨[⟨0, 0, 0, a + b + r⟩], n⟩) ∧
    (deallocate ⟨⟨1, 1, 0, a⟩ :: ⟨1, 2, a, b⟩ :: tl, n⟩ (Ptr.addr (a : Int))).1
      = DeallocReport.deallocated ∧
    (deallocate (deallocate ⟨⟨1, 1, 0, a⟩ :: ⟨1, 2, a, b⟩ :: tl, n⟩ (Ptr.addr (a : Int))).2
      (Ptr.addr 0)) = (DeallocReport.deallocated, ⟨[⟨0, 0, 0, a + b + r⟩], n⟩) := by
  -- first the block at offset 0, then the block at offset `a`
  have d1 := deallocate_at [] (⟨1, 2, a, b⟩ :: tl) ⟨1, 1, 0, a⟩ n (by simp)
    (by simp only; omega) (by simp)
  have c1 : coalesce_free_blocks ([] ++ (⟨0, 0, 0, a⟩ : BlockDesc) :: ⟨1, 2, a, b⟩ :: tl)
      = ⟨0, 0, 0, a⟩ :: ⟨1, 2, a, b⟩ :: tl := by
    rcases htl with ⟨rfl, _⟩ | rfl <;> simp [coalesce_cons, merge_runs]
  simp only at d1
  rw [c1] at d1
  have d2 := deallocate_at [⟨0, 0, 0, a⟩] tl ⟨1, 2, a, b⟩ n
    (by intro p hp; simp only [List.mem_singleton] at hp; subst hp; simp only; omega)
    (by simp only; omega) (by simp)
  have c2 : coalesce_free_blocks ([(⟨0, 0, 0, a⟩ : BlockDesc)] ++ ⟨0, 0, a, b⟩ :: tl)
      = [⟨0, 0, 0, a + b + r⟩] := by
    rcases htl with ⟨rfl, rfl⟩ | rfl <;> simp [coalesce_cons, merge_runs]
  simp only at d2
  rw [c2] at d2
  -- first the block at offset `a`, then the block at offset 0
  have d3 := deallocate_at [⟨1, 1, 0, a⟩] tl ⟨1, 2, a, b⟩ n
    (by intro p hp; simp only [List.mem_singleton] at hp; subst hp; simp only; omega)
    (by simp only; omega) (by simp)
  have c3 : coalesce_free_blocks ([(⟨1, 1, 0, a⟩ : BlockDesc)] ++ ⟨0, 0, a, b⟩ :: tl)
      = [⟨1, 1, 0, a⟩, ⟨0, 0, a, b + r⟩] := by
    rcases htl with ⟨rfl, rfl⟩ | rfl <;> simp [coalesce_cons, merge_runs]
  simp only at d3
  rw [c3] at d3
  have d4 := deallocate_at [] [⟨0, 0, a, b + r⟩] ⟨1, 1, 0, a⟩ n (by simp)
    (by simp only; omega) (by simp)
  have c4 : coalesce_free_blocks ([] ++ [(⟨0, 0, 0, a⟩ : BlockDesc), ⟨0, 0, a, b + r⟩])
      = [⟨0, 0, 0, a + b + r⟩] := by
    simp [coalesce_cons, merge_runs, Nat.add_assoc]
  simp only at d4
  rw [c4] at d4
  have z : ((0 : Nat) : Int) = 0 := rfl
  rw [z] at d1 d4
  simp only [List.nil_append, List.singleton_append] at d1 d2 d3 d4
  refine ⟨by rw [d1], by rw [d1]; exact d2, by rw [d3], by rw [d3]; exact d4⟩

/-! ## The coalescing pass against its reference definition -/

/-- The merges counted by the loop account for the descriptors that disappear. -/
theorem coalesce_loop_merges_eq (rest : List BlockDesc) :
    ∀ (cur : BlockDesc) (pre : List BlockDesc) (fuel : Nat), rest.length ≤ fuel →
      (merge_runs cur rest).length + coalesce_loop_merges fuel pre.length (pre ++ cur :: rest)
        = rest.length + 1 := by
  induction rest with
  | nil =>
    intro cur pre fuel _
    cases fuel with
    | zero => simp [coalesce_loop_merges, merge_runs]
    | succ n => simp [coalesce_loop_merges, merge_runs]
  | cons b rest ih =>
    intro cur pre fuel hf
    cases fuel with
    | zero => simp at hf
    | succ n =>
      have hn : rest.length ≤ n := by simpa using hf
      have hlen : pre.length + 1 < (pre ++ cur :: b :: rest).length := by simp
      rw [coalesce_loop_merges, if_pos hlen]
      simp only [getD_at, getD_at_succ, set_at]
      by_cases hfree : cur.allocated = 0 ∧ b.allocated = 0
      · by_cases hadj : cur.offset + cur.size = b.offset
        · have hlen2 : pre.length + 1 <
              (pre ++ { cur with size := cur.size + b.size } :: b :: rest).length := by simp
          rw [if_pos hfree, if_pos hadj, remove_block_at, if_pos hlen2, eraseIdx_at_succ]
          have := ih { cur with size := cur.size + b.size } pre n hn
          rw [merge_runs, if_pos hfree, if_pos hadj]
          simp only [List.length_cons]
          omega
        · rw [if_pos hfree, if_neg hadj]
          have := ih b (pre ++ [cur]) n hn
          simp only [List.length_append, List.length_singleton, List.append_assoc,
            List.singleton_append] at this
          rw [merge_runs, if_pos hfree, if_neg hadj]
          simp only [List.length_cons]
          omega
      · rw [if_neg hfree]
        have := ih b (pre ++ [cur]) n hn
        simp only [List.length_append, List.length_singleton, List.append_assoc,
          List.singleton_append] at this
        rw [merge_runs, if_neg hfree]
        simp only [List.length_cons]
        omega

theorem coalesce_merges_length (bs : List BlockDesc) :
    (coalesce_free_blocks bs).length + coalesce_merges bs = bs.length := by
  cases bs with
  | nil => simp [coalesce_nil, coalesce_merges]
  | cons cur rest =>
    rw [coalesce_cons]
    unfold coalesce_merges
    by_cases h : (cur :: rest).length ≤ 1
    · rw [if_pos h]
      cases rest with
      | nil => simp [merge_runs]
      | cons b r => simp at h
    · rw [if_neg h]
      have := coalesce_loop_merges_eq rest cur [] (cur :: rest).length (by simp)
      simpa using this

theorem coalesce_reference_upto_nil (n : Nat) : coalesce_reference_upto n [] = [] := by
  cases n <;> rfl

/-- On a tiled table a free descriptor at the loop index absorbs the free
descriptors that follow it, and the pass goes on behind them. -/
theorem merge_runs_free_run (rest : List BlockDesc) :
    ∀ cur a c, tiles a (cur :: rest) c → cur.allocated = 0 →
      merge_runs cur rest =
        { cur with size := cur.size +
            ((rest.takeWhile (fun x => decide (x.allocated = 0))).map (fun x => x.size)).sum } ::
          coalesce_free_blocks (rest.dropWhile (fun x => decide (x.allocated = 0))) := by
  induction rest with
  | nil =>
    intro cur a c _ _
    simp [merge_runs, coalesce_nil]
  | cons b rest ih =>
    intro cur a c ht hf
    obtain ⟨h1, h2, h3, h4, h5⟩ := ht
    have hadj : cur.offset + cur.size = b.offset := by omega
    by_cases hb : b.allocated = 0
    · have ht' : tiles a (({ cur with size := cur.size + b.size } : BlockDesc) :: rest) c := by
        refine ⟨h1, by simp; omega, ?_⟩
        simpa [Nat.add_assoc] using h5
      rw [merge_runs, if_pos ⟨hf, hb⟩, if_pos hadj, ih _ a c ht' (by simpa using hf)]
      simp [hb, Nat.add_assoc]
    · rw [merge_runs, if_neg (fun hc => hb hc.2)]
      simp [hb, coalesce_cons]

/-- On a tiled table the pass computes the reference definition. -/
theorem coalesce_eq_reference_upto (n : Nat) :
    ∀ (bs : List BlockDesc) (a c : Nat), bs.length ≤ n → tiles a bs c →
      coalesce_free_blocks bs = coalesce_reference_upto n bs := by
  induction n with
  | zero =>
    intro bs a c hl _
    have : bs = [] := List.length_eq_zero.1 (by omega)
    subst this
    rw [coalesce_nil]; rfl
  | succ n ih =>
    intro bs a c hl ht
    cases bs with
    | nil => rw [coalesce_nil]; rfl
    | cons b rest =>
      have hrl : rest.length ≤ n := by simpa using hl
      rw [coalesce_cons, coalesce_reference_upto]
      by_cases hb : b.allocated = 0
      · rw [if_pos hb, merge_runs_free_run rest b a c ht hb]
        congr 1
        have hsplit := List.takeWhile_append_dropWhile (fun x => decide (x.allocated = 0)) rest
        have ht2 := ht.2.2
        rw [← hsplit, tiles_append] at ht2
        obtain ⟨m, _, t2⟩ := ht2
        have hdl : (rest.dropWhile (fun x => decide (x.allocated = 0))).length ≤ n := by
          have := congrArg List.length hsplit
          rw [List.length_append] at this
          omega
        exact ih _ m c hdl t2
      · rw [if_neg hb]
        cases rest with
        | nil => simp [merge_runs, coalesce_reference_upto_nil]
        | cons x xs =>
          rw [merge_runs, if_neg (fun hc => hb hc.1), ← coalesce_cons]
          congr 1
          exact ih _ _ c hrl ht.2.2

/-! ## States of a run -/

/-- A run is either still in the state at program start, where nothing has
been initialised, or in a state reachable from the initialised pool. -/
theorem program_state_cases (s : PoolState) (h : ProgramState s) :
    s = pristine ∨ Reachable s := by
  induction h with
  | start => exact Or.inl rfl
  | init s _ ih =>
    right
    rcases ih with rfl | hr
    · exact Reachable.init
    · have hne : s.block_count ≠ 0 := by
        have := (pool_inv_of_reachable s hr).nonempty
        simp only [PoolState.block_count]
        intro e
        exact this (List.length_eq_zero.1 e)
      have e : init_pool s = s := by simp only [init_pool, if_pos hne]
      rw [e]; exact hr
  | alloc s n _ ih =>
    rcases ih with rfl | hr
    · left
      have e := allocate_all_allocated [] 1 n (by simp)
      show (allocate ⟨[], 1⟩ n).2 = ⟨[], 1⟩
      rw [e]
    · exact Or.inr (Reachable.alloc s n hr)
  | dealloc s p _ ih =>
    rcases ih with rfl | hr
    · left
      cases p with
      | null => rfl
      | addr d =>
        have e := (deallocate_not_found pristine d (Or.inr (Or.inr (by simp [pristine])))).2
        rw [e]
    · exact Or.inr (Reachable.dealloc s p hr)

/-! ## Claims -/

/-- C1 (partition invariant): in every state reachable from the initialised
pool by `allocate` / `deallocate` calls the descriptors partition the arena:
the first offset is 0, consecutive descriptors are contiguous, the last one
ends at `POOL_SIZE`, and every size is positive. -/
theorem C1_partition_invariant (s : PoolState) (h : Reachable s) : partition_inv s.blocks := by
  have hi := pool_inv_of_reachable s h
  exact (partition_inv_iff s.blocks).2 ⟨hi.nonempty, hi.tiled⟩

theorem C1_partition_invariant_witness :
    Reachable (allocate (init_pool pristine) 128).2 ∧
      partition_inv (allocate (init_pool pristine) 128).2.blocks :=
  ⟨Reachable.alloc _ 128 Reachable.init,
    C1_partition_invariant _ (Reachable.alloc _ 128 Reachable.init)⟩

/-- C2 (allocation exclusivity): in every reachable state two distinct
allocated descriptors have disjoint byte ranges and different start offsets
(so their handles differ), and every allocated range lies inside
`[0, POOL_SIZE)`. -/
theorem C2_allocation_exclusivity (s : PoolState) (h : Reachable s) :
    (∀ i j, i < s.blocks.length → j < s.blocks.length → i ≠ j →
      (s.blocks.getD i stale_slot).allocated ≠ 0 →
      (s.blocks.getD j stale_slot).allocated ≠ 0 →
        ((s.blocks.getD i stale_slot).offset + (s.blocks.getD i stale_slot).size
            ≤ (s.blocks.getD j stale_slot).offset ∨
          (s.blocks.getD j stale_slot).offset + (s.blocks.getD j stale_slot).size
            ≤ (s.blocks.getD i stale_slot).offset) ∧
        (s.blocks.getD i stale_slot).offset ≠ (s.blocks.getD j stale_slot).offset) ∧
    (∀ i, i < s.blocks.length → (s.blocks.getD i stale_slot).allocated ≠ 0 →
      (s.blocks.getD i stale_slot).offset + (s.blocks.getD i stale_slot).size ≤ POOL_SIZE ∧
      0 < (s.blocks.getD i stale_slot).size) := by
  have hi := pool_inv_of_reachable s h
  have hmem : ∀ i, i < s.blocks.length → s.blocks.getD i stale_slot ∈ s.blocks := by
    intro i hi2
    rw [List.getD_eq_getElem _ _ hi2]; exact List.getElem_mem _
  constructor
  · intro i j hil hjl hij _ _
    have pi := tiles_mem _ _ _ hi.tiled _ (hmem i hil)
    have pj := tiles_mem _ _ _ hi.tiled _ (hmem j hjl)
    rcases Nat.lt_or_gt_of_ne hij with hlt | hgt
    · have := tiles_ordered _ _ _ hi.tiled i j hlt hjl
      exact ⟨Or.inl this, by omega⟩
    · have := tiles_ordered _ _ _ hi.tiled j i hgt hil
      exact ⟨Or.inr this, by omega⟩
  · intro i hil _
    have pi := tiles_mem _ _ _ hi.tiled _ (hmem i hil)
    exact ⟨pi.2.1, pi.2.2⟩

theorem C2_allocation_exclusivity_witness :
    Reachable two_live ∧
    (((two_live.blocks.getD 0 stale_slot).offset + (two_live.blocks.getD 0 stale_slot).size
          ≤ (two_live.blocks.getD 1 stale_slot).offset ∨
        (two_live.blocks.getD 1 stale_slot).offset + (two_live.blocks.getD 1 stale_slot).size
          ≤ (two_live.blocks.getD 0 stale_slot).offset) ∧
      (two_live.blocks.getD 0 stale_slot).offset ≠ (two_live.blocks.getD 1 stale_slot).offset) :=
  ⟨Reachable.alloc _ 256 (Reachable.alloc _ 128 Reachable.init),
    (C2_allocation_exclusivity two_live
      (Reachable.alloc _ 256 (Reachable.alloc _ 128 Reachable.init))).1 0 1
      (by decide) (by decide) (by decide) (by decide) (by decide)⟩

/-- C3 (best-fit selection): `find_best_fit_index(want)` returns -1 exactly
when no free descriptor has `size >= want`; otherwise it returns the index of
a free descriptor of size at least `want`, of minimal size among those, and
lowest in index among the free descriptors of that size.  With free blocks
of sizes 4096, 2048 and 1024 a request for 1024 selects the 1024 block, and
in test 4 `allocate(512)` is carved from the freed 2048-byte hole (the
address of `p2`, offset 1024), leaving a 1536-byte free remainder. -/
theorem C3_best_fit_selection :
    (∀ (bs : List BlockDesc) (want : Nat),
      (find_best_fit_index bs want = -1 ↔
        ∀ i, i < bs.length →
          ¬ ((bs.getD i stale_slot).allocated = 0 ∧ want ≤ (bs.getD i stale_slot).size)) ∧
      (find_best_fit_index bs want ≠ -1 →
        ∃ k : Nat, find_best_fit_index bs want = (k : Int) ∧ k < bs.length ∧
          (bs.getD k stale_slot).allocated = 0 ∧ want ≤ (bs.getD k stale_slot).size ∧
          (∀ j, j < bs.length → (bs.getD j stale_slot).allocated = 0 →
            want ≤ (bs.getD j stale_slot).size →
              (bs.getD k stale_slot).size ≤ (bs.getD j stale_slot).size) ∧
          (∀ j, j < bs.length → (bs.getD j stale_slot).allocated = 0 →
            (bs.getD j stale_slot).size = (bs.getD k stale_slot).size → k ≤ j))) ∧
    find_best_fit_index [⟨0, 0, 0, 4096⟩, ⟨0, 0, 4096, 2048⟩, ⟨0, 0, 6144, 1024⟩] 1024 = 2 ∧
    before_p4.blocks =
      [⟨1, 5, 0, 1024⟩, ⟨0, 0, 1024, 2048⟩, ⟨1, 7, 3072, 4096⟩, ⟨0, 0, 7168, 95232⟩] ∧
    allocate before_p4 512 =
      (Ptr.addr 1024,
        ⟨[⟨1, 5, 0, 1024⟩, ⟨1, 8, 1024, 512⟩, ⟨0, 0, 1536, 1536⟩, ⟨1, 7, 3072, 4096⟩,
          ⟨0, 0, 7168, 95232⟩], 9⟩) := by
  refine ⟨?_, by decide, by decide, by decide⟩
  intro bs want
  have hget : ∀ (j : Nat) (c : BlockDesc), bs[j]? = some c →
      j < bs.length ∧ bs.getD j stale_slot = c := by
    intro j c hj
    obtain ⟨hl, e⟩ := List.getElem?_eq_some.1 hj
    exact ⟨hl, by rw [List.getD_eq_getElem _ _ hl, e]⟩
  have hget2 : ∀ j, j < bs.length → bs[j]? = some (bs.getD j stale_slot) := by
    intro j hj
    rw [List.getD_eq_getElem _ _ hj, List.getElem?_eq_getElem hj]
  rcases find_best_fit_index_spec bs want with ⟨e, hall⟩ | ⟨k, b, e, hk, hf, hw, hmin, hfirst⟩
  · refine ⟨⟨fun _ i hi hc => ?_, fun _ => e⟩, fun hne => absurd e hne⟩
    have hm : bs.getD i stale_slot ∈ bs := by
      rw [List.getD_eq_getElem _ _ hi]; exact List.getElem_mem _
    exact hall _ hm hc.1 hc.2
  · obtain ⟨hkl, hkb⟩ := hget k b hk
    have hne : find_best_fit_index bs want ≠ -1 := by rw [e]; omega
    refine ⟨⟨fun h => absurd h hne, fun h => ?_⟩, fun _ => ?_⟩
    · exact absurd ⟨by rw [hkb]; exact hf, by rw [hkb]; exact hw⟩ (h k hkl)
    · refine ⟨k, e, hkl, by rw [hkb]; exact hf, by rw [hkb]; exact hw, ?_, ?_⟩
      · intro j hj hjf hjw
        rw [hkb]
        exact hmin j _ (hget2 j hj) hjf hjw
      · intro j hj hjf hjs
        by_contra hlt
        push_neg at hlt
        have := hfirst j _ hlt (hget2 j hj) hjf (by rw [hjs, hkb]; exact hw)
        rw [hkb] at hjs
        omega

/-- C4 (round trip): on every reachable state, when `allocate(n)` returns a
non-null handle, `deallocate` of that handle right afterwards succeeds and
leaves the descriptor table equal to the table before the allocation.  This
holds on the exact-fit, split and capacity-fallback paths alike. -/
theorem C4_round_trip (s : PoolState) (n : Int) (h : Reachable s)
    (hok : (allocate s n).1 ≠ Ptr.null) :
    (deallocate (allocate s n).2 (allocate s n).1).1 = DeallocReport.deallocated ∧
    (deallocate (allocate s n).2 (allocate s n).1).2.blocks = s.blocks := by
  have hi := pool_inv_of_reachable s h
  rcases allocate_inv_cases s n hi with ⟨_, e⟩ |
    ⟨h1, _, pre, blk, post, hs, _, hf, hw, ⟨_, e⟩ | ⟨hne, _, e⟩⟩
  · rw [e] at hok; exact absurd rfl hok
  · have ht := hi.tiled
    have hn := hi.separated
    rw [hs] at ht hn
    have hpre : ∀ p ∈ pre, p.offset ≠ blk.offset :=
      fun p hp => Nat.ne_of_lt (tiles_front_lt pre post blk _ _ ht p hp)
    have hlt : blk.offset < POOL_SIZE := by
      have := tiles_mem _ _ _ ht blk (by simp); omega
    have hid : blk.alloc_id = 0 := hi.free_ids blk (by rw [hs]; simp) hf
    have hback : ({ ({ blk with allocated := 1, alloc_id := s.next_alloc_id } : BlockDesc) with
        allocated := 0, alloc_id := 0 } : BlockDesc) = blk := by
      cases blk; simp at hf hid; simp [hf, hid]
    rw [e]
    have hd := deallocate_at pre post
      ({ blk with allocated := 1, alloc_id := s.next_alloc_id } : BlockDesc)
      (int_wrap (s.next_alloc_id + 1)) hpre hlt (by simp)
    simp only at hd
    rw [hd, hback, coalesce_id _ hn]
    exact ⟨rfl, hs.symm⟩
  · have ht := hi.tiled
    have hn := hi.separated
    rw [hs] at ht hn
    have hpre : ∀ p ∈ pre, p.offset ≠ blk.offset :=
      fun p hp => Nat.ne_of_lt (tiles_front_lt pre post blk _ _ ht p hp)
    have hlt : blk.offset < POOL_SIZE := by
      have := tiles_mem _ _ _ ht blk (by simp); omega
    have hid : blk.alloc_id = 0 := hi.free_ids blk (by rw [hs]; simp) hf
    rw [e]
    have hd := deallocate_at pre
      (⟨0, 0, blk.offset + n.toNat, blk.size - n.toNat⟩ :: post)
      (⟨1, s.next_alloc_id, blk.offset, n.toNat⟩ : BlockDesc)
      (int_wrap (s.next_alloc_id + 1)) hpre hlt (by simp)
    simp only at hd
    rw [hd]
    have hleft : no_adj (pre ++ [(⟨0, 0, blk.offset, n.toNat⟩ : BlockDesc)]) :=
      no_adj_left _ _ [] (no_adj_flag_eq pre blk _ [] (no_adj_left pre blk post hn) (by simp [hf]))
    rw [coalesce_front _ _ _ hleft]
    have hm : merge_runs (⟨0, 0, blk.offset, n.toNat⟩ : BlockDesc)
        (⟨0, 0, blk.offset + n.toNat, blk.size - n.toNat⟩ :: post) = blk :: post := by
      have hb : ({ (⟨0, 0, blk.offset, n.toNat⟩ : BlockDesc) with
          size := n.toNat + (blk.size - n.toNat) } : BlockDesc) = blk := by
        have : n.toNat + (blk.size - n.toNat) = blk.size := by omega
        cases blk; simp at hf hid this; simp [hf, hid, this]
      rw [merge_runs]
      simp only [true_and, if_true]
      rw [hb]
      exact merge_runs_id post blk (no_adj_right pre blk post hn)
    rw [hm]
    exact ⟨rfl, hs.symm⟩

theorem C4_round_trip_witness :
    (Reachable (init_pool pristine) ∧ (allocate (init_pool pristine) 1).1 ≠ Ptr.null ∧
      (deallocate (allocate (init_pool pristine) 1).2 (allocate (init_pool pristine) 1).1).1
        = DeallocReport.deallocated ∧
      (deallocate (allocate (init_pool pristine) 1).2 (allocate (init_pool pristine) 1).1).2.blocks
        = (init_pool pristine).blocks) ∧
    ((allocate (init_pool pristine) 102400).1 ≠ Ptr.null ∧
      (deallocate (allocate (init_pool pristine) 102400).2
          (allocate (init_pool pristine) 102400).1).1 = DeallocReport.deallocated ∧
      (deallocate (allocate (init_pool pristine) 102400).2
          (allocate (init_pool pristine) 102400).1).2.blocks = (init_pool pristine).blocks) :=
  ⟨⟨Reachable.init, by decide, C4_round_trip _ 1 Reachable.init (by decide)⟩,
    ⟨by decide, C4_round_trip _ 102400 Reachable.init (by decide)⟩⟩

/-- C5, as stated, fails: after `allocate(128)`, `allocate(256)` and the
release of the first block, the block at offset 128 is live; freeing it
succeeds and merges it into the free block before it, and freeing it again
is reported as "not recognized as block start", not as "already free". -/
theorem C5_double_free_counterexample :
    Reachable freed_first ∧
    freed_first.blocks.getD 1 stale_slot = ⟨1, 2, 128, 256⟩ ∧
    (deallocate freed_first (handle_of freed_first 1)).1 = DeallocReport.deallocated ∧
    (deallocate (deallocate freed_first (handle_of freed_first 1)).2
        (handle_of freed_first 1)).1 = DeallocReport.not_block_start ∧
    (deallocate (deallocate freed_first (handle_of freed_first 1)).2
        (handle_of freed_first 1)).1 ≠ DeallocReport.already_free :=
  ⟨Reachable.dealloc _ _ (Reachable.alloc _ 256 (Reachable.alloc _ 128 Reachable.init)),
    by decide, by decide, by decide, by decide⟩

/-- C5 (double free, amended): on every reachable state, for the handle of
every allocated descriptor, the first `deallocate` succeeds and a second
`deallocate` of the same handle fails and leaves the state exactly as the
first call left it.  The second call reports "already free" when the freed
descriptor is first in the table or its predecessor is allocated, and "not
recognized as block start" when the predecessor is free (the freed block was
merged into it). -/
theorem C5_double_free (s : PoolState) (i : Nat) (h : Reachable s) (hi : i < s.blocks.length)
    (ha : (s.blocks.getD i stale_slot).allocated ≠ 0) :
    (deallocate s (handle_of s i)).1 = DeallocReport.deallocated ∧
    (deallocate (deallocate s (handle_of s i)).2 (handle_of s i)).2
      = (deallocate s (handle_of s i)).2 ∧
    ((i = 0 ∨ (s.blocks.getD (i - 1) stale_slot).allocated ≠ 0) →
      (deallocate (deallocate s (handle_of s i)).2 (handle_of s i)).1
        = DeallocReport.already_free) ∧
    ((0 < i ∧ (s.blocks.getD (i - 1) stale_slot).allocated = 0) →
      (deallocate (deallocate s (handle_of s i)).2 (handle_of s i)).1
        = DeallocReport.not_block_start) := by
  have hinv := pool_inv_of_reachable s h
  obtain ⟨pre, post, hs, hlen⟩ := split_at s.blocks i stale_slot hi
  generalize hblk : s.blocks.getD i stale_slot = blk at hs ha
  have ht := hinv.tiled
  have hn := hinv.separated
  rw [hs] at ht hn
  have hpre : ∀ p ∈ pre, p.offset ≠ blk.offset :=
    fun p hp => Nat.ne_of_lt (tiles_front_lt pre post blk _ _ ht p hp)
  have hlt : blk.offset < POOL_SIZE := by
    have := tiles_mem _ _ _ ht blk (by simp); omega
  have hs2 : s = ⟨pre ++ blk :: post, s.next_alloc_id⟩ := by
    cases s; simp at hs; simp [hs]
  have hh : handle_of s i = Ptr.addr (blk.offset : Int) := by
    simp only [handle_of, hblk]
  have hd1 : deallocate s (Ptr.addr (blk.offset : Int)) = (DeallocReport.deallocated,
      ⟨coalesce_free_blocks (pre ++ { blk with allocated := 0, alloc_id := 0 } :: post),
        s.next_alloc_id⟩) := by
    conv_lhs => rw [hs2]
    exact deallocate_at pre post blk _ hpre hlt ha
  have ht0 : tiles 0 (pre ++ { blk with allocated := 0, alloc_id := 0 } :: post) POOL_SIZE := by
    rw [tiles_append] at ht ⊢
    obtain ⟨m, t1, t2⟩ := ht
    exact ⟨m, t1, t2⟩
  rw [hh, hd1]
  simp only
  rcases List.eq_nil_or_concat pre with hnil | ⟨pre', q, hq⟩
  · -- the freed descriptor is first in the table
    subst hnil
    have hi0 : i = 0 := by simpa using hlen.symm
    obtain ⟨c, tl, ec, pc1, _, pc3⟩ :=
      merge_runs_head post ({ blk with allocated := 0, alloc_id := 0 } : BlockDesc)
    have hco : coalesce_free_blocks
        ([] ++ ({ blk with allocated := 0, alloc_id := 0 } : BlockDesc) :: post) = [] ++ c :: tl := by
      simp only [List.nil_append]; rw [coalesce_cons, ec]
    rw [hco]
    have hc3 : c.offset = blk.offset := pc3
    have hd2 := deallocate_at_free [] tl c s.next_alloc_id (by simp) (by omega) pc1
    rw [hc3] at hd2
    rw [hd2]
    exact ⟨trivial, rfl, fun _ => rfl, fun hc => by omega⟩
  · rw [List.concat_eq_append] at hq
    subst hq
    have hi1 : i = pre'.length + 1 := by simpa using hlen.symm
    have hn' : no_adj (pre' ++ q :: blk :: post) := by simpa using hn
    have ht' : tiles 0 (pre' ++ q :: blk :: post) POOL_SIZE := by simpa using ht
    have hqi : s.blocks.getD (i - 1) stale_slot = q := by
      rw [hs, hi1, Nat.add_sub_cancel, List.append_assoc]
      exact getD_at pre' q stale_slot _
    rw [hqi]
    by_cases hqf : q.allocated = 0
    · -- the predecessor is free: the freed block is merged into it
      have hadj : q.offset + q.size = blk.offset := by
        rw [tiles_append] at ht'
        obtain ⟨m, _, t2, _, t3, _, _⟩ := ht'
        omega
      have hleft : no_adj (pre' ++ [q]) := no_adj_left _ _ _ hn'
      have hstep : merge_runs q (({ blk with allocated := 0, alloc_id := 0 } : BlockDesc) :: post)
          = merge_runs { q with size := q.size + blk.size } post := by
        rw [merge_runs]
        simp only [hqf, true_and, if_true]
        rw [if_pos hadj]
      obtain ⟨c, tl, ec, _, _, pc3⟩ :=
        merge_runs_head post ({ q with size := q.size + blk.size } : BlockDesc)
      have hsz := merge_runs_head_size post _ c tl ec
      have hc3 : c.offset = q.offset := pc3
      have hco : coalesce_free_blocks
          ((pre' ++ [q]) ++ ({ blk with allocated := 0, alloc_id := 0 } : BlockDesc) :: post)
          = pre' ++ c :: tl := by
        rw [List.append_assoc, List.singleton_append, coalesce_front _ _ _ hleft, hstep, ec]
      have ht1 := coalesce_tiles _ _ _ ht0
      rw [hco] at ht1 ⊢
      have hqpos : 0 < q.size := (tiles_mem _ _ _ ht' q (by simp)).2.2
      have hnone : ∀ b ∈ pre' ++ c :: tl, (b.offset : Int) ≠ (blk.offset : Int) := by
        intro b hb
        rw [tiles_append] at ht1
        obtain ⟨m, t1, t2, t3, t4⟩ := ht1
        simp only [List.mem_append, List.mem_cons] at hb
        simp only at hsz
        rcases hb with hb | rfl | hb
        · have := tiles_mem _ _ _ t1 b hb
          omega
        · omega
        · have := tiles_mem _ _ _ t4 b hb
          have hq0 : 0 < blk.size := (tiles_mem _ _ _ ht blk (by simp)).2.2
          omega
      have hd2 := (deallocate_not_found ⟨pre' ++ c :: tl, s.next_alloc_id⟩ (blk.offset : Int)
        (Or.inr (Or.inr hnone))).2
      rw [hd2]
      refine ⟨trivial, rfl, fun hc => ?_, fun _ => rfl⟩
      rcases hc with hc | hc
      · omega
      · exact absurd hqf hc
    · -- the predecessor is allocated: the freed block still starts a descriptor
      have hleft : no_adj ((pre' ++ [q]) ++ [({ blk with allocated := 0, alloc_id := 0 } : BlockDesc)]) := by
        have h1 : no_adj (pre' ++ [q]) := no_adj_left _ _ _ hn'
        rw [no_adj_iff_chain] at h1 ⊢
        rw [List.chain'_append]
        refine ⟨h1, List.chain'_singleton _, ?_⟩
        intro x hx y _
        simp at hx
        subst hx
        exact fun hc => hqf hc.1
      obtain ⟨c, tl, ec, pc1, _, pc3⟩ :=
        merge_runs_head post ({ blk with allocated := 0, alloc_id := 0 } : BlockDesc)
      have hc3 : c.offset = blk.offset := pc3
      rw [coalesce_front _ _ _ hleft, ec]
      have hd2 := deallocate_at_free (pre' ++ [q]) tl c s.next_alloc_id
        (by rw [hc3]; exact hpre) (by omega) pc1
      rw [hc3] at hd2
      rw [hd2]
      exact ⟨trivial, rfl, fun _ => rfl, fun hc => absurd hc.2 hqf⟩

theorem C5_double_free_witness :
    Reachable freed_first ∧ 1 < freed_first.blocks.length ∧
    (freed_first.blocks.getD 1 stale_slot).allocated ≠ 0 ∧
    ((deallocate freed_first (handle_of freed_first 1)).1 = DeallocReport.deallocated ∧
      (deallocate (deallocate freed_first (handle_of freed_first 1)).2
          (handle_of freed_first 1)).2 = (deallocate freed_first (handle_of freed_first 1)).2 ∧
      ((1 = 0 ∨ (freed_first.blocks.getD (1 - 1) stale_slot).allocated ≠ 0) →
        (deallocate (deallocate freed_first (handle_of freed_first 1)).2
            (handle_of freed_first 1)).1 = DeallocReport.already_free) ∧
      ((0 < 1 ∧ (freed_first.blocks.getD (1 - 1) stale_slot).allocated = 0) →
        (deallocate (deallocate freed_first (handle_of freed_first 1)).2
            (handle_of freed_first 1)).1 = DeallocReport.not_block_start)) :=
  ⟨Reachable.dealloc _ _ (Reachable.alloc _ 256 (Reachable.alloc _ 128 Reachable.init)),
    by decide, by decide,
    C5_double_free freed_first 1
      (Reachable.dealloc _ _ (Reachable.alloc _ 256 (Reachable.alloc _ 128 Reachable.init)))
      (by decide) (by decide)⟩

/-- C6 (invalid handle rejection): on every reachable state `deallocate`
rejects a null pointer ("Invalid entry" report), a pointer outside the arena
and a pointer at which no descriptor starts ("not recognized as block start"
report), in particular every pointer strictly inside a block, and leaves the
table and the id counter unchanged.  `find_block_index_by_ptr` returns -1 for
exactly these handles and otherwise the unique index of the descriptor that
starts at the handle's offset. -/
theorem C6_invalid_handle (s : PoolState) (h : Reachable s) :
    deallocate s Ptr.null = (DeallocReport.invalid_entry, s) ∧
    (∀ d : Int, (d < 0 ∨ (POOL_SIZE : Int) ≤ d ∨ ∀ b ∈ s.blocks, (b.offset : Int) ≠ d) →
      deallocate s (Ptr.addr d) = (DeallocReport.not_block_start, s)) ∧
    (∀ b ∈ s.blocks, ∀ off : Nat, b.offset < off → off < b.offset + b.size →
      deallocate s (Ptr.addr (off : Int)) = (DeallocReport.not_block_start, s)) ∧
    (∀ p : Ptr, find_block_index_by_ptr s.blocks p = -1 ↔
      (p = Ptr.null ∨ ∃ d : Int, p = Ptr.addr d ∧
        (d < 0 ∨ (POOL_SIZE : Int) ≤ d ∨ ∀ b ∈ s.blocks, (b.offset : Int) ≠ d))) ∧
    (∀ p : Ptr, find_block_index_by_ptr s.blocks p ≠ -1 →
      ∃ (k : Nat) (d : Int), p = Ptr.addr d ∧ find_block_index_by_ptr s.blocks p = (k : Int) ∧
        k < s.blocks.length ∧ ((s.blocks.getD k stale_slot).offset : Int) = d ∧
        ∀ j, j < s.blocks.length → ((s.blocks.getD j stale_slot).offset : Int) = d → j = k) := by
  have hinv := pool_inv_of_reachable s h
  have hmem : ∀ i, i < s.blocks.length → s.blocks.getD i stale_slot ∈ s.blocks := by
    intro i hi2
    rw [List.getD_eq_getElem _ _ hi2]; exact List.getElem_mem _
  have hidx : ∀ b ∈ s.blocks, ∃ i, i < s.blocks.length ∧ s.blocks.getD i stale_slot = b := by
    intro b hb
    obtain ⟨i, hi, e⟩ := List.getElem_of_mem hb
    exact ⟨i, hi, by rw [List.getD_eq_getElem _ _ hi, e]⟩
  -- offsets of distinct positions differ
  have hinj : ∀ i j, i < s.blocks.length → j < s.blocks.length →
      (s.blocks.getD i stale_slot).offset = (s.blocks.getD j stale_slot).offset → i = j := by
    intro i j hi hj e
    by_contra hne
    have pi := tiles_mem _ _ _ hinv.tiled _ (hmem i hi)
    have pj := tiles_mem _ _ _ hinv.tiled _ (hmem j hj)
    rcases Nat.lt_or_gt_of_ne hne with hlt | hgt
    · have := tiles_ordered _ _ _ hinv.tiled i j hlt hj; omega
    · have := tiles_ordered _ _ _ hinv.tiled j i hgt hi; omega
  refine ⟨rfl, fun d hd => (deallocate_not_found s d hd).2, ?_, ?_, ?_⟩
  · intro b hb off h1 h2
    apply (deallocate_not_found s off _).2
    right; right
    intro c hc
    obtain ⟨i, hi, ei⟩ := hidx b hb
    obtain ⟨j, hj, ej⟩ := hidx c hc
    have pc := tiles_mem _ _ _ hinv.tiled _ hc
    rcases Nat.lt_trichotomy i j with hlt | heq | hgt
    · have := tiles_ordered _ _ _ hinv.tiled i j hlt hj
      rw [ei, ej] at this; omega
    · subst heq
      rw [ei] at ej; subst ej; omega
    · have := tiles_ordered _ _ _ hinv.tiled j i hgt hi
      rw [ei, ej] at this; omega
  · intro p
    cases p with
    | null => simp [find_block_index_by_ptr]
    | addr d =>
      constructor
      · intro e
        right
        refine ⟨d, rfl, ?_⟩
        rcases deallocate_cases s d with ⟨_, _⟩ | ⟨h1, h2, pre, blk, post, _, _, _, e2, _⟩
        · by_contra hcon
          push_neg at hcon
          obtain ⟨h1, h2, b, hb, hbd⟩ := hcon
          have hr : ¬ (d < 0 ∨ d ≥ (POOL_SIZE : Int)) := by push_neg; exact ⟨h1, h2⟩
          simp only [find_block_index_by_ptr, if_neg hr] at e
          rcases find_offset_loop_spec d.toNat s.blocks 0 with ⟨_, hall⟩ | ⟨k, c, e3, _⟩
          · exact hall b hb (by omega)
          · rw [e3] at e; omega
        · rw [e2] at e; omega
      · rintro (hp | ⟨d', hd', hcase⟩)
        · exact absurd hp (by simp)
        · cases hd'
          exact (deallocate_not_found s d hcase).1
  · intro p hp
    cases p with
    | null => exact absurd rfl hp
    | addr d =>
      rcases deallocate_cases s d with ⟨e, _⟩ | ⟨h1, h2, pre, blk, post, hs, hb, _, e2, _⟩
      · exact absurd e hp
      · have hk : pre.length < s.blocks.length := by rw [hs]; simp
        have hg : s.blocks.getD pre.length stale_slot = blk := by rw [hs]; exact getD_at _ _ _ _
        have hbd : (blk.offset : Int) = d := by rw [hb]; omega
        refine ⟨pre.length, d, rfl, e2, hk, by rw [hg]; exact hbd, ?_⟩
        intro j hj ej
        apply hinj j pre.length hj hk
        rw [hg]
        have : ((s.blocks.getD j stale_slot).offset : Int) = (blk.offset : Int) := by rw [ej, hbd]
        exact_mod_cast this

/-- Instance of C6 on the fresh pool after `allocate(1024)`: a null pointer,
a foreign address and the middle of the allocated block are rejected. -/
theorem C6_invalid_handle_witness :
    Reachable (allocate (init_pool pristine) 1024).2 ∧
    deallocate (allocate (init_pool pristine) 1024).2 Ptr.null
      = (DeallocReport.invalid_entry, (allocate (init_pool pristine) 1024).2) ∧
    deallocate (allocate (init_pool pristine) 1024).2 (Ptr.addr (-4096))
      = (DeallocReport.not_block_start, (allocate (init_pool pristine) 1024).2) ∧
    deallocate (allocate (init_pool pristine) 1024).2 (Ptr.addr ((512 : Nat) : Int))
      = (DeallocReport.not_block_start, (allocate (init_pool pristine) 1024).2) :=
  ⟨Reachable.alloc _ 1024 Reachable.init,
    (C6_invalid_handle _ (Reachable.alloc _ 1024 Reachable.init)).1,
    (C6_invalid_handle _ (Reachable.alloc _ 1024 Reachable.init)).2.1 (-4096)
      (Or.inl (by decide)),
    (C6_invalid_handle _ (Reachable.alloc _ 1024 Reachable.init)).2.2.1
      ⟨1, 1, 0, 1024⟩ (by decide) 512 (by decide) (by decide)⟩

/-- C7 (allocate fails exactly when it should): on every reachable state
`allocate(size)` returns NULL if and only if `size <= 0`, or
`size > POOL_SIZE`, or no free descriptor has `size >= size`; otherwise it
returns the address of a descriptor that is allocated afterwards. -/
theorem C7_allocate_failure (s : PoolState) (size : Int) (h : Reachable s) :
    ((allocate s size).1 = Ptr.null ↔
      (size ≤ 0 ∨ (POOL_SIZE : Int) < size ∨
        ∀ b ∈ s.blocks, b.allocated = 0 → (b.size : Int) < size)) ∧
    ((allocate s size).1 ≠ Ptr.null →
      ∃ b ∈ (allocate s size).2.blocks,
        (allocate s size).1 = Ptr.addr (b.offset : Int) ∧ b.allocated = 1) := by
  have hinv := pool_inv_of_reachable s h
  rcases allocate_inv_cases s size hinv with ⟨hc, e⟩ |
    ⟨h1, h2, pre, blk, post, hs, _, hf, hw, ⟨_, e⟩ | ⟨_, _, e⟩⟩
  · refine ⟨⟨fun _ => ?_, fun _ => by rw [e]⟩, fun hne => absurd (by rw [e]) hne⟩
    rcases hc with hc | hc | hc
    · exact Or.inl hc
    · exact Or.inr (Or.inl (by omega))
    · by_cases hpos : size ≤ 0
      · exact Or.inl hpos
      · right; right
        intro b hb hbf
        rcases find_best_fit_index_spec s.blocks size.toNat with ⟨_, hall⟩ | ⟨k, c, e3, _⟩
        · have := hall b hb hbf
          omega
        · rw [e3] at hc; omega
  · have hmem : blk ∈ s.blocks := by rw [hs]; simp
    refine ⟨⟨fun hnull => ?_, fun hc => ?_⟩, fun _ => ?_⟩
    · rw [e] at hnull; exact absurd hnull (by simp)
    · rcases hc with hc | hc | hc
      · omega
      · omega
      · have := hc blk hmem hf; omega
    · rw [e]
      exact ⟨⟨1, s.next_alloc_id, blk.offset, blk.size⟩, by simp, rfl, rfl⟩
  · have hmem : blk ∈ s.blocks := by rw [hs]; simp
    refine ⟨⟨fun hnull => ?_, fun hc => ?_⟩, fun _ => ?_⟩
    · rw [e] at hnull; exact absurd hnull (by simp)
    · rcases hc with hc | hc | hc
      · omega
      · omega
      · have := hc blk hmem hf; omega
    · rw [e]
      exact ⟨⟨1, s.next_alloc_id, blk.offset, size.toNat⟩, by simp, rfl, rfl⟩

theorem C7_allocate_failure_witness :
    Reachable (allocate (init_pool pristine) 102400).2 ∧
    ((allocate (allocate (init_pool pristine) 102400).2 1).1 = Ptr.null ↔
      ((1 : Int) ≤ 0 ∨ (POOL_SIZE : Int) < 1 ∨
        ∀ b ∈ (allocate (init_pool pristine) 102400).2.blocks,
          b.allocated = 0 → (b.size : Int) < 1)) :=
  ⟨Reachable.alloc _ 102400 Reachable.init,
    (C7_allocate_failure _ 1 (Reachable.alloc _ 102400 Reachable.init)).1⟩

/-- C8 (failed allocation is atomic): on every reachable state, when
`allocate(size)` returns NULL the whole state (`block_count`, every
descriptor, `next_alloc_id`) is as before the call, although the
out-of-memory path runs `coalesce_free_blocks` first. -/
theorem C8_failed_allocate_atomic (s : PoolState) (size : Int) (h : Reachable s)
    (hnull : (allocate s size).1 = Ptr.null) : (allocate s size).2 = s :=
  allocate_null_state s size (pool_inv_of_reachable s h) hnull

theorem C8_failed_allocate_atomic_witness :
    Reachable (allocate (init_pool pristine) 102400).2 ∧
    (allocate (allocate (init_pool pristine) 102400).2 512).1 = Ptr.null ∧
    (allocate (allocate (init_pool pristine) 102400).2 512).2
      = (allocate (init_pool pristine) 102400).2 :=
  ⟨Reachable.alloc _ 102400 Reachable.init, by decide,
    C8_failed_allocate_atomic _ 512 (Reachable.alloc _ 102400 Reachable.init) (by decide)⟩

/-- C9, as stated, fails: after `2^31 - 1` rounds of `allocate(1)` /
`deallocate` the counter `next_alloc_id` has wrapped to `-2^31`, and the next
`allocate(1)` leaves an allocated descriptor whose `alloc_id` is negative. -/
theorem C9_alloc_ids_counterexample :
    Reachable (allocate (churn 2147483647 (init_pool pristine)) 1).2 ∧
    (allocate (churn 2147483647 (init_pool pristine)) 1).2.blocks
      = [⟨1, -2147483648, 0, 1⟩, ⟨0, 0, 1, 102399⟩] ∧
    ¬ (∀ s : PoolState, Reachable s → ∀ b ∈ s.blocks, b.allocated ≠ 0 → 0 < b.alloc_id) := by
  have hr : Reachable (allocate (churn 2147483647 (init_pool pristine)) 1).2 :=
    Reachable.alloc _ 1 (reachable_churn _ _ Reachable.init)
  have hb : (allocate (churn 2147483647 (init_pool pristine)) 1).2.blocks
      = [⟨1, -2147483648, 0, 1⟩, ⟨0, 0, 1, 102399⟩] := by
    rw [churn_overflow, allocate_whole_pool_one]
  refine ⟨hr, hb, fun hall => ?_⟩
  have := hall _ hr ⟨1, -2147483648, 0, 1⟩ (by rw [hb]; simp) (by decide)
  exact absurd this (by decide)

/-- C9 (allocation ids, amended): in every state reached from the initialised
pool by a sequence of `allocate` / `deallocate` calls every free descriptor
has `alloc_id` 0; and as long as at most `2^31 - 1` of the `allocate` calls
have succeeded, every allocated descriptor has a positive `alloc_id`, two
distinct allocated descriptors have different ids, and the ids handed out
increase strictly from one successful `allocate` to the next.  While fewer
than `2^31 - 1` allocations have succeeded, `next_alloc_id` equals 1 plus
their number. -/
theorem C9_alloc_ids (ops : List Op) :
    (∀ b ∈ (run (init_pool pristine) ops).blocks, b.allocated = 0 → b.alloc_id = 0) ∧
    ((assigned_ids (init_pool pristine) ops).length ≤ 2147483647 →
      (∀ b ∈ (run (init_pool pristine) ops).blocks, b.allocated ≠ 0 → 0 < b.alloc_id) ∧
      (∀ i j, i < (run (init_pool pristine) ops).blocks.length →
        j < (run (init_pool pristine) ops).blocks.length → i ≠ j →
        ((run (init_pool pristine) ops).blocks.getD i stale_slot).allocated ≠ 0 →
        ((run (init_pool pristine) ops).blocks.getD j stale_slot).allocated ≠ 0 →
          ((run (init_pool pristine) ops).blocks.getD i stale_slot).alloc_id
            ≠ ((run (init_pool pristine) ops).blocks.getD j stale_slot).alloc_id) ∧
      List.Pairwise (fun a b => a < b) (assigned_ids (init_pool pristine) ops) ∧
      ((assigned_ids (init_pool pristine) ops).length < 2147483647 →
        (run (init_pool pristine) ops).next_alloc_id
          = 1 + ((assigned_ids (init_pool pristine) ops).length : Int))) := by
  constructor
  · exact (pool_inv_of_reachable _ (reachable_run ops _ Reachable.init)).free_ids
  · intro hb
    obtain ⟨_, hid, _, hpw⟩ := run_ids ops (init_pool pristine) 0 pool_inv_init id_inv_init
      (by push_cast; omega)
    rw [Nat.zero_add] at hid
    refine ⟨?_, ?_, hpw, ?_⟩
    · intro b hbm hba
      have := hid.range b ((mem_live _ _).2 ⟨hbm, hba⟩)
      omega
    · intro i j hi hj hij hai haj
      rcases Nat.lt_or_gt_of_ne hij with hlt | hgt
      · exact live_nodup_index _ hid.distinct i j hlt hj hai haj
      · exact fun e => live_nodup_index _ hid.distinct j i hgt hi haj hai e.symm
    · intro hlt
      rw [hid.counter]
      exact int_wrap_small _ (by omega) (by omega)

theorem C9_alloc_ids_witness :
    (assigned_ids (init_pool pristine)
        [Op.alloc 128, Op.alloc 256, Op.dealloc (Ptr.addr 0), Op.alloc 64]).length
      ≤ 2147483647 ∧
    List.Pairwise (fun a b => a < b)
      (assigned_ids (init_pool pristine)
        [Op.alloc 128, Op.alloc 256, Op.dealloc (Ptr.addr 0), Op.alloc 64]) :=
  ⟨by decide,
    ((C9_alloc_ids [Op.alloc 128, Op.alloc 256, Op.dealloc (Ptr.addr 0), Op.alloc 64]).2
      (by decide)).2.2.1⟩

/-- C10 (no adjacent free descriptors after coalescing or deallocation): for
every table satisfying the partition invariant, the table returned by
`coalesce_free_blocks` has no index `i` with `blocks[i]` and `blocks[i+1]`
both free; and after every successful `deallocate` on a reachable state no
two physically adjacent descriptors are both free. -/
theorem C10_no_adjacent_free :
    (∀ bs : List BlockDesc, partition_inv bs →
      no_adjacent_free (coalesce_free_blocks bs)) ∧
    (∀ (s : PoolState) (ptr : Ptr), Reachable s →
      (deallocate s ptr).1 = DeallocReport.deallocated →
        no_adjacent_free (deallocate s ptr).2.blocks) := by
  constructor
  · intro bs hp
    rw [no_adjacent_free_iff]
    exact coalesce_no_adj bs 0 POOL_SIZE ((partition_inv_iff bs).1 hp).2
  · intro s ptr h _
    rw [no_adjacent_free_iff]
    exact (pool_inv_deallocate s ptr (pool_inv_of_reachable s h)).separated

/-- Instance of C10: a tiled table of three free descriptors followed by an
allocated one, and the release of the middle block of three in a fresh pool. -/
theorem C10_no_adjacent_free_witness :
    (partition_inv [⟨0, 0, 0, 100⟩, ⟨0, 0, 100, 200⟩, ⟨0, 0, 300, 100⟩, ⟨1, 1, 400, 102000⟩] ∧
      no_adjacent_free (coalesce_free_blocks
        [⟨0, 0, 0, 100⟩, ⟨0, 0, 100, 200⟩, ⟨0, 0, 300, 100⟩, ⟨1, 1, 400, 102000⟩])) ∧
    (Reachable two_live ∧
      (deallocate two_live (Ptr.addr 128)).1 = DeallocReport.deallocated ∧
      no_adjacent_free (deallocate two_live (Ptr.addr 128)).2.blocks) :=
  ⟨⟨by decide, C10_no_adjacent_free.1 _ (by decide)⟩,
    ⟨Reachable.alloc _ 256 (Reachable.alloc _ 128 Reachable.init), by decide,
      C10_no_adjacent_free.2 two_live (Ptr.addr 128)
        (Reachable.alloc _ 256 (Reachable.alloc _ 128 Reachable.init)) (by decide)⟩⟩

/-- C11 (coalescing scenario, generalised): for all positive sizes `a` and
`b` with `a + b <= POOL_SIZE`, on the freshly initialised pool `allocate(a)`
and `allocate(b)` both succeed, with handles at offsets 0 and `a`; and after
deallocating both, in either order, the table is exactly one descriptor:
free, `alloc_id` 0, offset 0, size `POOL_SIZE`. -/
theorem C11_coalescing_scenario (a b : Int) (ha : 0 < a) (hb : 0 < b)
    (hab : a + b ≤ (POOL_SIZE : Int)) :
    (allocate (init_pool pristine) a).1 = Ptr.addr 0 ∧
    (allocate (allocate (init_pool pristine) a).2 b).1 = Ptr.addr a ∧
    (deallocate (allocate (allocate (init_pool pristine) a).2 b).2 (Ptr.addr 0)).1
      = DeallocReport.deallocated ∧
    (deallocate
        (deallocate (allocate (allocate (init_pool pristine) a).2 b).2 (Ptr.addr 0)).2
        (Ptr.addr a)).1 = DeallocReport.deallocated ∧
    (deallocate
        (deallocate (allocate (allocate (init_pool pristine) a).2 b).2 (Ptr.addr 0)).2
        (Ptr.addr a)).2.blocks = [⟨0, 0, 0, POOL_SIZE⟩] ∧
    (deallocate (allocate (allocate (init_pool pristine) a).2 b).2 (Ptr.addr a)).1
      = DeallocReport.deallocated ∧
    (deallocate
        (deallocate (allocate (allocate (init_pool pristine) a).2 b).2 (Ptr.addr a)).2
        (Ptr.addr 0)).1 = DeallocReport.deallocated ∧
    (deallocate
        (deallocate (allocate (allocate (init_pool pristine) a).2 b).2 (Ptr.addr a)).2
        (Ptr.addr 0)).2.blocks = [⟨0, 0, 0, POOL_SIZE⟩] := by
  obtain ⟨A, rfl⟩ := Int.eq_ofNat_of_zero_le (le_of_lt ha)
  obtain ⟨B, rfl⟩ := Int.eq_ofNat_of_zero_le (le_of_lt hb)
  have hA : 0 < A := by omega
  have hB : 0 < B := by omega
  have hAB : A + B ≤ POOL_SIZE := by omega
  rw [allocate_first A hA (by omega)]
  simp only
  rcases Nat.lt_or_ge (A + B) POOL_SIZE with hlt | hge
  · rw [allocate_second_split A B hA hB hlt]
    simp only
    obtain ⟨r1, r2, r3, r4⟩ := release_two A B 3 [⟨0, 0, A + B, POOL_SIZE - A - B⟩]
      (POOL_SIZE - A - B) hA hB (by omega) (Or.inr rfl)
    have e : A + B + (POOL_SIZE - A - B) = POOL_SIZE := by omega
    rw [e] at r2 r4
    rw [r2, r4]
    exact ⟨trivial, trivial, r1, rfl, rfl, r3, rfl, rfl⟩
  · have heq : A + B = POOL_SIZE := by omega
    rw [allocate_second_exact A B hA hB heq]
    simp only
    have hb' : POOL_SIZE - A = B := by omega
    rw [hb']
    obtain ⟨r1, r2, r3, r4⟩ := release_two A B 3 [] 0 hA hB (by omega) (Or.inl ⟨rfl, rfl⟩)
    have e : A + B + 0 = POOL_SIZE := by omega
    rw [e] at r2 r4
    rw [r2, r4]
    exact ⟨trivial, trivial, r1, rfl, rfl, r3, rfl, rfl⟩

theorem C11_coalescing_scenario_witness :
    (0 : Int) < 128 ∧ (0 : Int) < 256 ∧ (128 : Int) + 256 ≤ (POOL_SIZE : Int) ∧
    (deallocate
        (deallocate (allocate (allocate (init_pool pristine) 128).2 256).2 (Ptr.addr 0)).2
        (Ptr.addr 128)).2.blocks = [⟨0, 0, 0, POOL_SIZE⟩] ∧
    (deallocate
        (deallocate (allocate (allocate (init_pool pristine) 128).2 256).2 (Ptr.addr 128)).2
        (Ptr.addr 0)).2.blocks = [⟨0, 0, 0, POOL_SIZE⟩] :=
  ⟨by decide, by decide, by decide,
    (C11_coalescing_scenario 128 256 (by decide) (by decide) (by decide)).2.2.2.2.1,
    (C11_coalescing_scenario 128 256 (by decide) (by decide) (by decide)).2.2.2.2.2.2.2⟩

/-- C12 (exhaustion and recovery): from the fresh 102400-byte pool, of 201
consecutive calls `allocate(512)` the first 200 return a non-null handle and
the 201st returns NULL; after deallocating those 200 handles in allocation
order, `allocate(102400)` returns the handle at offset 0. -/
theorem C12_exhaustion_recovery :
    (fill 512 201 (init_pool pristine)).1.length = 201 ∧
    (∀ i, i < 200 → (fill 512 201 (init_pool pristine)).1.getD i Ptr.null ≠ Ptr.null) ∧
    (fill 512 201 (init_pool pristine)).1.getD 200 (Ptr.addr 0) = Ptr.null ∧
    (drain ((fill 512 201 (init_pool pristine)).1.take 200)
        (fill 512 201 (init_pool pristine)).2).blocks = [⟨0, 0, 0, 102400⟩] ∧
    (allocate (drain ((fill 512 201 (init_pool pristine)).1.take 200)
        (fill 512 201 (init_pool pristine)).2) 102400).1 = Ptr.addr 0 := by
  have hlen : (filled_handles 512 200 0).length = 200 := filled_handles_length 512 200 0
  have htake : (filled_handles 512 200 0 ++ [Ptr.null]).take 200 = filled_handles 512 200 0 :=
    List.take_left' hlen
  have hdrain := drain_all 512 (by decide) 201 199 1 (by decide)
  have n1 : (199 + 1) * 512 = 102400 := by norm_num
  rw [n1] at hdrain
  have hdrain' : drain (filled_handles 512 200 0) ⟨filled 512 200 0 1, 201⟩
      = ⟨[⟨0, 0, 0, 102400⟩], 201⟩ := hdrain
  rw [fill_512]
  simp only [htake, hdrain']
  refine ⟨by simp [hlen], ?_, ?_, trivial, by decide⟩
  · intro i hi
    rw [List.getD_append _ _ _ _ (by rw [hlen]; exact hi)]
    apply filled_handles_ne_null 512 200 0
    rw [List.getD_eq_getElem _ _ (by rw [hlen]; exact hi)]
    exact List.getElem_mem _
  · have := getD_at (filled_handles 512 200 0) Ptr.null (Ptr.addr 0) []
    rw [hlen] at this
    exact this

/-- C13 (initialize): whenever `init_pool` runs, in a run of the program, on
a state whose table is empty (`block_count = 0`), the resulting table is
exactly one descriptor (free, `alloc_id` 0, offset 0, size `POOL_SIZE`) and
`next_alloc_id` equals its starting value 1; on any state at all with an
empty table it builds that table and leaves `next_alloc_id` as it was.
Whenever it runs on a state with a non-empty table it changes nothing.
Hence `init_pool` is idempotent, and on every state reachable after the
first initialisation it is a no-op. -/
theorem C13_init_pool :
    (∀ s : PoolState, ProgramState s → s.block_count = 0 →
      (init_pool s).blocks = [⟨0, 0, 0, POOL_SIZE⟩] ∧ (init_pool s).next_alloc_id = 1) ∧
    (∀ s : PoolState, s.block_count = 0 →
      (init_pool s).blocks = [⟨0, 0, 0, POOL_SIZE⟩] ∧
      (init_pool s).next_alloc_id = s.next_alloc_id) ∧
    init_pool pristine = ⟨[⟨0, 0, 0, POOL_SIZE⟩], 1⟩ ∧
    (∀ s : PoolState, s.block_count ≠ 0 → init_pool s = s) ∧
    (∀ s : PoolState, init_pool (init_pool s) = init_pool s) ∧
    (∀ s : PoolState, Reachable s → init_pool s = s) := by
  have hne : ∀ s : PoolState, s.block_count ≠ 0 → init_pool s = s := by
    intro s h
    simp only [init_pool, if_pos h]
  have hnonempty : ∀ s : PoolState, Reachable s → s.block_count ≠ 0 := by
    intro s h
    have := (pool_inv_of_reachable s h).nonempty
    simp only [PoolState.block_count]
    intro e
    exact this (List.length_eq_zero.1 e)
  refine ⟨?_, ?_, rfl, hne, ?_, fun s h => hne s (hnonempty s h)⟩
  · intro s hp h0
    rcases program_state_cases s hp with rfl | hr
    · exact ⟨rfl, rfl⟩
    · exact absurd h0 (hnonempty s hr)
  · intro s h
    have : ¬ s.block_count ≠ 0 := by simpa using h
    simp only [init_pool, if_neg this, and_self]
  · intro s
    by_cases h : s.block_count ≠ 0
    · rw [hne s h, hne s h]
    · apply hne
      have e : init_pool s = { s with blocks := [⟨0, 0, 0, POOL_SIZE⟩] } := by
        simp only [init_pool, if_neg h]
      rw [e]
      simp [PoolState.block_count]

/-- Instances of C13: a run that calls `allocate(16)` and `deallocate` before
the first `init_pool` is still on the empty table with counter 1, and
`init_pool` then builds the initial pool; on the pool with two live
allocations `init_pool` is a no-op. -/
theorem C13_init_pool_witness :
    ProgramState (deallocate (allocate pristine 16).2 (Ptr.addr 0)).2 ∧
    (deallocate (allocate pristine 16).2 (Ptr.addr 0)).2.block_count = 0 ∧
    ((init_pool (deallocate (allocate pristine 16).2 (Ptr.addr 0)).2).blocks
        = [⟨0, 0, 0, POOL_SIZE⟩] ∧
      (init_pool (deallocate (allocate pristine 16).2 (Ptr.addr 0)).2).next_alloc_id = 1) ∧
    (Reachable two_live ∧ init_pool two_live = two_live) :=
  ⟨ProgramState.dealloc _ _ (ProgramState.alloc _ 16 ProgramState.start), by decide,
    C13_init_pool.1 _ (ProgramState.dealloc _ _ (ProgramState.alloc _ 16 ProgramState.start))
      (by decide),
    Reachable.alloc _ 256 (Reachable.alloc _ 128 Reachable.init),
    C13_init_pool.2.2.2.2.2 two_live
      (Reachable.alloc _ 256 (Reachable.alloc _ 128 Reachable.init))⟩

/-- C14 (table capacity bound): in every reachable state
`1 <= block_count <= MAX_BLOCKS` (indeed `block_count < MAX_BLOCKS`), and
the indices of `blocks[]` that `shift_right_and_insert_space`,
`remove_block_at` and `allocate` read or write are all below `MAX_BLOCKS`. -/
theorem C14_table_capacity (s : PoolState) (h : Reachable s) :
    1 ≤ s.block_count ∧ s.block_count ≤ MAX_BLOCKS ∧ s.block_count < MAX_BLOCKS ∧
    (∀ i, ∀ x ∈ shift_right_indices s.block_count i, x < MAX_BLOCKS) ∧
    (∀ count i, count ≤ s.block_count → ∀ x ∈ remove_block_indices count i, x < MAX_BLOCKS) ∧
    (∀ (n : Int) (k : Nat), find_best_fit_index s.blocks n.toNat = (k : Int) →
      ∀ x ∈ allocate_at_indices s.blocks k n.toNat, x < MAX_BLOCKS) := by
  have hinv := pool_inv_of_reachable s h
  have hb := hinv.bounded
  have hpos : 0 < s.blocks.length := List.length_pos.2 hinv.nonempty
  refine ⟨hpos, by simp only [PoolState.block_count]; omega,
    by simp only [PoolState.block_count]; omega, ?_, ?_, ?_⟩
  · intro i x hx
    unfold shift_right_indices at hx
    split_ifs at hx with hg
    · simp at hx
    · have := shift_loop_indices_le _ i x hx
      omega
  · intro count i hc x hx
    have := remove_loop_indices_lt _ _ _ x hx
    simp only [PoolState.block_count] at hc
    omega
  · intro n k hk x hx
    have hkl : k < s.blocks.length := by
      rcases find_best_fit_index_spec s.blocks n.toNat with ⟨e, _⟩ | ⟨k', b, e, hk', _⟩
      · rw [e] at hk; omega
      · rw [e] at hk
        have : k' = k := by exact_mod_cast hk
        subst this
        exact (List.getElem?_eq_some.1 hk').1
    unfold allocate_at_indices at hx
    split_ifs at hx
    · simp only [List.mem_singleton] at hx; omega
    · unfold shift_right_and_insert_space at hx
      split_ifs at hx with hg
      · simp only [List.mem_singleton] at hx; omega
      · simp only [List.mem_cons, List.mem_singleton, List.not_mem_nil, or_false] at hx
        rcases hx with rfl | rfl <;> omega

theorem C14_table_capacity_witness :
    Reachable two_live ∧ 1 ≤ two_live.block_count ∧ two_live.block_count ≤ MAX_BLOCKS :=
  ⟨Reachable.alloc _ 256 (Reachable.alloc _ 128 Reachable.init),
    (C14_table_capacity two_live
      (Reachable.alloc _ 256 (Reachable.alloc _ 128 Reachable.init))).1,
    (C14_table_capacity two_live
      (Reachable.alloc _ 256 (Reachable.alloc _ 128 Reachable.init))).2.1⟩

/-- C15, as stated, fails in its clause on the counter: when `next_alloc_id`
is `2^31 - 1` (after `2^31 - 2` rounds of `allocate(1)` / `deallocate`), a
split by `allocate(1)` leaves `next_alloc_id` at `-2^31`, not one higher. -/
theorem C15_split_counterexample :
    Reachable (churn 2147483646 (init_pool pristine)) ∧
    (churn 2147483646 (init_pool pristine)).next_alloc_id = 2147483647 ∧
    (allocate (churn 2147483646 (init_pool pristine)) 1).2.blocks
      = [⟨1, 2147483647, 0, 1⟩, ⟨0, 0, 1, 102399⟩] ∧
    (allocate (churn 2147483646 (init_pool pristine)) 1).2.next_alloc_id = -2147483648 ∧
    (allocate (churn 2147483646 (init_pool pristine)) 1).2.next_alloc_id
      ≠ (churn 2147483646 (init_pool pristine)).next_alloc_id + 1 := by
  refine ⟨reachable_churn _ _ Reachable.init, ?_, ?_, ?_, ?_⟩
  · rw [churn_near_overflow]
  · rw [churn_near_overflow, allocate_whole_pool_one]
  · rw [churn_near_overflow, allocate_whole_pool_one]; decide
  · rw [churn_near_overflow, allocate_whole_pool_one]; decide

/-- C15 (split postcondition, amended): on every reachable state and for
every valid size `n`, if the best-fit descriptor at index `k` has offset `o`
and size `s > n` and the insertion of a descriptor succeeds, then after
`allocate(n)`: `block_count` has grown by exactly 1; `blocks[k]` is
(allocated, `alloc_id` = the counter before the call, `o`, `n`);
`blocks[k+1]` is (free, 0, `o + n`, `s - n`); descriptors formerly below
`k` are unchanged and those formerly at `j > k` sit unchanged at `j + 1`;
the returned handle is `memory_pool + o`; and `next_alloc_id` is the 32-bit
wrap of its old value plus 1, which is the old value plus 1 unless the old
value was `2^31 - 1`. -/
theorem C15_split_postcondition (s : PoolState) (n : Int) (k : Nat) (h : Reachable s)
    (hn : 0 < n) (hpool : n ≤ (POOL_SIZE : Int))
    (hk : find_best_fit_index s.blocks n.toNat = (k : Int))
    (hsz : n.toNat < (s.blocks.getD k stale_slot).size)
    (hins : shift_right_and_insert_space s.blocks (k + 1) ≠ none) :
    (allocate s n).2.block_count = s.block_count + 1 ∧
    (allocate s n).2.blocks.getD k stale_slot
      = ⟨1, s.next_alloc_id, (s.blocks.getD k stale_slot).offset, n.toNat⟩ ∧
    (allocate s n).2.blocks.getD (k + 1) stale_slot
      = ⟨0, 0, (s.blocks.getD k stale_slot).offset + n.toNat,
          (s.blocks.getD k stale_slot).size - n.toNat⟩ ∧
    (∀ j, j < k → (allocate s n).2.blocks.getD j stale_slot = s.blocks.getD j stale_slot) ∧
    (∀ j, k < j → j < s.block_count →
      (allocate s n).2.blocks.getD (j + 1) stale_slot = s.blocks.getD j stale_slot) ∧
    (allocate s n).1 = Ptr.addr ((s.blocks.getD k stale_slot).offset : Int) ∧
    (allocate s n).2.next_alloc_id = int_wrap (s.next_alloc_id + 1) ∧
    (s.next_alloc_id ≠ 2147483647 →
      (allocate s n).2.next_alloc_id = s.next_alloc_id + 1) := by
  have hinv := pool_inv_of_reachable s h
  have hroom : s.blocks.length + 1 < MAX_BLOCKS := by
    by_contra hc
    apply hins
    unfold shift_right_and_insert_space
    rw [if_pos (by omega)]
  rcases allocate_inv_cases s n hinv with ⟨hc, _⟩ |
    ⟨_, _, pre, blk, post, hs, e0, _, _, ⟨hc, _⟩ | ⟨_, _, e⟩⟩
  · exfalso
    rcases hc with hc | hc | hc
    · omega
    · omega
    · rw [hc] at hk; omega
  · exfalso
    rw [hk] at e0
    have hkk : k = pre.length := by exact_mod_cast e0
    rw [hs, hkk, getD_at] at hsz
    rcases hc with hc | hc
    · omega
    · omega
  · rw [hk] at e0
    have hkk : k = pre.length := by exact_mod_cast e0
    subst hkk
    have hg : s.blocks.getD pre.length stale_slot = blk := by rw [hs]; exact getD_at _ _ _ _
    rw [e, hg]
    refine ⟨?_, ?_, ?_, ?_, ?_, rfl, rfl, ?_⟩
    · simp only [PoolState.block_count, hs, List.length_append, List.length_cons]
      omega
    · exact getD_at _ _ _ _
    · exact getD_at_succ _ _ _ _ _
    · intro j hj
      show (pre ++ _).getD j stale_slot = _
      rw [hs, List.getD_append _ _ _ _ hj, List.getD_append _ _ _ _ hj]
    · intro j hj1 hj2
      show (pre ++ _).getD (j + 1) stale_slot = _
      rw [hs, List.getD_append_right _ _ _ _ (by omega),
        List.getD_append_right _ _ _ _ (by omega)]
      obtain ⟨t, rfl⟩ : ∃ t, j = pre.length + 1 + t := ⟨j - pre.length - 1, by omega⟩
      have e1 : pre.length + 1 + t + 1 - pre.length = t + 2 := by omega
      have e2 : pre.length + 1 + t - pre.length = t + 1 := by omega
      rw [e1, e2]
      simp
    · intro h1
      have hr := counter_in_range s h
      exact int_wrap_small _ (by omega) (by omega)

theorem C15_split_postcondition_witness :
    Reachable (init_pool pristine) ∧
    find_best_fit_index (init_pool pristine).blocks (128 : Int).toNat = ((0 : Nat) : Int) ∧
    (allocate (init_pool pristine) 128).2.block_count = (init_pool pristine).block_count + 1 ∧
    (allocate (init_pool pristine) 128).2.next_alloc_id
      = int_wrap ((init_pool pristine).next_alloc_id + 1) :=
  ⟨Reachable.init, by decide,
    (C15_split_postcondition (init_pool pristine) 128 0 Reachable.init (by decide) (by decide)
      (by decide) (by decide) (by decide)).1,
    (C15_split_postcondition (init_pool pristine) 128 0 Reachable.init (by decide) (by decide)
      (by decide) (by decide) (by decide)).2.2.2.2.2.2.1⟩

/-- The code at the input on which C16 fails: after 1022 calls `allocate(1)`
on the fresh pool the table holds 1023 descriptors, fewer than `MAX_BLOCKS`,
and the best fit for `allocate(1)` is the 101378-byte free tail at index
1022; `allocate(1)` inserts no remainder descriptor but marks the whole tail
allocated, `block_count` staying 1023. -/
theorem C16_fallback_below_capacity :
    Reachable (fill 1 1022 (init_pool pristine)).2 ∧
    (fill 1 1022 (init_pool pristine)).2.block_count = 1023 ∧
    (fill 1 1022 (init_pool pristine)).2.block_count < MAX_BLOCKS ∧
    find_best_fit_index (fill 1 1022 (init_pool pristine)).2.blocks 1 = 1022 ∧
    (fill 1 1022 (init_pool pristine)).2.blocks.getD 1022 stale_slot = ⟨0, 0, 1022, 101378⟩ ∧
    (allocate (fill 1 1022 (init_pool pristine)).2 1).1 = Ptr.addr 1022 ∧
    (allocate (fill 1 1022 (init_pool pristine)).2 1).2.block_count = 1023 ∧
    (allocate (fill 1 1022 (init_pool pristine)).2 1).2.blocks.getD 1022 stale_slot
      = ⟨1, 1023, 1022, 101378⟩ := by
  have hlen : (filled 1 1022 0 1).length = 1022 := filled_length 1 1022 0 1
  have hall := filled_allocated 1 1022 0 1
  have hfind := find_best_fit_tail (filled 1 1022 0 1) ⟨0, 0, 1022, 101378⟩ 1 hall rfl
    (by decide)
  rw [hlen] at hfind
  have halloc := (allocate_tail (filled 1 1022 0 1) ⟨0, 0, 1022, 101378⟩ 1023 1 hall rfl
    (by decide) (by decide) (by decide)).1 (Or.inr (by rw [hlen]; decide))
  have n1 : int_wrap (1023 + 1) = 1024 := by decide
  rw [n1] at halloc
  have hg1 := getD_at (filled 1 1022 0 1) (⟨0, 0, 1022, 101378⟩ : BlockDesc) stale_slot []
  have hg2 := getD_at (filled 1 1022 0 1) (⟨1, 1023, 1022, 101378⟩ : BlockDesc) stale_slot []
  rw [hlen] at hg1 hg2
  refine ⟨reachable_fill 1 1022 _ Reachable.init, ?_⟩
  rw [fill_one_1022, halloc]
  refine ⟨?_, ?_, hfind, hg1, rfl, ?_, hg2⟩
  · simp [PoolState.block_count, hlen]
  · simp [PoolState.block_count, hlen, MAX_BLOCKS]
  · simp [PoolState.block_count, hlen]

/-- C17 (the coalescing pass equals its reference definition): for every
table satisfying the partition invariant the single pass terminates (from
`block_count` iterations on, more fuel changes nothing) and produces exactly
the table in which each maximal run of consecutive free descriptors is
replaced by one descriptor keeping the flag, id and offset of the run's
first descriptor and carrying the sum of the run's sizes, every allocated
descriptor being kept unchanged and in order; and `block_count` decreases by
exactly the number of merges performed. -/
theorem C17_coalesce_refinement (bs : List BlockDesc) (h : partition_inv bs) :
    coalesce_free_blocks bs = coalesce_reference bs ∧
    (∀ extra : Nat, coalesce_loop (bs.length + extra) 0 bs = coalesce_free_blocks bs) ∧
    live (coalesce_free_blocks bs) = live bs ∧
    (coalesce_free_blocks bs).length + coalesce_merges bs = bs.length := by
  obtain ⟨hne, ht⟩ := (partition_inv_iff bs).1 h
  refine ⟨coalesce_eq_reference_upto bs.length bs 0 POOL_SIZE (le_refl _) ht, ?_,
    live_coalesce bs, coalesce_merges_length bs⟩
  intro extra
  cases bs with
  | nil => exact absurd rfl hne
  | cons cur rest =>
    rw [coalesce_cons]
    have := coalesce_loop_eq rest cur [] ((cur :: rest).length + extra)
      (by simp only [List.length_cons]; omega)
    simpa using this

theorem C17_coalesce_refinement_witness :
    partition_inv [⟨0, 0, 0, 100⟩, ⟨0, 0, 100, 200⟩, ⟨1, 7, 300, 50⟩, ⟨0, 0, 350, 50⟩,
      ⟨0, 0, 400, 102000⟩] ∧
    coalesce_free_blocks [⟨0, 0, 0, 100⟩, ⟨0, 0, 100, 200⟩, ⟨1, 7, 300, 50⟩, ⟨0, 0, 350, 50⟩,
      ⟨0, 0, 400, 102000⟩]
      = coalesce_reference [⟨0, 0, 0, 100⟩, ⟨0, 0, 100, 200⟩, ⟨1, 7, 300, 50⟩, ⟨0, 0, 350, 50⟩,
          ⟨0, 0, 400, 102000⟩] ∧
    coalesce_reference [⟨0, 0, 0, 100⟩, ⟨0, 0, 100, 200⟩, ⟨1, 7, 300, 50⟩, ⟨0, 0, 350, 50⟩,
        ⟨0, 0, 400, 102000⟩]
      = [⟨0, 0, 0, 300⟩, ⟨1, 7, 300, 50⟩, ⟨0, 0, 350, 102050⟩] ∧
    coalesce_merges [⟨0, 0, 0, 100⟩, ⟨0, 0, 100, 200⟩, ⟨1, 7, 300, 50⟩, ⟨0, 0, 350, 50⟩,
        ⟨0, 0, 400, 102000⟩] = 2 :=
  ⟨by decide, (C17_coalesce_refinement _ (by decide)).1, by decide, by decide⟩

/-- C18 (deallocate postcondition): on every reachable state, for every
handle that resolves to an allocated descriptor `blocks[k]` with offset `o`
and size `s`, `deallocate` succeeds and yields exactly the table obtained by
setting that descriptor to `allocated = 0`, `alloc_id = 0` and then applying
`coalesce_free_blocks`; afterwards the range `[o, o + s)` lies inside a
single free descriptor, the total of free bytes has grown by exactly `s`,
and `next_alloc_id` is unchanged. -/
theorem C18_deallocate_postcondition (s : PoolState) (ptr : Ptr) (k : Nat) (h : Reachable s)
    (hk : find_block_index_by_ptr s.blocks ptr = (k : Int))
    (ha : (s.blocks.getD k stale_slot).allocated ≠ 0) :
    (deallocate s ptr).1 = DeallocReport.deallocated ∧
    (deallocate s ptr).2.blocks =
      coalesce_free_blocks
        (s.blocks.set k { s.blocks.getD k stale_slot with allocated := 0, alloc_id := 0 }) ∧
    (∃ d ∈ (deallocate s ptr).2.blocks, d.allocated = 0 ∧
      d.offset ≤ (s.blocks.getD k stale_slot).offset ∧
      (s.blocks.getD k stale_slot).offset + (s.blocks.getD k stale_slot).size
        ≤ d.offset + d.size) ∧
    free_bytes (deallocate s ptr).2.blocks
      = free_bytes s.blocks + (s.blocks.getD k stale_slot).size ∧
    (deallocate s ptr).2.next_alloc_id = s.next_alloc_id := by
  have hinv := pool_inv_of_reachable s h
  cases ptr with
  | null => simp [find_block_index_by_ptr] at hk
  | addr d =>
    rcases deallocate_cases s d with ⟨e, _⟩ |
      ⟨_, _, pre, blk, post, hs, _, _, e, ⟨hf, _⟩ | ⟨hne, e2⟩⟩
    · rw [e] at hk; omega
    · exfalso
      rw [e] at hk
      have hkk : pre.length = k := by exact_mod_cast hk
      rw [hs, ← hkk, getD_at] at ha
      exact ha hf
    · rw [e] at hk
      have hkk : pre.length = k := by exact_mod_cast hk
      subst hkk
      have hg : s.blocks.getD pre.length stale_slot = blk := by rw [hs]; exact getD_at _ _ _ _
      have ht := hinv.tiled
      rw [hs] at ht
      have ht0 : tiles 0 (pre ++ ({ blk with allocated := 0, alloc_id := 0 } : BlockDesc) :: post)
          POOL_SIZE := by
        rw [tiles_append] at ht ⊢
        obtain ⟨m, t1, t2⟩ := ht
        exact ⟨m, t1, t2⟩
      rw [e2, hg]
      refine ⟨rfl, ?_, ?_, ?_, rfl⟩
      · rw [hs, set_at]
      · obtain ⟨x, hx, p1, p2, p3⟩ := coalesce_covers _ _ _ ht0
          ({ blk with allocated := 0, alloc_id := 0 } : BlockDesc) (by simp) rfl
        exact ⟨x, hx, p1, p2, p3⟩
      · show free_bytes (coalesce_free_blocks _) = _
        rw [free_bytes_coalesce, hs, free_bytes_append, free_bytes_append,
          free_bytes_cons_free _ _ (by rfl), free_bytes_cons_alloc _ _ hne]
        simp only; omega

theorem C18_deallocate_postcondition_witness :
    Reachable two_live ∧
    find_block_index_by_ptr two_live.blocks (Ptr.addr 128) = ((1 : Nat) : Int) ∧
    (two_live.blocks.getD 1 stale_slot).allocated ≠ 0 ∧
    (deallocate two_live (Ptr.addr 128)).2.blocks =
      coalesce_free_blocks
        (two_live.blocks.set 1
          { two_live.blocks.getD 1 stale_slot with allocated := 0, alloc_id := 0 }) ∧
    free_bytes (deallocate two_live (Ptr.addr 128)).2.blocks
      = free_bytes two_live.blocks + (two_live.blocks.getD 1 stale_slot).size :=
  ⟨Reachable.alloc _ 256 (Reachable.alloc _ 128 Reachable.init), by decide, by decide,
    (C18_deallocate_postcondition two_live (Ptr.addr 128) 1
      (Reachable.alloc _ 256 (Reachable.alloc _ 128 Reachable.init))
      (by decide) (by decide)).2.1,
    (C18_deallocate_postcondition two_live (Ptr.addr 128) 1
      (Reachable.alloc _ 256 (Reachable.alloc _ 128 Reachable.init))
      (by decide) (by decide)).2.2.2.1⟩

/-- C19 (other live allocations are never disturbed): on every reachable
state, `allocate(n)` keeps every allocated descriptor (same `alloc_id`,
offset and size) and their relative order, whether it succeeds or fails; a
`deallocate` that does not free anything changes nothing, and one that frees
the descriptor at index `k` leaves exactly the other allocated descriptors,
in the same order. -/
theorem C19_frame (s : PoolState) (h : Reachable s) :
    (∀ n : Int, List.Sublist (live s.blocks) (live (allocate s n).2.blocks) ∧
      ((allocate s n).1 = Ptr.null → live (allocate s n).2.blocks = live s.blocks) ∧
      ((allocate s n).1 ≠ Ptr.null →
        (live (allocate s n).2.blocks).length = (live s.blocks).length + 1)) ∧
    (∀ ptr : Ptr,
      ((deallocate s ptr).1 ≠ DeallocReport.deallocated → (deallocate s ptr).2 = s) ∧
      ((deallocate s ptr).1 = DeallocReport.deallocated →
        ∃ k : Nat, find_block_index_by_ptr s.blocks ptr = (k : Int) ∧ k < s.blocks.length ∧
          (s.blocks.getD k stale_slot).allocated ≠ 0 ∧
          live (deallocate s ptr).2.blocks = live (s.blocks.eraseIdx k))) := by
  have hinv := pool_inv_of_reachable s h
  constructor
  · intro n
    rcases allocate_inv_cases s n hinv with ⟨_, e⟩ |
      ⟨_, _, pre, blk, post, hs, _, hf, _, ⟨_, e⟩ | ⟨_, _, e⟩⟩
    · rw [e]
      exact ⟨List.Sublist.refl _, fun _ => rfl, fun hne => absurd rfl hne⟩
    · rw [e, hs]
      simp only [live_append, live_cons_free _ _ hf]
      rw [live_cons_alloc _ _ (by simp)]
      refine ⟨List.Sublist.append (List.Sublist.refl _) (List.sublist_cons_self _ _),
        fun hnull => by simp at hnull, fun _ => by simp; omega⟩
    · rw [e, hs]
      simp only [live_append, live_cons_free _ _ hf]
      rw [live_cons_alloc _ _ (by simp), live_cons_free _ _ (by simp)]
      refine ⟨List.Sublist.append (List.Sublist.refl _) (List.sublist_cons_self _ _),
        fun hnull => by simp at hnull, fun _ => by simp; omega⟩
  · intro ptr
    cases ptr with
    | null => simp [deallocate]
    | addr d =>
      rcases deallocate_cases s d with ⟨_, e⟩ |
        ⟨_, _, pre, blk, post, hs, _, _, ek, ⟨_, e⟩ | ⟨hne, e⟩⟩
      · rw [e]; exact ⟨fun _ => rfl, fun hc => by simp at hc⟩
      · rw [e]; exact ⟨fun _ => rfl, fun hc => by simp at hc⟩
      · rw [e]
        refine ⟨fun hc => absurd rfl hc, fun _ => ⟨pre.length, ek, by rw [hs]; simp, ?_, ?_⟩⟩
        · rw [hs, getD_at]; exact hne
        · show live (coalesce_free_blocks _) = _
          rw [live_coalesce, hs, List.eraseIdx_append_of_length_le (le_refl _)]
          simp only [Nat.sub_self, List.eraseIdx_cons_zero, live_append]
          rw [live_cons_free _ _ (by rfl)]

theorem C19_frame_witness :
    Reachable two_live ∧
    List.Sublist (live two_live.blocks) (live (allocate two_live 64).2.blocks) ∧
    ((deallocate two_live (Ptr.addr 128)).1 = DeallocReport.deallocated →
      ∃ k : Nat, find_block_index_by_ptr two_live.blocks (Ptr.addr 128) = (k : Int) ∧
        k < two_live.blocks.length ∧
        (two_live.blocks.getD k stale_slot).allocated ≠ 0 ∧
        live (deallocate two_live (Ptr.addr 128)).2.blocks = live (two_live.blocks.eraseIdx k)) :=
  ⟨Reachable.alloc _ 256 (Reachable.alloc _ 128 Reachable.init),
    ((C19_frame two_live
      (Reachable.alloc _ 256 (Reachable.alloc _ 128 Reachable.init))).1 64).1,
    ((C19_frame two_live
      (Reachable.alloc _ 256 (Reachable.alloc _ 128 Reachable.init))).2 (Ptr.addr 128)).2⟩

/-- C20 (no adjacent free descriptors in any reachable state): in every
state reachable from the initialised pool no two physically adjacent
descriptors are both free.  Consequently the coalescing pass that `allocate`
runs when its first best-fit search fails returns the table unchanged, the
repeated search finds no candidate either, and that call returns NULL with
the state untouched. -/
theorem C20_reachable_no_adjacent_free (s : PoolState) (h : Reachable s) :
    no_adjacent_free s.blocks ∧
    coalesce_free_blocks s.blocks = s.blocks ∧
    (∀ want : Nat, find_best_fit_index s.blocks want = -1 →
      find_best_fit_index (coalesce_free_blocks s.blocks) want = -1) ∧
    (∀ size : Int, find_best_fit_index s.blocks size.toNat = -1 →
      allocate s size = (Ptr.null, s)) := by
  have hinv := pool_inv_of_reachable s h
  have hc := coalesce_id s.blocks hinv.separated
  refine ⟨(no_adjacent_free_iff _).2 hinv.separated, hc, ?_, ?_⟩
  · intro want e
    rw [hc]; exact e
  · intro size e
    rcases allocate_inv_cases s size hinv with ⟨_, e2⟩ |
      ⟨_, _, pre, blk, post, _, e3, _⟩
    · exact e2
    · rw [e] at e3; omega

theorem C20_reachable_no_adjacent_free_witness :
    Reachable freed_first ∧ no_adjacent_free freed_first.blocks ∧
      coalesce_free_blocks freed_first.blocks = freed_first.blocks :=
  ⟨Reachable.dealloc _ _ (Reachable.alloc _ 256 (Reachable.alloc _ 128 Reachable.init)),
    (C20_reachable_no_adjacent_free freed_first
      (Reachable.dealloc _ _ (Reachable.alloc _ 256 (Reachable.alloc _ 128 Reachable.init)))).1,
    (C20_reachable_no_adjacent_free freed_first
      (Reachable.dealloc _ _ (Reachable.alloc _ 256
        (Reachable.alloc _ 128 Reachable.init)))).2.1⟩

end BareMetal
